import Mathlib

/-!
BranchlessTest: the branchless tokenizer and the NUMA two-phase pipeline.

A shallow embedding of `ProcessingEngine.cpp` (the branchless char-pointer
variant): the classification table, `tokenize`, the size-sorted round-robin
partition, the node loaders and the worker pool, followed by the properties
checked against them.

Conventions of the embedding.
* A C `char` is its 8-bit pattern, a `Byte` (`Fin 256`).  `char` is signed on
  the target (x86-64 Linux, the platform of `numa.h`), so promotion to `int`
  is `charToInt`.  `a & b` on two chars, stored back into a char, is the
  bitwise AND of the two patterns.
* A heap buffer is the list of the bytes of its allocation; a pointer
  `&buffer[i]` is the offset `i`.  An access outside the allocation has no
  defined behaviour and makes the embedded function return `none`.
* `uintmax_t` counters are natural numbers reduced modulo `2 ^ 64`.
-/

namespace BranchlessTest

/-! ## Characters -/

/-- The 8-bit pattern of a C `char`. -/
abbrev Byte := Fin 256

/-- Integer promotion of a (signed) `char`: patterns 128..255 are negative. -/
def charToInt (c : Byte) : Int :=
  if c.val < 128 then (c.val : Int) else (c.val : Int) - 256

/-- Conversion of an `int` to `char`: the low 8 bits are kept. -/
def intToChar (x : Int) : Byte :=
  Fin.ofNat (x % 256).toNat

/-- The `int` constant `~0`. -/
def allOnes : Int := -1

/-- The C library classifier `isalnum` in the default "C" locale (the program
never calls `setlocale`): true exactly for the ASCII digits and letters.  For
the negative arguments that `static_cast<char>(i)` yields when `i >= 128` the
glibc lookup table answers false as well. -/
def isalnum (c : Int) : Bool :=
  (48 ≤ c && c ≤ 57) || (65 ≤ c && c ≤ 90) || (97 ≤ c && c ≤ 122)

/-! ## The classification table -/

/-- The array `char charDict[256]`: one `char` per index 0..255. -/
abbrev CharDict := Byte → Byte

/-- First loop of `initializeCharDict`, iteration `i`: `charDict[i] = ~0`. -/
def markWord (charDict : CharDict) (i : Nat) : CharDict :=
  Function.update charDict (Fin.ofNat i) (intToChar allOnes)

/-- Second loop of `initializeCharDict`, iteration `i`:
`if (!isalnum(static_cast<char>(i))) charDict[i] = 0`.  The cast makes a `char` of `i`,
which is promoted to `int` again as the argument of `isalnum`. -/
def markDelimiter (charDict : CharDict) (i : Nat) : CharDict :=
  if !isalnum (charToInt (intToChar (i : Int))) then
    Function.update charDict (Fin.ofNat i) (intToChar 0)
  else charDict

/-- `ProcessingEngine::initializeCharDict`: the argument is the uninitialised
array, the result its contents after the two loops over `i = 0 .. 255`. -/
def initializeCharDict (charDict : CharDict) : CharDict :=
  let afterFirst := (List.range 256).foldl markWord charDict
  (List.range 256).foldl markDelimiter afterFirst

/-- The table `indexFiles` builds: `initializeCharDict` run on a fresh array
(whose prior contents, here zeroes, are all overwritten). -/
def defaultCharDict : CharDict :=
  initializeCharDict (fun _ => 0)

/-! ## tokenize -/

/-- Local state of `tokenize`: the buffer being rewritten in place, the token
pointers pushed so far (as offsets) and `charPrev`. -/
structure TokenizeState where
  buffer : List Byte
  tokens : List Nat
  charPrev : Byte

/-- One iteration of the `for` loop of `tokenize`, at index `i`. -/
def tokenizeStep (charDict : CharDict) (st : TokenizeState) (i : Nat) : Option TokenizeState :=
  match st.buffer[i]? with
  | none => none
  | some c =>
    let charNext := charDict c
    let buffer := st.buffer.set i (c &&& charNext)
    let tokens :=
      if charToInt st.charPrev = 0 ∧ charToInt charNext = allOnes then st.tokens ++ [i]
      else st.tokens
    some { buffer := buffer, tokens := tokens, charPrev := charNext }

/-- `ProcessingEngine::tokenize(buffer, fileSize, charDict)`: byte 0 is
classified and masked unconditionally, then the loop runs over
`i = 1 .. fileSize - 1`.  The result is the returned vector of token pointers
(as offsets into `buffer`) and the buffer as the call leaves it. -/
def tokenize (buffer : List Byte) (fileSize : Nat) (charDict : CharDict) :
    Option (List Nat × List Byte) :=
  match buffer[0]? with
  | none => none
  | some c0 =>
    let charPrev := charDict c0
    let buffer0 := buffer.set 0 (c0 &&& charPrev)
    let tokens0 := if charToInt charPrev = allOnes then [0] else []
    ((List.range' 1 (fileSize - 1)).foldlM (tokenizeStep charDict)
        { buffer := buffer0, tokens := tokens0, charPrev := charPrev }).map
      fun st => (st.tokens, st.buffer)

/-! ## Files, NUMA topology and the file system -/

/-- The number of values of `uintmax_t`, `2 ^ 64`: counters of that type wrap modulo it. -/
def uintmaxModulus : Nat := 18446744073709551616

/-- An element of the crawler's result, `std::pair<std::string, uintmax_t>`: the path of a
regular file and its reported size. -/
abbrev FileInfo := String × Nat

/-- The struct `FileData` a loader pushes: `content` is the allocation that the single
pointer in the vector `content` addresses. -/
structure FileData where
  path : String
  content : List Byte
  size : Nat
  deriving DecidableEq

/-- What libnuma and the scheduler answer: `numa_max_node()`, and for each node the
return value of `numa_node_to_cpus` and of the `sched_setaffinity` call made with that
node's CPU set (0 on success).  `numa_max_node()` is bounded by the kernel's node limit,
so `int` arithmetic on it does not overflow. -/
structure Topology where
  numaMaxNode : Int
  nodeToCpus : Int → Int
  setAffinity : Int → Int

/-- A machine on which `numa_node_to_cpus` and `sched_setaffinity` return the same value
for every node. -/
def uniformTopology (numaMaxNode cpusRet affinityRet : Int) : Topology :=
  { numaMaxNode := numaMaxNode, nodeToCpus := fun _ => cpusRet,
    setAffinity := fun _ => affinityRet }

/-- What the file system answers for one path: whether `open` returned a descriptor,
the return value of `read(fd, buffer, fileSize)` (negative on error) and the bytes that
`read` stored at the start of the buffer. -/
structure FileOutcome where
  openOk : Bool
  bytesRead : Int
  data : List Byte

/-- The outcome of opening and reading each path (fixed for one run). -/
abbrev FileSystem := String → FileOutcome

/-- A line written to `std::cout` or `std::cerr` by a loader. -/
inductive LogLine where
  | cpusError (node_id : Int)
  | affinityError (thread_id node_id : Int)
  | affinitySet (thread_id node_id : Int)
  | runningOn (thread_id : Int)
  | openError (thread_id : Int) (filePath : String)
  | readError (thread_id : Int) (filePath : String)
  | completed (thread_id node_id : Int)
  deriving DecidableEq

/-! ## indexFiles: sort and round-robin partition -/

/-- The `std::sort` call of `indexFiles`, comparator `a.second > b.second`.  Its result
is a permutation of its input in which sizes never increase; `std::sort` leaves the order
among equal sizes open, and the embedding takes the one an insertion sort produces. -/
def sortBySizeDescending (fileInfos : List FileInfo) : List FileInfo :=
  fileInfos.insertionSort (fun a b => a.2 ≥ b.2)

/-- The node count `indexFiles` uses: `numa_max_node() + 1`, replaced by 1 when that is
not positive. -/
def indexFilesTotalNodes (numaMaxNode : Int) : Int :=
  let totalNodes := numaMaxNode + 1
  if totalNodes ≤ 0 then 1 else totalNodes

/-- The loop `for i: filesPerNode[i % totalNodes].emplace_back(fileInfos[i])`, started
from `totalNodes` empty vectors. -/
def splitRoundRobin (fileInfos : List FileInfo) (totalNodes : Nat) : List (List FileInfo) :=
  fileInfos.enum.foldl
    (fun filesPerNode entry => filesPerNode.modify (· ++ [entry.2]) (entry.1 % totalNodes))
    (List.replicate totalNodes [])

/-! ## loadFilesOnNode -/

/-- The test `filePath.find("/.") != std::string::npos` on the characters of the path. -/
def containsSlashDot : List Char → Bool
  | [] => false
  | c :: rest =>
    match c, rest with
    | '/', '.' :: _ => true
    | _, _ => containsSlashDot rest

/-- The allocation `new char[fileSize + 1]` after a `read` that stored `data` at its
start and after `buffer[fileSize] = 0`; bytes that `read` did not store are shown as 0. -/
def loadedBuffer (data : List Byte) (fileSize : Nat) : List Byte :=
  (data ++ List.replicate fileSize 0).take fileSize ++ [0]

/-- One iteration of the loop over `files` in `loadFilesOnNode`: the queue of the node
and the log, before and after.  File sizes are below `2 ^ 63`, so
`static_cast<ssize_t>(fileSize)` is `fileSize`. -/
def loadFile (fs : FileSystem) (thread_id : Int) (st : List FileData × List LogLine)
    (entry : FileInfo) : List FileData × List LogLine :=
  let filePath := entry.1
  let fileSize := entry.2
  if filePath.isEmpty || containsSlashDot filePath.toList then st
  else if !(fs filePath).openOk then (st.1, st.2 ++ [LogLine.openError thread_id filePath])
  else if (fs filePath).bytesRead = (fileSize : Int) then
    (st.1 ++ [{ path := filePath, content := loadedBuffer (fs filePath).data fileSize,
                size := fileSize }], st.2)
  else (st.1, st.2 ++ [LogLine.readError thread_id filePath])

/-- `ProcessingEngine::loadFilesOnNode`: the node queue after the call and the lines the
call logged.  A failing `numa_node_to_cpus` logs one line and returns at once. -/
def loadFilesOnNode (topo : Topology) (fs : FileSystem) (thread_id node_id : Int)
    (files : List FileInfo) (fileBuffer : List FileData) : List FileData × List LogLine :=
  if topo.nodeToCpus node_id ≠ 0 then (fileBuffer, [LogLine.cpusError node_id])
  else
    let pinned :=
      if topo.setAffinity node_id ≠ 0 then LogLine.affinityError thread_id node_id
      else LogLine.affinitySet thread_id node_id
    let loaded :=
      files.foldl (loadFile fs thread_id) (fileBuffer, [pinned, LogLine.runningOn thread_id])
    (loaded.1, loaded.2 ++ [LogLine.completed thread_id node_id])

/-- Phase 1 of `indexFiles`: one loader per node, thread id `node + 1`, each filling its
own initially empty queue (no two loaders share one, so the order in which they run does
not matter); the result is `fileBuffersPerNode` once all loaders are joined. -/
def loadAllNodes (topo : Topology) (fs : FileSystem) (filesPerNode : List (List FileInfo)) :
    List (List FileData) :=
  filesPerNode.enum.map fun entry =>
    (loadFilesOnNode topo fs ((entry.1 : Int) + 1) (entry.1 : Int) entry.2 []).1

/-! ## processFile: the worker pool -/

/-- The node a worker computes at the start of `processFile`:
`(thread_id - 1) % (numa_max_node() + 1)`, with the truncating remainder of C++ on `int`.
There is no fallback here: a zero divisor has no defined behaviour. -/
def processFileNode (numaMaxNode : Int) (thread_id : Int) : Option Int :=
  let totalNodes := numaMaxNode + 1
  if totalNodes = 0 then none else some (Int.tmod (thread_id - 1) totalNodes)

/-- Where a worker stands in the loop of `processFile`. -/
inductive WorkerPc where
  /-- At the top of the loop, about to lock its node's queue and look at it. -/
  | atPop
  /-- Holds a popped `FileData`; about to add its size to `totalBytes` (under
  `bytesMutex`) and to its own `bytesProcessed` entry, and to call `tokenize`. -/
  | addBytes (fileData : FileData)
  /-- Holds the number of tokens `tokenize` returned; about to add it to `totalTokens`
  (under `tokenMutex`) and to free the buffer. -/
  | addTokens (count : Nat)
  /-- Found its queue empty and left the loop. -/
  | exited
  deriving DecidableEq

/-- A worker thread: the node it computed at start and its position in the loop. -/
structure Worker where
  node : Nat
  pc : WorkerPc
  deriving DecidableEq

/-- The state the workers share in phase 2, and the workers themselves (worker `i` of the
list is the thread with `thread_id = i + 1`).  Timing is left out. -/
structure Phase2 where
  fileBuffersPerNode : List (List FileData)
  totalBytes : Nat
  totalTokens : Nat
  bytesProcessed : List Nat
  workers : List Worker
  deriving DecidableEq

/-- Worker `i` (thread id `i + 1`) as it enters its loop, with the node it computed.  An
undefined or negative node leaves the thread without defined behaviour. -/
def processFileStart (numaMaxNode : Int) (i : Nat) : Option Worker :=
  match processFileNode numaMaxNode ((i : Int) + 1) with
  | none => none
  | some node => if node < 0 then none else some { node := node.toNat, pc := WorkerPc.atPop }

/-- The worker threads as `indexFiles` creates them; the counters and the per-thread
vector start at zero. -/
def startWorkers (numaMaxNode : Int) (numThreads : Nat)
    (fileBuffersPerNode : List (List FileData)) : Option Phase2 :=
  ((List.range numThreads).mapM (processFileStart numaMaxNode)).map fun workers =>
    { fileBuffersPerNode := fileBuffersPerNode, totalBytes := 0, totalTokens := 0,
      bytesProcessed := List.replicate numThreads 0, workers := workers }

/-- One atomic step of worker `i` (the thread with id `i + 1`).  The mutexes make each of
the three shared accesses of an iteration atomic: the emptiness test with the pop, the
addition to `totalBytes`, the addition to `totalTokens`.  The entry
`bytesProcessed[thread_id - 1]` and the buffer are touched by this thread only, so their
updates are taken together with the neighbouring atomic access.  A step of a thread that
has exited, or of an index that names no thread, changes nothing. -/
def processFileStep (charDict : CharDict) (s : Phase2) (i : Nat) : Option Phase2 :=
  match s.workers[i]? with
  | none => some s
  | some w =>
    match w.pc with
    | WorkerPc.exited => some s
    | WorkerPc.atPop =>
      match s.fileBuffersPerNode[w.node]? with
      | none => none
      | some [] => some { s with workers := s.workers.set i { w with pc := WorkerPc.exited } }
      | some (fileData :: rest) =>
        some { s with
          fileBuffersPerNode := s.fileBuffersPerNode.set w.node rest,
          workers := s.workers.set i { w with pc := WorkerPc.addBytes fileData } }
    | WorkerPc.addBytes fileData =>
      match tokenize fileData.content fileData.size charDict with
      | none => none
      | some result =>
        some { s with
          totalBytes := (s.totalBytes + fileData.size) % uintmaxModulus,
          bytesProcessed :=
            s.bytesProcessed.modify (fun b => (b + fileData.size) % uintmaxModulus) i,
          workers := s.workers.set i { w with pc := WorkerPc.addTokens result.1.length } }
    | WorkerPc.addTokens count =>
      some { s with
        totalTokens := (s.totalTokens + count) % uintmaxModulus,
        workers := s.workers.set i { w with pc := WorkerPc.atPop } }

/-- Phase 2 under a schedule: the list of the worker indices in the order in which the
threads take their atomic steps. -/
def runWorkers (charDict : CharDict) (s : Phase2) (schedule : List Nat) : Option Phase2 :=
  schedule.foldlM (processFileStep charDict) s

/-- Every worker thread has left its loop, so the joins of `indexFiles` return. -/
def allExited (s : Phase2) : Bool :=
  s.workers.all fun w => decide (w.pc = WorkerPc.exited)

/-- The loop `totalProcessedBytes += bytesProcessed[i]` of `indexFiles`. -/
def totalProcessedBytes (s : Phase2) : Nat :=
  s.bytesProcessed.foldl (fun acc b => (acc + b) % uintmaxModulus) 0

/-- The loop `totalFilesLoaded += queue.size()` of `indexFiles`. -/
def totalFilesLoaded (fileBuffersPerNode : List (List FileData)) : Nat :=
  fileBuffersPerNode.foldl (fun acc queue => acc + queue.length) 0

/-- The queues `indexFiles` hands to phase 2: crawled list sorted, split over the nodes,
loaded by one loader per node. -/
def loadedQueues (topo : Topology) (fs : FileSystem) (crawled : List FileInfo) :
    List (List FileData) :=
  loadAllNodes topo fs
    (splitRoundRobin (sortBySizeDescending crawled) (indexFilesTotalNodes topo.numaMaxNode).toNat)

/-- `ProcessingEngine::indexFiles` up to the join of the workers: the state of phase 2
once the workers have taken their steps in the order `schedule`.  `crawled` is what
`crawlDataset` returned; `none` is a run without defined behaviour. -/
def indexFiles (topo : Topology) (fs : FileSystem) (numThreads : Nat)
    (crawled : List FileInfo) (schedule : List Nat) : Option Phase2 :=
  match startWorkers topo.numaMaxNode numThreads (loadedQueues topo fs crawled) with
  | none => none
  | some s0 => runWorkers defaultCharDict s0 schedule

/-! ## Quantities conserved by the worker pool -/

/-- The sum of the `size` fields of all buffers waiting in the queues. -/
def queuedBytes (fileBuffersPerNode : List (List FileData)) : Nat :=
  (fileBuffersPerNode.map fun queue => (queue.map fun fileData => fileData.size).sum).sum

/-- The number of tokens `tokenize` returns for the buffer of a `FileData`. -/
def tokenCount (charDict : CharDict) (fileData : FileData) : Nat :=
  match tokenize fileData.content fileData.size charDict with
  | none => 0
  | some result => result.1.length

/-- The sum over all buffers waiting in the queues of their token counts. -/
def queuedTokens (charDict : CharDict) (fileBuffersPerNode : List (List FileData)) : Nat :=
  (fileBuffersPerNode.map fun queue => (queue.map (tokenCount charDict)).sum).sum

/-- Bytes a worker has popped but not yet added to the counters. -/
def pendingBytes : WorkerPc → Nat
  | WorkerPc.addBytes fileData => fileData.size
  | _ => 0

/-- Tokens a worker has popped (or already counted locally) but not yet added to
`totalTokens`. -/
def pendingTokens (charDict : CharDict) : WorkerPc → Nat
  | WorkerPc.addBytes fileData => tokenCount charDict fileData
  | WorkerPc.addTokens count => count
  | _ => 0

/-- The pending bytes of all workers. -/
def inflightBytes (s : Phase2) : Nat :=
  (s.workers.map fun w => pendingBytes w.pc).sum

/-- The pending tokens of all workers. -/
def inflightTokens (charDict : CharDict) (s : Phase2) : Nat :=
  (s.workers.map fun w => pendingTokens charDict w.pc).sum

/-- The allocation of a `FileData` covers every byte `tokenize` touches for its size. -/
def bufferCovers (fileData : FileData) : Prop :=
  (fileData.size - 1) + 1 ≤ fileData.content.length

/-- Steps left before a worker at this position can leave its loop on an empty queue. -/
def pcWeight : WorkerPc → Nat
  | WorkerPc.atPop => 1
  | WorkerPc.addBytes _ => 3
  | WorkerPc.addTokens _ => 2
  | WorkerPc.exited => 0

/-- A bound on the number of steps the live workers can still take. -/
def stepsLeft (s : Phase2) : Nat :=
  (s.fileBuffersPerNode.map fun queue => 3 * queue.length).sum +
    (s.workers.map fun w => pcWeight w.pc).sum

/-- What the loop body of `loadFilesOnNode` pushes for one entry, if anything. -/
def loadResult (fs : FileSystem) (entry : FileInfo) : Option FileData :=
  if entry.1.isEmpty || containsSlashDot entry.1.toList then none
  else if !(fs entry.1).openOk then none
  else if (fs entry.1).bytesRead = (entry.2 : Int) then
    some { path := entry.1, content := loadedBuffer (fs entry.1).data entry.2, size := entry.2 }
  else none

/-- What every reachable state of phase 2 satisfies, for the byte total `bytes` and the
token total `tokens` of the buffers the loaders queued: counted, pending and queued
amounts add up to the totals modulo `2 ^ 64`, the two global counters are below `2 ^ 64`,
each thread has its `bytesProcessed` entry, and a worker that has exited has left its
queue empty. -/
structure PoolInvariant (charDict : CharDict) (bytes tokens : Nat) (s : Phase2) : Prop where
  bytesProcessed_sum :
    (s.bytesProcessed.sum + inflightBytes s + queuedBytes s.fileBuffersPerNode) %
        uintmaxModulus = bytes % uintmaxModulus
  totalBytes_sum :
    (s.totalBytes + inflightBytes s + queuedBytes s.fileBuffersPerNode) % uintmaxModulus =
      bytes % uintmaxModulus
  totalTokens_sum :
    (s.totalTokens + inflightTokens charDict s +
        queuedTokens charDict s.fileBuffersPerNode) % uintmaxModulus =
      tokens % uintmaxModulus
  totalBytes_lt : s.totalBytes < uintmaxModulus
  totalTokens_lt : s.totalTokens < uintmaxModulus
  length_eq : s.bytesProcessed.length = s.workers.length
  exited_empty : ∀ w ∈ s.workers, w.pc = WorkerPc.exited →
    s.fileBuffersPerNode[w.node]? = some []

/-- What makes every worker step defined: each worker's node indexes a queue, and the
allocation of every buffer, queued or popped, covers the bytes `tokenize` touches. -/
structure PoolSafe (s : Phase2) : Prop where
  node_lt : ∀ w ∈ s.workers, w.node < s.fileBuffersPerNode.length
  queued_covers : ∀ queue ∈ s.fileBuffersPerNode, ∀ fileData ∈ queue, bufferCovers fileData
  popped_covers : ∀ w ∈ s.workers, ∀ fileData, w.pc = WorkerPc.addBytes fileData →
    bufferCovers fileData

/-- The counters of phase 2 hold values of `uintmax_t`. -/
def countersInRange (s : Phase2) : Prop :=
  s.totalBytes < uintmaxModulus ∧ s.totalTokens < uintmaxModulus ∧
    ∀ b ∈ s.bytesProcessed, b < uintmaxModulus

/-! ## The slowest-thread scan -/

/-- Body of the loop of `indexFiles` that looks for the slowest thread, at index `entry.1`
with `tokenizationTimes[i] = entry.2`; the state is `(longestThreadId, longestTime)`.
A tokenization time is a finite `double`; only its order and its comparison with `0.0`
are used, so it is a rational here. -/
def slowestThreadStep (acc : Int × ℚ) (entry : Nat × ℚ) : Int × ℚ :=
  if entry.2 > acc.2 then ((entry.1 : Int) + 1, entry.2) else acc

/-- The scan `for (int i = 0; i < numThreads; ++i)` over the `numThreads` entries of
`tokenizationTimes`, from `longestThreadId = 0` and `longestTime = 0.0`; the result is
`(longestThreadId, longestTime)` as printed. -/
def slowestThread (tokenizationTimes : List ℚ) : Int × ℚ :=
  tokenizationTimes.enum.foldl slowestThreadStep (0, 0)

/-- The vector `tokenizationTimes(numThreads, 0.0)` as `indexFiles` creates it; a worker
writes its entry only after tokenizing a file. -/
def initialTokenizationTimes (numThreads : Nat) : List ℚ :=
  List.replicate numThreads 0

/-! ## The buffers the workers take and tokenize -/

/-- The buffer worker `i` takes from the front of its queue if its next step is taken
now, with its thread id; nothing if that step is not a pop. -/
def popEvent (s : Phase2) (i : Nat) : List (Nat × FileData) :=
  match s.workers[i]? with
  | none => []
  | some w =>
    match w.pc with
    | WorkerPc.atPop =>
      match s.fileBuffersPerNode[w.node]? with
      | some (fileData :: _) => [(i + 1, fileData)]
      | _ => []
    | _ => []

/-- The buffer worker `i` passes to `tokenize` if its next step is taken now, with its
thread id; nothing if that step does not call `tokenize`. -/
def tokenizeEvent (s : Phase2) (i : Nat) : List (Nat × FileData) :=
  match s.workers[i]? with
  | none => []
  | some w =>
    match w.pc with
    | WorkerPc.addBytes fileData => [(i + 1, fileData)]
    | _ => []

/-- The events of one kind along a schedule, in the order of the steps. -/
def eventTrace (charDict : CharDict) (event : Phase2 → Nat → List (Nat × FileData)) :
    Phase2 → List Nat → List (Nat × FileData)
  | _, [] => []
  | s, i :: rest =>
    match processFileStep charDict s i with
    | none => []
    | some s' => event s i ++ eventTrace charDict event s' rest

/-- The pops of a run of `indexFiles`: which thread took which buffer, in order. -/
def poppedBuffers (topo : Topology) (fs : FileSystem) (numThreads : Nat)
    (crawled : List FileInfo) (schedule : List Nat) : List (Nat × FileData) :=
  match startWorkers topo.numaMaxNode numThreads (loadedQueues topo fs crawled) with
  | none => []
  | some s0 => eventTrace defaultCharDict popEvent s0 schedule

/-- The calls of `tokenize` of a run of `indexFiles`: which thread tokenized which buffer,
in order. -/
def tokenizedBuffers (topo : Topology) (fs : FileSystem) (numThreads : Nat)
    (crawled : List FileInfo) (schedule : List Nat) : List (Nat × FileData) :=
  match startWorkers topo.numaMaxNode numThreads (loadedQueues topo fs crawled) with
  | none => []
  | some s0 => eventTrace defaultCharDict tokenizeEvent s0 schedule

/-- The buffer worker `i` has popped and not yet tokenized, with its thread id. -/
def heldBy (i : Nat) (w : Worker) : List (Nat × FileData) :=
  match w.pc with
  | WorkerPc.addBytes fileData => [(i + 1, fileData)]
  | _ => []

/-- The buffers popped and not yet tokenized, over all workers. -/
def heldBuffers (s : Phase2) : List (Nat × FileData) :=
  (s.workers.enum.map fun entry => heldBy entry.1 entry.2).flatten

/-! ## Example inputs -/

/-- A file system holding "a" with the 5 bytes "ab cd" and "b" with the 3 bytes "a b";
no other path opens. -/
def twoFiles : FileSystem := fun path =>
  if path = "a" then { openOk := true, bytesRead := 5, data := [97, 98, 32, 99, 100] }
  else if path = "b" then { openOk := true, bytesRead := 3, data := [97, 32, 98] }
  else { openOk := false, bytesRead := -1, data := [] }

/-- A file system holding "f100", "f50" and "f10" with 100, 50 and 10 letters "a". -/
def threeFiles : FileSystem := fun path =>
  if path = "f100" then { openOk := true, bytesRead := 100, data := List.replicate 100 97 }
  else if path = "f50" then { openOk := true, bytesRead := 50, data := List.replicate 50 97 }
  else if path = "f10" then { openOk := true, bytesRead := 10, data := List.replicate 10 97 }
  else { openOk := false, bytesRead := -1, data := [] }

/-- The state in which a run on one node ends: the queue empty, every worker exited. -/
def finishedOnOneNode (totalBytes totalTokens : Nat) (bytesProcessed : List Nat) : Phase2 :=
  { fileBuffersPerNode := [[]], totalBytes := totalBytes, totalTokens := totalTokens,
    bytesProcessed := bytesProcessed,
    workers := bytesProcessed.map fun _ => { node := 0, pc := WorkerPc.exited } }

/-- The state in which the run on `twoFiles` with two nodes and two workers ends. -/
def twoFilesFinished : Phase2 :=
  { fileBuffersPerNode := [[], []], totalBytes := 8, totalTokens := 4,
    bytesProcessed := [5, 3],
    workers := [{ node := 0, pc := WorkerPc.exited }, { node := 1, pc := WorkerPc.exited }] }

/-! ## Closed forms used to state what a loader leaves -/

/-- The line the loop body of `loadFilesOnNode` writes to `std::cerr` for one entry, if
any: one for a failed `open`, one for a `read` that did not return the reported size,
none for a skipped or a loaded entry. -/
def loadLogLine (fs : FileSystem) (thread_id : Int) (entry : FileInfo) : Option LogLine :=
  if entry.1.isEmpty || containsSlashDot entry.1.toList then none
  else if !(fs entry.1).openOk then some (LogLine.openError thread_id entry.1)
  else if (fs entry.1).bytesRead = (entry.2 : Int) then none
  else some (LogLine.readError thread_id entry.1)

/-- Whether an entry ends up on the queue: its path is not empty and has no "/." in it,
`open` succeeds and `read` returns the reported size. -/
def loads (fs : FileSystem) (entry : FileInfo) : Bool :=
  !entry.1.isEmpty && !containsSlashDot entry.1.toList && (fs entry.1).openOk &&
    decide ((fs entry.1).bytesRead = (entry.2 : Int))

/-- A file system with a readable "ok.txt" (3 bytes) and "late.txt" (2 bytes), a
"short.txt" of which `read` returns 2 bytes, an empty readable "empty.txt", a readable
"d/.h", and nothing else that opens. -/
def mixedFiles : FileSystem := fun path =>
  if path = "ok.txt" then { openOk := true, bytesRead := 3, data := [97, 98, 99] }
  else if path = "late.txt" then { openOk := true, bytesRead := 2, data := [120, 121] }
  else if path = "short.txt" then { openOk := true, bytesRead := 2, data := [97, 98] }
  else if path = "empty.txt" then { openOk := true, bytesRead := 0, data := [] }
  else if path = "d/.h" then { openOk := true, bytesRead := 2, data := [97, 98] }
  else { openOk := false, bytesRead := -1, data := [] }

/-! ## Reading the tokens back -/

/-- What a consumer reads at a token pointer `&buffer[start]`: the C string there, the
bytes from offset `start` up to, not including, the next zero byte. -/
def scanToZero (buffer : List Byte) (start : Nat) : List Byte :=
  (buffer.drop start).takeWhile fun c => decide (c ≠ 0)

/-- Whether a byte is a word character under the default rule. -/
def isWordByte (c : Byte) : Bool :=
  isalnum (charToInt c)

/-- The content split on its non-alphanumeric bytes, with the empty pieces dropped. -/
def alnumRuns (content : List Byte) : List (List Byte) :=
  (content.splitOnP fun c => !isWordByte c).filter fun piece => !piece.isEmpty

/-- The maximal runs of alphanumeric bytes that start inside the list, in order, given
whether the byte before the list is alphanumeric (`inRun`), in which case a run that
continues into the list is not one of them. -/
def runsFrom (inRun : Bool) : List Byte → List (List Byte)
  | [] => []
  | c :: rest =>
    if isWordByte c then
      if inRun then runsFrom true rest
      else (c :: rest.takeWhile isWordByte) :: runsFrom true rest
    else runsFrom false rest

/-- Whether the last byte of a prefix is alphanumeric (false for the empty prefix). -/
def endsInRun (before : List Byte) : Bool :=
  match before.getLast? with
  | none => false
  | some p => isWordByte p

/-! ## Closed forms used to state what tokenize computes -/

/-- The buffer after indices `0 .. m-1` have been masked in place. -/
def maskPrefix (charDict : CharDict) (buffer : List Byte) (m : Nat) : List Byte :=
  (buffer.take m).map (fun c => c &&& charDict c) ++ buffer.drop m

/-- Whether the loop pushes a token at index `i`: the class of byte `i` is
`~0` and, unless `i = 0`, the class of byte `i - 1` is `0`. -/
def isTokenStart (charDict : CharDict) (buffer : List Byte) (i : Nat) : Bool :=
  match buffer[i]? with
  | none => false
  | some c =>
    decide (charToInt (charDict c) = allOnes) &&
      (decide (i = 0) ||
        match buffer[i - 1]? with
        | none => false
        | some p => decide (charToInt (charDict p) = 0))

/-! ## Facts about the classification table -/

theorem ofNat_eq_iff (k : Nat) (hk : k < 256) (b : Byte) :
    b = Fin.ofNat k ↔ b.val = k := by
  constructor
  · intro h
    rw [h]
    exact Nat.mod_eq_of_lt hk
  · intro h
    apply Fin.ext
    rw [h]
    exact (Nat.mod_eq_of_lt hk).symm

theorem intToChar_natCast (k : Nat) : intToChar (k : Int) = Fin.ofNat k := by
  apply Fin.ext
  show ((k : Int) % 256).toNat % 256 = k % 256
  omega

theorem markWord_apply (d : CharDict) (k : Nat) (hk : k < 256) (b : Byte) :
    markWord d k b = if b.val = k then intToChar allOnes else d b := by
  unfold markWord
  by_cases hb : b.val = k
  · rw [if_pos hb, (ofNat_eq_iff k hk b).2 hb, Function.update_same]
  · rw [if_neg hb, Function.update_noteq (fun h => hb ((ofNat_eq_iff k hk b).1 h))]

theorem markDelimiter_apply (d : CharDict) (k : Nat) (hk : k < 256) (b : Byte) :
    markDelimiter d k b =
      if b.val = k ∧ isalnum (charToInt b) = false then intToChar 0 else d b := by
  unfold markDelimiter
  rw [intToChar_natCast]
  by_cases hb : b.val = k
  · have hbk := (ofNat_eq_iff k hk b).2 hb
    rw [← hbk]
    by_cases hal : isalnum (charToInt b) = false <;> simp [hal, hb]
  · have hne : b ≠ Fin.ofNat k := fun h => hb ((ofNat_eq_iff k hk b).1 h)
    by_cases hal : isalnum (charToInt (Fin.ofNat k)) = false <;>
      simp [hb, hal, Function.update_noteq hne]

/-- After the first `k` iterations of the first loop. -/
theorem foldl_markWord (k : Nat) (hk : k ≤ 256) (d : CharDict) (b : Byte) :
    ((List.range k).foldl markWord d) b = if b.val < k then intToChar allOnes else d b := by
  induction k with
  | zero => simp
  | succ k ih =>
    rw [List.range_succ, List.foldl_append, List.foldl_cons, List.foldl_nil,
      markWord_apply _ k (by omega), ih (by omega)]
    by_cases h1 : b.val = k
    · rw [if_pos h1, if_pos (by omega)]
    · rw [if_neg h1]
      by_cases h2 : b.val < k
      · rw [if_pos h2, if_pos (by omega)]
      · rw [if_neg h2, if_neg (by omega)]

/-- After the first `k` iterations of the second loop. -/
theorem foldl_markDelimiter (k : Nat) (hk : k ≤ 256) (d : CharDict) (b : Byte) :
    ((List.range k).foldl markDelimiter d) b =
      if b.val < k ∧ isalnum (charToInt b) = false then intToChar 0 else d b := by
  induction k with
  | zero => simp
  | succ k ih =>
    rw [List.range_succ, List.foldl_append, List.foldl_cons, List.foldl_nil,
      markDelimiter_apply _ k (by omega), ih (by omega)]
    by_cases hal : isalnum (charToInt b) = false
    · by_cases h1 : b.val = k
      · rw [if_pos ⟨h1, hal⟩, if_pos ⟨by omega, hal⟩]
      · rw [if_neg (fun h => h1 h.1)]
        by_cases h2 : b.val < k
        · rw [if_pos ⟨h2, hal⟩, if_pos ⟨by omega, hal⟩]
        · rw [if_neg (fun h => h2 h.1), if_neg (fun h => by omega)]
    · rw [if_neg (fun h => hal h.2), if_neg (fun h => hal h.2), if_neg (fun h => hal h.2)]

theorem initializeCharDict_apply (garbage : CharDict) (b : Byte) :
    initializeCharDict garbage b = if isalnum (charToInt b) then 255 else 0 := by
  unfold initializeCharDict
  rw [foldl_markDelimiter 256 (Nat.le_refl _), foldl_markWord 256 (Nat.le_refl _),
    if_pos b.isLt]
  by_cases hal : isalnum (charToInt b) = true
  · rw [if_neg (by simp [hal]), if_pos hal]
    decide
  · rw [if_pos ⟨b.isLt, by simpa using hal⟩, if_neg hal]
    decide

theorem defaultCharDict_apply (b : Byte) :
    defaultCharDict b = if isalnum (charToInt b) then 255 else 0 :=
  initializeCharDict_apply _ b

set_option maxRecDepth 100000 in
theorem isalnum_charToInt_iff : ∀ b : Byte, isalnum (charToInt b) = true ↔
      (48 ≤ b.val ∧ b.val ≤ 57) ∨ (65 ≤ b.val ∧ b.val ≤ 90) ∨ (97 ≤ b.val ∧ b.val ≤ 122) := by
  decide


/-! ## The loop of tokenize -/

theorem maskPrefix_length (charDict : CharDict) (buffer : List Byte) (m : Nat) :
    (maskPrefix charDict buffer m).length = buffer.length := by
  simp only [maskPrefix, List.length_append, List.length_map, List.length_take, List.length_drop]
  omega

theorem maskPrefix_getElem? (charDict : CharDict) (buffer : List Byte) (m j : Nat) :
    (maskPrefix charDict buffer m)[j]? =
      if j < m then (buffer[j]?).map (fun c => c &&& charDict c) else buffer[j]? := by
  unfold maskPrefix
  by_cases hj : j < m
  · rw [if_pos hj]
    by_cases hl : j < buffer.length
    · rw [List.getElem?_append_left (by simp; omega)]
      simp [List.getElem?_map, List.getElem?_take, hj]
    · rw [List.getElem?_eq_none (by simp; omega), List.getElem?_eq_none (by omega)]
      rfl
  · rw [if_neg hj]
    by_cases hl : m ≤ buffer.length
    · rw [List.getElem?_append_right (by simp; omega)]
      simp only [List.length_map, List.length_take, List.getElem?_drop]
      congr 1
      omega
    · rw [List.getElem?_eq_none (by simp; omega), List.getElem?_eq_none (by omega)]

theorem maskPrefix_set (charDict : CharDict) (buffer : List Byte) (m : Nat) (c : Byte)
    (hc : buffer[m]? = some c) :
    (maskPrefix charDict buffer m).set m (c &&& charDict c) = maskPrefix charDict buffer (m + 1) := by
  apply List.ext_getElem?
  intro j
  rw [List.getElem?_set, maskPrefix_getElem?, maskPrefix_getElem?, maskPrefix_length]
  have hm : m < buffer.length := by
    by_contra h
    rw [List.getElem?_eq_none (by omega)] at hc
    cases hc
  by_cases hj : m = j
  · subst hj
    simp [hm, hc]
  · rw [if_neg hj]
    by_cases h1 : j < m
    · rw [if_pos h1, if_pos (by omega)]
    · rw [if_neg h1, if_neg (by omega)]

theorem filter_range_succ (p : Nat → Bool) (m : Nat) :
    (List.range (m + 1)).filter p = (List.range m).filter p ++ if p m then [m] else [] := by
  rw [List.range_succ, List.filter_append]
  by_cases h : p m <;> simp [h]

/-- One loop iteration at index `m`, when indices below `m` are already masked. -/
theorem tokenizeStep_maskPrefix (charDict : CharDict) (buffer : List Byte) (m : Nat)
    (hm : m < buffer.length) (toks : List Nat) (cp : Byte) :
    tokenizeStep charDict
        { buffer := maskPrefix charDict buffer m, tokens := toks, charPrev := cp } m =
      some { buffer := maskPrefix charDict buffer (m + 1),
             tokens := if charToInt cp = 0 ∧ charToInt (charDict buffer[m]) = allOnes
               then toks ++ [m] else toks,
             charPrev := charDict buffer[m] } := by
  have hget : (maskPrefix charDict buffer m)[m]? = some buffer[m] := by
    rw [maskPrefix_getElem?, if_neg (by omega)]
    exact List.getElem?_eq_getElem hm
  simp only [tokenizeStep, hget]
  rw [maskPrefix_set _ _ _ _ (List.getElem?_eq_getElem hm)]

/-- The state in which the loop of `tokenize` reaches index `k + 1`. -/
theorem tokenize_loop (charDict : CharDict) (buffer : List Byte) (c0 : Byte)
    (h0 : buffer[0]? = some c0) (k : Nat) (hk : k + 1 ≤ buffer.length) :
    ∃ cp, buffer[k]? = some cp ∧
      (List.range' 1 k).foldlM (tokenizeStep charDict)
          { buffer := buffer.set 0 (c0 &&& charDict c0),
            tokens := if charToInt (charDict c0) = allOnes then [0] else [],
            charPrev := charDict c0 } =
        some { buffer := maskPrefix charDict buffer (k + 1),
               tokens := (List.range (k + 1)).filter (isTokenStart charDict buffer),
               charPrev := charDict cp } := by
  induction k with
  | zero =>
    refine ⟨c0, h0, ?_⟩
    have hset : buffer.set 0 (c0 &&& charDict c0) = maskPrefix charDict buffer 1 := by
      have := maskPrefix_set charDict buffer 0 c0 h0
      simpa [maskPrefix] using this
    have htok : (if charToInt (charDict c0) = allOnes then [0] else []) =
        (List.range 1).filter (isTokenStart charDict buffer) := by
      by_cases h : charToInt (charDict c0) = allOnes <;>
        simp [List.range_succ, isTokenStart, h0, h]
    simp [hset, htok]
  | succ k ih =>
    obtain ⟨cp, hcp, hfold⟩ := ih (by omega)
    have hlt : k + 1 < buffer.length := by omega
    refine ⟨buffer[k + 1], List.getElem?_eq_getElem hlt, ?_⟩
    have hstart : isTokenStart charDict buffer (k + 1) =
        decide (charToInt (charDict cp) = 0 ∧ charToInt (charDict buffer[k + 1]) = allOnes) := by
      simp [isTokenStart, List.getElem?_eq_getElem hlt, hcp, Bool.and_comm]
    rw [List.range'_concat, List.foldlM_append, hfold, show 1 + 1 * k = k + 1 by omega]
    simp only [Option.bind_eq_bind, Option.some_bind, List.foldlM_cons, List.foldlM_nil,
      Option.pure_def, Option.bind_some]
    rw [tokenizeStep_maskPrefix _ _ _ hlt, filter_range_succ _ (k + 1), hstart]
    by_cases h : charToInt (charDict cp) = 0 ∧ charToInt (charDict buffer[k + 1]) = allOnes
    · simp [h]
    · simp [h]

/-- What `tokenize` returns whenever the allocation covers the bytes it touches. -/
theorem tokenize_eq (charDict : CharDict) (buffer : List Byte) (n : Nat)
    (hn : (n - 1) + 1 ≤ buffer.length) :
    tokenize buffer n charDict =
      some ((List.range ((n - 1) + 1)).filter (isTokenStart charDict buffer),
            maskPrefix charDict buffer ((n - 1) + 1)) := by
  have h0lt : 0 < buffer.length := by omega
  have h0 : buffer[0]? = some buffer[0] := List.getElem?_eq_getElem h0lt
  obtain ⟨cp, _, hfold⟩ := tokenize_loop charDict buffer buffer[0] h0 (n - 1) hn
  unfold tokenize
  simp only [h0]
  rw [hfold]
  rfl


theorem range'_one_split (L k : Nat) (hL : 1 ≤ L) (hk : L ≤ k) :
    List.range' 1 k = List.range' 1 (L - 1) ++ L :: List.range' (L + 1) (k - L) := by
  have h := List.range'_append 1 (L - 1) (k - L + 1) 1
  rw [show 1 + 1 * (L - 1) = L by omega, show k - L + 1 + (L - 1) = k by omega,
    List.range'_succ] at h
  exact h.symm

/-- The loop runs past the allocation: the access at index `buffer.length` is undefined. -/
theorem tokenize_eq_none (charDict : CharDict) (buffer : List Byte) (n : Nat)
    (hn : buffer.length < (n - 1) + 1) :
    tokenize buffer n charDict = none := by
  by_cases hlen : buffer.length = 0
  · have : buffer[0]? = none := List.getElem?_eq_none (by omega)
    simp [tokenize, this]
  · have h0lt : 0 < buffer.length := by omega
    have h0 : buffer[0]? = some buffer[0] := List.getElem?_eq_getElem h0lt
    obtain ⟨cp, _, hfold⟩ :=
      tokenize_loop charDict buffer buffer[0] h0 (buffer.length - 1) (by omega)
    have hsplit : List.range' 1 (n - 1) =
        List.range' 1 (buffer.length - 1) ++
          buffer.length :: List.range' (buffer.length + 1) (n - 1 - buffer.length) :=
      range'_one_split buffer.length (n - 1) (by omega) (by omega)
    have hstep : ∀ toks cq, tokenizeStep charDict
        { buffer := maskPrefix charDict buffer (buffer.length - 1 + 1), tokens := toks,
          charPrev := cq } buffer.length = none := by
      intro toks cq
      have : (maskPrefix charDict buffer (buffer.length - 1 + 1))[buffer.length]? = none :=
        List.getElem?_eq_none (by rw [maskPrefix_length])
      simp only [tokenizeStep, this]
    unfold tokenize
    simp only [h0]
    rw [hsplit, List.foldlM_append, hfold]
    simp only [Option.bind_eq_bind, Option.some_bind, List.foldlM_cons, hstep, Option.none_bind,
      Option.map_none']

/-! ## The default table, byte by byte -/

set_option maxRecDepth 100000 in
theorem isalnum_charToInt_cases : ∀ b : Byte,
    (if isalnum (charToInt b) then (255 : Byte) else 0) = 255 ∧ isalnum (charToInt b) = true ∧
        b &&& 255 = b ∨
      (if isalnum (charToInt b) then (255 : Byte) else 0) = 0 ∧ isalnum (charToInt b) = false ∧
        b &&& 0 = 0 := by
  decide

/-- Every entry of the default table is `0xFF` on an alphanumeric byte, where masking
keeps the byte, or `0` on any other byte, where masking clears it. -/
theorem defaultCharDict_cases (b : Byte) :
    (defaultCharDict b = 255 ∧ isalnum (charToInt b) = true ∧ b &&& defaultCharDict b = b) ∨
      (defaultCharDict b = 0 ∧ isalnum (charToInt b) = false ∧ b &&& defaultCharDict b = 0) := by
  rw [defaultCharDict_apply]
  rcases isalnum_charToInt_cases b with ⟨h1, h2, h3⟩ | ⟨h1, h2, h3⟩
  · left; rw [h1]; exact ⟨rfl, h2, h3⟩
  · right; rw [h1]; exact ⟨rfl, h2, h3⟩

theorem defaultCharDict_word_iff (b : Byte) :
    charToInt (defaultCharDict b) = allOnes ↔ defaultCharDict b = 255 := by
  rcases defaultCharDict_cases b with ⟨h, _, _⟩ | ⟨h, _, _⟩ <;> rw [h] <;> decide

theorem defaultCharDict_delimiter_iff (b : Byte) :
    charToInt (defaultCharDict b) = 0 ↔ defaultCharDict b = 0 := by
  rcases defaultCharDict_cases b with ⟨h, _, _⟩ | ⟨h, _, _⟩ <;> rw [h] <;> decide

/-- Masking a byte does not change its class under the default table. -/
theorem defaultCharDict_mask (b : Byte) :
    defaultCharDict (b &&& defaultCharDict b) = defaultCharDict b := by
  rcases defaultCharDict_cases b with ⟨_, _, h⟩ | ⟨h0, _, h⟩
  · rw [h]
  · rw [h, h0]
    rcases defaultCharDict_cases 0 with ⟨_, h2, _⟩ | ⟨h1, _, _⟩
    · exact absurd h2 (by decide)
    · exact h1

theorem isTokenStart_default_iff (buffer : List Byte) (i : Nat) :
    isTokenStart defaultCharDict buffer i = true ↔
      ∃ c, buffer[i]? = some c ∧ defaultCharDict c = 255 ∧
        (i = 0 ∨ ∃ p, buffer[i - 1]? = some p ∧ defaultCharDict p = 0) := by
  unfold isTokenStart
  cases hc : buffer[i]? with
  | none => simp
  | some c =>
    cases hp : buffer[i - 1]? with
    | none => simp [defaultCharDict_word_iff]
    | some p => simp [defaultCharDict_word_iff, defaultCharDict_delimiter_iff]


/-! ## Claims about tokenize and the table -/

theorem tokenize_default_eq (buffer : List Byte) (n : Nat) (h1 : 1 ≤ n)
    (hn : n ≤ buffer.length) :
    tokenize buffer n defaultCharDict =
      some ((List.range n).filter (isTokenStart defaultCharDict buffer),
            maskPrefix defaultCharDict buffer n) := by
  have h := tokenize_eq defaultCharDict buffer n (by omega)
  rwa [show n - 1 + 1 = n by omega] at h

theorem filter_isTokenStart_all_alnum (buffer : List Byte) (n : Nat) (h1 : 1 ≤ n)
    (hn : n ≤ buffer.length)
    (hall : ∀ i c, i < n → buffer[i]? = some c → isalnum (charToInt c) = true) :
    (List.range n).filter (isTokenStart defaultCharDict buffer) = [0] := by
  have hword : ∀ i c, i < n → buffer[i]? = some c → defaultCharDict c = 255 := by
    intro i c hi hc
    rcases defaultCharDict_cases c with ⟨h, _, _⟩ | ⟨_, h, _⟩
    · exact h
    · rw [hall i c hi hc] at h; cases h
  obtain ⟨m, rfl⟩ : ∃ m, n = m + 1 := ⟨n - 1, by omega⟩
  have h0 : buffer[0]? = some buffer[0] := List.getElem?_eq_getElem (by omega)
  have hz : isTokenStart defaultCharDict buffer 0 = true :=
    (isTokenStart_default_iff buffer 0).2 ⟨_, h0, hword 0 _ (by omega) h0, Or.inl rfl⟩
  rw [List.range_succ_eq_map, List.filter_cons, if_pos hz]
  congr 1
  rw [List.filter_eq_nil_iff]
  intro a ha
  obtain ⟨j, hj, rfl⟩ := List.mem_map.1 ha
  rw [List.mem_range] at hj
  intro hstart
  obtain ⟨c, _, _, hprev⟩ := (isTokenStart_default_iff buffer (j + 1)).1 hstart
  rcases hprev with h | ⟨p, hp, hp0⟩
  · omega
  · have := hword j p (by omega) (by simpa using hp)
    rw [this] at hp0
    exact absurd hp0 (by decide)

/-- C1: for a buffer whose first `n >= 1` bytes are allocated and the default table,
`tokenize` returns, in strictly increasing order, exactly the offsets `i < n` whose byte
is WORD-classified (table entry `0xFF`) and that are `0` or follow a DELIMITER-classified
byte (table entry `0`); a buffer of alphanumeric bytes only gives the single start `0`. -/
theorem tokenize_starts_at_word_after_delimiter (buffer : List Byte) (n : Nat)
    (h1 : 1 ≤ n) (hn : n ≤ buffer.length) :
    ∃ tokens buffer', tokenize buffer n defaultCharDict = some (tokens, buffer') ∧
      tokens.Sorted (· < ·) ∧
      (∀ i, i ∈ tokens ↔
        i < n ∧ ∃ c, buffer[i]? = some c ∧ defaultCharDict c = 255 ∧
          (i = 0 ∨ ∃ p, buffer[i - 1]? = some p ∧ defaultCharDict p = 0)) ∧
      ((∀ i c, i < n → buffer[i]? = some c → isalnum (charToInt c) = true) →
        tokens = [0]) := by
  refine ⟨_, _, tokenize_default_eq buffer n h1 hn, ?_, ?_, ?_⟩
  · exact (List.pairwise_lt_range n).filter _
  · intro i
    rw [List.mem_filter, List.mem_range, isTokenStart_default_iff]
  · exact filter_isTokenStart_all_alnum buffer n h1 hn

/-- C1 on the spec's scenario: "ab cd" (5 bytes) gives the starts 0 and 3. -/
theorem tokenize_starts_at_word_after_delimiter_witness :
    tokenize [97, 98, 32, 99, 100] 5 defaultCharDict = some ([0, 3], [97, 98, 0, 99, 100]) ∧
    ∃ tokens buffer', tokenize [97, 98, 32, 99, 100] 5 defaultCharDict = some (tokens, buffer') ∧
      tokens.Sorted (· < ·) ∧
      (∀ i, i ∈ tokens ↔
        i < 5 ∧ ∃ c, [97, 98, 32, 99, 100][i]? = some c ∧ defaultCharDict c = 255 ∧
          (i = 0 ∨ ∃ p, [97, 98, 32, 99, 100][i - 1]? = some p ∧ defaultCharDict p = 0)) ∧
      ((∀ i c, i < 5 → [97, 98, 32, 99, 100][i]? = some c → isalnum (charToInt c) = true) →
        tokens = [0]) :=
  ⟨by decide!,
   tokenize_starts_at_word_after_delimiter [97, 98, 32, 99, 100] 5 (by decide) (by decide)⟩


/-- C2: for a buffer whose first `n >= 1` bytes are allocated and the default table,
`tokenize` leaves at every `i < n` the original byte ANDed with its class: `0` where the
original byte is a delimiter (not alphanumeric), the original byte where it is a word
character (alphanumeric); the allocation keeps its length. -/
theorem tokenize_masks_each_byte (buffer : List Byte) (n : Nat)
    (h1 : 1 ≤ n) (hn : n ≤ buffer.length) :
    ∃ tokens buffer', tokenize buffer n defaultCharDict = some (tokens, buffer') ∧
      buffer'.length = buffer.length ∧
      ∀ i c, i < n → buffer[i]? = some c →
        buffer'[i]? = some (c &&& defaultCharDict c) ∧
        (isalnum (charToInt c) = false → defaultCharDict c = 0 ∧ buffer'[i]? = some 0) ∧
        (isalnum (charToInt c) = true → defaultCharDict c = 255 ∧ buffer'[i]? = some c) := by
  refine ⟨_, _, tokenize_default_eq buffer n h1 hn, maskPrefix_length _ _ _, ?_⟩
  intro i c hi hc
  have hget : (maskPrefix defaultCharDict buffer n)[i]? = some (c &&& defaultCharDict c) := by
    rw [maskPrefix_getElem?, if_pos hi, hc]
    rfl
  refine ⟨hget, ?_, ?_⟩
  · intro hal
    rcases defaultCharDict_cases c with ⟨_, h, _⟩ | ⟨h0, _, hm⟩
    · rw [hal] at h; cases h
    · exact ⟨h0, by rw [hget, hm]⟩
  · intro hal
    rcases defaultCharDict_cases c with ⟨h0, _, hm⟩ | ⟨_, h, _⟩
    · exact ⟨h0, by rw [hget, hm]⟩
    · rw [hal] at h; cases h

/-- C2 on the spec's scenario: in "ab cd" the space at offset 2 becomes 0 and the other
four bytes stay. -/
theorem tokenize_masks_each_byte_witness :
    tokenize [97, 98, 32, 99, 100] 5 defaultCharDict = some ([0, 3], [97, 98, 0, 99, 100]) ∧
    ∃ tokens buffer', tokenize [97, 98, 32, 99, 100] 5 defaultCharDict = some (tokens, buffer') ∧
      buffer'.length = [(97 : Byte), 98, 32, 99, 100].length ∧
      ∀ i c, i < 5 → [(97 : Byte), 98, 32, 99, 100][i]? = some c →
        buffer'[i]? = some (c &&& defaultCharDict c) ∧
        (isalnum (charToInt c) = false → defaultCharDict c = 0 ∧ buffer'[i]? = some 0) ∧
        (isalnum (charToInt c) = true → defaultCharDict c = 255 ∧ buffer'[i]? = some c) :=
  ⟨by decide!,
   tokenize_masks_each_byte [97, 98, 32, 99, 100] 5 (by decide) (by decide)⟩

/-- C3: whatever the array held before, after `initializeCharDict` the entry of a byte
value `b` is `0xFF` (WORD) exactly when `b` is an ASCII digit or letter and `0`
(DELIMITER) exactly when it is not, so every entry from 128 up is `0` and no entry has a
third value. -/
theorem initializeCharDict_classifies (garbage : CharDict) (b : Byte) :
    (initializeCharDict garbage b = 255 ↔
      (48 ≤ b.val ∧ b.val ≤ 57) ∨ (65 ≤ b.val ∧ b.val ≤ 90) ∨ (97 ≤ b.val ∧ b.val ≤ 122)) ∧
    (initializeCharDict garbage b = 0 ↔
      ¬ ((48 ≤ b.val ∧ b.val ≤ 57) ∨ (65 ≤ b.val ∧ b.val ≤ 90) ∨
        (97 ≤ b.val ∧ b.val ≤ 122))) ∧
    (128 ≤ b.val → initializeCharDict garbage b = 0) ∧
    (initializeCharDict garbage b = 255 ∨ initializeCharDict garbage b = 0) := by
  rw [initializeCharDict_apply, ← isalnum_charToInt_iff]
  by_cases hal : isalnum (charToInt b) = true
  · have hb : b.val < 128 := by
      rcases (isalnum_charToInt_iff b).1 hal with h | h | h <;> omega
    rw [if_pos hal]
    exact ⟨⟨fun _ => hal, fun _ => rfl⟩, ⟨fun h => absurd h (by decide), fun h => absurd hal h⟩,
      fun h => absurd hb (by omega), Or.inl rfl⟩
  · rw [if_neg hal]
    exact ⟨⟨fun h => absurd h (by decide), fun h => absurd h hal⟩, ⟨fun _ => hal, fun _ => rfl⟩,
      fun _ => rfl, Or.inr rfl⟩

theorem isTokenStart_congr_take (charDict : CharDict) (buffer other : List Byte) (n i : Nat)
    (htake : other.take n = buffer.take n) (hi : i < n) :
    isTokenStart charDict other i = isTokenStart charDict buffer i := by
  have hget : ∀ (l : List Byte) (j : Nat), j < n → (l.take n)[j]? = l[j]? := by
    intro l j hj
    rw [List.getElem?_take, if_pos hj]
  have h1 : other[i]? = buffer[i]? := by
    rw [← hget other i hi, ← hget buffer i hi, htake]
  have h2 : other[i - 1]? = buffer[i - 1]? := by
    rw [← hget other (i - 1) (by omega), ← hget buffer (i - 1) (by omega), htake]
  unfold isTokenStart
  rw [h1, h2]

theorem maskPrefix_take (charDict : CharDict) (buffer : List Byte) (n : Nat)
    (hn : n ≤ buffer.length) :
    (maskPrefix charDict buffer n).take n = (buffer.take n).map fun c => c &&& charDict c := by
  unfold maskPrefix
  rw [List.take_append_of_le_length (by simp [hn]), List.take_of_length_le (by simp)]

theorem maskPrefix_default_twice (buffer : List Byte) (m : Nat) :
    maskPrefix defaultCharDict (maskPrefix defaultCharDict buffer m) m =
      maskPrefix defaultCharDict buffer m := by
  apply List.ext_getElem?
  intro j
  by_cases hj : j < m
  · simp only [maskPrefix_getElem?, hj, if_true]
    cases buffer[j]? with
    | none => rfl
    | some c =>
      simp only [Option.map_some']
      rw [defaultCharDict_mask]
      rcases defaultCharDict_cases c with ⟨h0, _, h⟩ | ⟨h0, _, h⟩
      · rw [h0] at h ⊢; rw [h, h]
      · rw [h0] at h ⊢; rw [h]; rfl
  · simp only [maskPrefix_getElem?, hj, if_false]

theorem isTokenStart_maskPrefix_default (buffer : List Byte) (m i : Nat) (hi : i < m) :
    isTokenStart defaultCharDict (maskPrefix defaultCharDict buffer m) i =
      isTokenStart defaultCharDict buffer i := by
  unfold isTokenStart
  have hi1 : i - 1 < m := by omega
  simp only [maskPrefix_getElem?, hi, hi1, if_true]
  cases buffer[i]? with
  | none => rfl
  | some c =>
    cases buffer[i - 1]? with
    | none => simp [defaultCharDict_mask]
    | some p => simp [defaultCharDict_mask]

/-- A second pass over an already tokenized buffer repeats the first pass. -/
theorem tokenize_default_twice (buffer : List Byte) (n : Nat) (first : List Nat × List Byte)
    (h : tokenize buffer n defaultCharDict = some first) :
    tokenize first.2 n defaultCharDict = some first := by
  by_cases hn : (n - 1) + 1 ≤ buffer.length
  · rw [tokenize_eq _ _ _ hn] at h
    cases h
    rw [tokenize_eq _ _ _ (by rw [maskPrefix_length]; exact hn), maskPrefix_default_twice]
    congr 2
    apply List.filter_congr
    intro i hi
    exact isTokenStart_maskPrefix_default buffer _ i (List.mem_range.1 hi)
  · rw [tokenize_eq_none _ _ _ (by omega)] at h
    cases h

/-- C8 as stated is false: no buffer and size exist for which `tokenize` with the default
table, run again on the buffer the first pass left, gives other token starts or other
buffer contents than the first pass (or fails). -/
theorem no_buffer_retokenizes_differently :
    ¬ ∃ (buffer : List Byte) (n : Nat) (first : List Nat × List Byte),
        tokenize buffer n defaultCharDict = some first ∧
        tokenize first.2 n defaultCharDict ≠ some first := by
  rintro ⟨buffer, n, first, h1, h2⟩
  exact h2 (tokenize_default_twice buffer n first h1)

/-- C8 amended: with the default table `tokenize` is idempotent: whenever a first pass
returns, a second pass over the buffer it left returns the same token starts and leaves
the same buffer contents. -/
theorem tokenize_default_idempotent (buffer : List Byte) (n : Nat)
    (tokens : List Nat) (buffer' : List Byte)
    (h : tokenize buffer n defaultCharDict = some (tokens, buffer')) :
    tokenize buffer' n defaultCharDict = some (tokens, buffer') :=
  tokenize_default_twice buffer n (tokens, buffer') h

/-- C8 amended, on "ab cd": both passes give starts 0, 3 and the buffer "ab\0cd". -/
theorem tokenize_default_idempotent_witness :
    tokenize [97, 98, 32, 99, 100] 5 defaultCharDict = some ([0, 3], [97, 98, 0, 99, 100]) ∧
    tokenize [97, 98, 0, 99, 100] 5 defaultCharDict = some ([0, 3], [97, 98, 0, 99, 100]) :=
  ⟨by decide!,
   tokenize_default_idempotent [97, 98, 32, 99, 100] 5 [0, 3] [97, 98, 0, 99, 100] (by decide!)⟩



/-! ## The round-robin partition -/

theorem splitRoundRobin_concat (l : List FileInfo) (x : FileInfo) (n : Nat) :
    splitRoundRobin (l ++ [x]) n =
      (splitRoundRobin l n).modify (· ++ [x]) (l.length % n) := by
  unfold splitRoundRobin
  rw [List.enum_append, List.foldl_append]
  rfl

theorem splitRoundRobin_length (l : List FileInfo) (n : Nat) :
    (splitRoundRobin l n).length = n := by
  induction l using List.reverseRecOn with
  | nil => simp [splitRoundRobin]
  | append_singleton l x ih => rw [splitRoundRobin_concat, List.length_modify, ih]

/-- Partition `j` holds the entries at the indices `i` with `i % n = j`, in index order. -/
theorem splitRoundRobin_getElem? (l : List FileInfo) (n j : Nat) (hj : j < n) :
    (splitRoundRobin l n)[j]? =
      some ((List.range l.length).filterMap fun i => if i % n = j then l[i]? else none) := by
  induction l using List.reverseRecOn with
  | nil => simp [splitRoundRobin, hj]
  | append_singleton l x ih =>
    rw [splitRoundRobin_concat, List.getElem?_modify, ih, List.length_append,
      List.length_singleton, List.range_succ, List.filterMap_append]
    have hold : ((List.range l.length).filterMap fun i =>
          if i % n = j then (l ++ [x])[i]? else none) =
        (List.range l.length).filterMap fun i => if i % n = j then l[i]? else none := by
      apply List.filterMap_congr
      intro i hi
      rw [List.getElem?_append_left (List.mem_range.1 hi)]
    rw [hold]
    by_cases hm : l.length % n = j
    · simp [hm]
    · simp [hm]

theorem flatten_modify_concat {α : Type} (x : α) (parts : List (List α)) (k : Nat)
    (hk : k < parts.length) :
    (parts.modify (· ++ [x]) k).flatten.Perm (x :: parts.flatten) := by
  induction parts generalizing k with
  | nil => simp at hk
  | cons p ps ih =>
    cases k with
    | zero =>
      have h0 : (p :: ps).modify (· ++ [x]) 0 = (p ++ [x]) :: ps := rfl
      rw [h0]
      simp only [List.flatten_cons, List.append_assoc, List.singleton_append]
      exact List.perm_middle
    | succ k =>
      have h := ih k (by simpa using hk)
      simp only [List.modify_succ_cons, List.flatten_cons]
      exact (List.Perm.append_left p h).trans List.perm_middle

theorem splitRoundRobin_flatten_perm (l : List FileInfo) (n : Nat) (hn : 1 ≤ n) :
    (splitRoundRobin l n).flatten.Perm l := by
  induction l using List.reverseRecOn with
  | nil => simp [splitRoundRobin]
  | append_singleton l x ih =>
    rw [splitRoundRobin_concat]
    have hk : l.length % n < (splitRoundRobin l n).length := by
      rw [splitRoundRobin_length]
      exact Nat.mod_lt _ (by omega)
    refine (flatten_modify_concat x _ _ hk).trans ?_
    exact (List.Perm.cons x ih).trans (List.perm_append_singleton x l).symm

/-- C6: for every crawled list and every node count `nodeCount >= 1`, the sort yields a
permutation of the crawled list with sizes never increasing; and for every list `sorted`
that is a permutation of the crawled list (whatever order `std::sort` gives equal sizes),
the round-robin split of it makes `nodeCount` partitions of which partition `j` holds
exactly the entries at the sorted indices `i` with `i % nodeCount = j`; so the entry at
sorted index `i` is in partition `i % nodeCount`, and the partitions taken together are a
permutation of the crawled list. -/
theorem partitions_cover_each_file_once (crawled sorted : List FileInfo) (nodeCount : Nat)
    (hn : 1 ≤ nodeCount) (hsorted : sorted.Perm crawled) :
    (sortBySizeDescending crawled).Perm crawled ∧
    (sortBySizeDescending crawled).Sorted (fun a b => a.2 ≥ b.2) ∧
    (splitRoundRobin sorted nodeCount).length = nodeCount ∧
    (∀ j, j < nodeCount →
      (splitRoundRobin sorted nodeCount)[j]? =
        some ((List.range sorted.length).filterMap fun i =>
          if i % nodeCount = j then sorted[i]? else none)) ∧
    (∀ i entry, sorted[i]? = some entry →
      ∃ part, (splitRoundRobin sorted nodeCount)[i % nodeCount]? = some part ∧ entry ∈ part) ∧
    (splitRoundRobin sorted nodeCount).flatten.Perm crawled := by
  refine ⟨List.perm_insertionSort _ _, ?_, splitRoundRobin_length _ _, ?_, ?_, ?_⟩
  · haveI : IsTotal FileInfo (fun a b => a.2 ≥ b.2) := ⟨fun a b => Nat.le_total b.2 a.2⟩
    haveI : IsTrans FileInfo (fun a b => a.2 ≥ b.2) := ⟨fun a b c h1 h2 => Nat.le_trans h2 h1⟩
    exact List.sorted_insertionSort _ _
  · intro j hj
    exact splitRoundRobin_getElem? _ _ _ hj
  · intro i entry hi
    have hlt : i < sorted.length := by
      by_contra h
      rw [List.getElem?_eq_none (by omega)] at hi
      cases hi
    refine ⟨_, splitRoundRobin_getElem? _ _ _ (Nat.mod_lt _ (by omega)), ?_⟩
    rw [List.mem_filterMap]
    exact ⟨i, List.mem_range.2 hlt, by simp [hi]⟩
  · exact (splitRoundRobin_flatten_perm _ _ hn).trans hsorted

/-- C6 on five files and two nodes: sorted sizes 7, 3, 3, 2, 1 go to node 0, 1, 0, 1, 0. -/
theorem partitions_cover_each_file_once_witness :
    sortBySizeDescending [("a", 1), ("b", 3), ("c", 2), ("d", 7), ("e", 3)] =
      [("d", 7), ("b", 3), ("e", 3), ("c", 2), ("a", 1)] ∧
    splitRoundRobin [("d", 7), ("b", 3), ("e", 3), ("c", 2), ("a", 1)] 2 =
      [[("d", 7), ("e", 3), ("a", 1)], [("b", 3), ("c", 2)]] ∧
    (splitRoundRobin [("d", 7), ("b", 3), ("e", 3), ("c", 2), ("a", 1)] 2).flatten.Perm
      [("a", 1), ("b", 3), ("c", 2), ("d", 7), ("e", 3)] :=
  have hsort : sortBySizeDescending [("a", 1), ("b", 3), ("c", 2), ("d", 7), ("e", 3)] =
      [("d", 7), ("b", 3), ("e", 3), ("c", 2), ("a", 1)] := by decide
  ⟨hsort, by decide,
   (partitions_cover_each_file_once [("a", 1), ("b", 3), ("c", 2), ("d", 7), ("e", 3)]
      [("d", 7), ("b", 3), ("e", 3), ("c", 2), ("a", 1)] 2 (by decide)
      (hsort ▸ List.perm_insertionSort _ _)).2.2.2.2.2⟩

/-! ## The loaders -/

/-- The queue a loader leaves does not depend on what it has logged. -/
theorem foldl_loadFile_queue (fs : FileSystem) (thread_id : Int) (files : List FileInfo)
    (queue : List FileData) (log1 log2 : List LogLine) :
    (files.foldl (loadFile fs thread_id) (queue, log1)).1 =
      (files.foldl (loadFile fs thread_id) (queue, log2)).1 := by
  induction files generalizing queue log1 log2 with
  | nil => rfl
  | cons entry rest ih =>
    simp only [List.foldl_cons]
    unfold loadFile
    simp only
    split
    · exact ih _ _ _
    · split
      · exact ih _ _ _
      · split
        · exact ih _ _ _
        · exact ih _ _ _

/-! ## Node assignment and topology failures -/

/-- C9: `processFile` recomputes the node count as `numa_max_node() + 1` without the
fallback of `indexFiles`.  When `numa_max_node()` is -1, `indexFiles` makes one queue and
worker 1 takes a remainder by zero; when it is -3, worker 2 gets node 1 for a single
queue.  When `numa_max_node()` is not negative the worker's node is
`(thread_id - 1) mod nodeCount`, a valid queue index, and 3 workers on 2 nodes get the
nodes 0, 1, 0. -/
theorem processFile_node_lacks_fallback :
    (indexFilesTotalNodes (-1) = 1 ∧ processFileNode (-1) 1 = none) ∧
    (indexFilesTotalNodes (-3) = 1 ∧ processFileNode (-3) 2 = some 1) ∧
    (processFileNode 1 1 = some 0 ∧ processFileNode 1 2 = some 1 ∧
      processFileNode 1 3 = some 0) ∧
    ∀ numaMaxNode thread_id : Int, 0 ≤ numaMaxNode → 1 ≤ thread_id →
      processFileNode numaMaxNode thread_id =
          some ((thread_id - 1) % indexFilesTotalNodes numaMaxNode) ∧
        0 ≤ (thread_id - 1) % indexFilesTotalNodes numaMaxNode ∧
        (thread_id - 1) % indexFilesTotalNodes numaMaxNode < indexFilesTotalNodes numaMaxNode := by
  refine ⟨by decide, by decide, by decide, ?_⟩
  intro numaMaxNode thread_id hm ht
  have htot : indexFilesTotalNodes numaMaxNode = numaMaxNode + 1 := by
    unfold indexFilesTotalNodes
    simp only
    rw [if_neg (by omega)]
  have hpos : (0 : Int) < numaMaxNode + 1 := by omega
  rw [htot]
  refine ⟨?_, Int.emod_nonneg _ (by omega), Int.emod_lt_of_pos _ hpos⟩
  unfold processFileNode
  simp only
  rw [if_neg (by omega), Int.tmod_eq_emod (by omega) (by omega)]

/-- C10: a failing `numa_node_to_cpus` makes `loadFilesOnNode` log one line and return
with the queue as it was, whatever list it was assigned; a failing `sched_setaffinity`
does leave the same queue as a successful one.  On the readable 3-byte file "a.txt" the
first leaves an empty queue where a successful pinning leaves one buffer. -/
theorem loadFilesOnNode_returns_early_without_cpus :
    (∀ (topo : Topology) (fs : FileSystem) (thread_id node_id : Int) (files : List FileInfo)
        (fileBuffer : List FileData), topo.nodeToCpus node_id ≠ 0 →
      loadFilesOnNode topo fs thread_id node_id files fileBuffer =
        (fileBuffer, [LogLine.cpusError node_id])) ∧
    (∀ (fs : FileSystem) (thread_id node_id : Int) (files : List FileInfo)
        (fileBuffer : List FileData) (ret numaMaxNode : Int),
      (loadFilesOnNode (uniformTopology numaMaxNode 0 ret) fs thread_id node_id files
          fileBuffer).1 =
        (loadFilesOnNode (uniformTopology numaMaxNode 0 0) fs thread_id node_id files
          fileBuffer).1) ∧
    loadFilesOnNode (uniformTopology 0 0 0)
        (fun _ => { openOk := true, bytesRead := 3, data := [97, 98, 99] }) 1 0
        [("a.txt", 3)] [] =
      ([{ path := "a.txt", content := [97, 98, 99, 0], size := 3 }],
        [LogLine.affinitySet 1 0, LogLine.runningOn 1, LogLine.completed 1 0]) ∧
    loadFilesOnNode (uniformTopology 0 0 (-1))
        (fun _ => { openOk := true, bytesRead := 3, data := [97, 98, 99] }) 1 0
        [("a.txt", 3)] [] =
      ([{ path := "a.txt", content := [97, 98, 99, 0], size := 3 }],
        [LogLine.affinityError 1 0, LogLine.runningOn 1, LogLine.completed 1 0]) ∧
    loadFilesOnNode (uniformTopology 0 (-1) 0)
        (fun _ => { openOk := true, bytesRead := 3, data := [97, 98, 99] }) 1 0
        [("a.txt", 3)] [] =
      ([], [LogLine.cpusError 0]) := by
  refine ⟨?_, ?_, by decide, by decide, by decide⟩
  · intro topo fs thread_id node_id files fileBuffer h
    unfold loadFilesOnNode
    rw [if_pos h]
  · intro fs thread_id node_id files fileBuffer ret numaMaxNode
    unfold loadFilesOnNode uniformTopology
    simp only [ne_eq, not_true_eq_false, if_false]
    exact foldl_loadFile_queue fs thread_id files _ _ _


/-! ## Sums over lists that change in one place -/

theorem sum_map_set {α : Type} (f : α → Nat) (l : List α) (i : Nat) (a b : α)
    (h : l[i]? = some a) :
    ((l.set i b).map f).sum + f a = (l.map f).sum + f b := by
  induction l generalizing i with
  | nil => simp at h
  | cons x xs ih =>
    cases i with
    | zero =>
      simp only [List.getElem?_cons_zero, Option.some.injEq] at h
      subst h
      simp only [List.set_cons_zero, List.map_cons, List.sum_cons]
      omega
    | succ i =>
      simp only [List.getElem?_cons_succ] at h
      have := ih i h
      simp only [List.set_cons_succ, List.map_cons, List.sum_cons]
      omega

theorem sum_modify (g : Nat → Nat) (l : List Nat) (i : Nat) (a : Nat) (h : l[i]? = some a) :
    (l.modify g i).sum + a = l.sum + g a := by
  induction l generalizing i with
  | nil => simp at h
  | cons x xs ih =>
    cases i with
    | zero =>
      simp only [List.getElem?_cons_zero, Option.some.injEq] at h
      subst h
      have h0 : (x :: xs).modify g 0 = g x :: xs := rfl
      rw [h0]
      simp only [List.sum_cons]
      omega
    | succ i =>
      simp only [List.getElem?_cons_succ] at h
      have := ih i h
      simp only [List.modify_succ_cons, List.sum_cons]
      omega

theorem foldl_add_mod (l : List Nat) (acc : Nat) :
    l.foldl (fun acc b => (acc + b) % uintmaxModulus) acc % uintmaxModulus =
      (acc + l.sum) % uintmaxModulus := by
  induction l generalizing acc with
  | nil => simp
  | cons x xs ih =>
    rw [List.foldl_cons, ih, List.sum_cons]
    unfold uintmaxModulus
    omega

theorem foldl_add_mod_lt (l : List Nat) (acc : Nat) (hacc : acc < uintmaxModulus) :
    l.foldl (fun acc b => (acc + b) % uintmaxModulus) acc < uintmaxModulus := by
  induction l generalizing acc with
  | nil => exact hacc
  | cons x xs ih =>
    rw [List.foldl_cons]
    exact ih _ (Nat.mod_lt _ (by decide))

theorem totalProcessedBytes_eq (s : Phase2) :
    totalProcessedBytes s = s.bytesProcessed.sum % uintmaxModulus := by
  have h := foldl_add_mod s.bytesProcessed 0
  rw [Nat.zero_add, Nat.mod_eq_of_lt (foldl_add_mod_lt _ 0 (by decide))] at h
  exact h

/-! ## The steps of a worker -/

/-- The five kinds of atomic step: nothing to do, exit on an empty queue, pop, count the
bytes and tokenize, count the tokens. -/
theorem processFileStep_cases (charDict : CharDict) (s s' : Phase2) (i : Nat)
    (h : processFileStep charDict s i = some s') :
    (s' = s ∧ ∀ w, s.workers[i]? = some w → w.pc = WorkerPc.exited) ∨
    (∃ w, s.workers[i]? = some w ∧ w.pc = WorkerPc.atPop ∧
      s.fileBuffersPerNode[w.node]? = some [] ∧
      s' = { s with workers := s.workers.set i { w with pc := WorkerPc.exited } }) ∨
    (∃ w fileData rest, s.workers[i]? = some w ∧ w.pc = WorkerPc.atPop ∧
      s.fileBuffersPerNode[w.node]? = some (fileData :: rest) ∧
      s' = { s with
        fileBuffersPerNode := s.fileBuffersPerNode.set w.node rest,
        workers := s.workers.set i { w with pc := WorkerPc.addBytes fileData } }) ∨
    (∃ w fileData result, s.workers[i]? = some w ∧ w.pc = WorkerPc.addBytes fileData ∧
      tokenize fileData.content fileData.size charDict = some result ∧
      s' = { s with
        totalBytes := (s.totalBytes + fileData.size) % uintmaxModulus,
        bytesProcessed :=
          s.bytesProcessed.modify (fun b => (b + fileData.size) % uintmaxModulus) i,
        workers := s.workers.set i { w with pc := WorkerPc.addTokens result.1.length } }) ∨
    (∃ w count, s.workers[i]? = some w ∧ w.pc = WorkerPc.addTokens count ∧
      s' = { s with
        totalTokens := (s.totalTokens + count) % uintmaxModulus,
        workers := s.workers.set i { w with pc := WorkerPc.atPop } }) := by
  unfold processFileStep at h
  cases hw : s.workers[i]? with
  | none =>
    rw [hw] at h
    simp only [Option.some.injEq] at h
    exact Or.inl ⟨h.symm, fun w hw' => by cases hw'⟩
  | some w =>
    rw [hw] at h
    simp only at h
    cases hpc : w.pc with
    | exited =>
      rw [hpc] at h
      simp only [Option.some.injEq] at h
      exact Or.inl ⟨h.symm, fun w' hw' => by cases hw'; exact hpc⟩
    | atPop =>
      rw [hpc] at h
      simp only at h
      cases hq : s.fileBuffersPerNode[w.node]? with
      | none => rw [hq] at h; cases h
      | some queue =>
        rw [hq] at h
        cases queue with
        | nil =>
          simp only [Option.some.injEq] at h
          exact Or.inr (Or.inl ⟨w, rfl, hpc, hq, h.symm⟩)
        | cons fileData rest =>
          simp only [Option.some.injEq] at h
          exact Or.inr (Or.inr (Or.inl ⟨w, fileData, rest, rfl, hpc, hq, h.symm⟩))
    | addBytes fileData =>
      rw [hpc] at h
      simp only at h
      cases ht : tokenize fileData.content fileData.size charDict with
      | none => rw [ht] at h; cases h
      | some result =>
        rw [ht] at h
        simp only [Option.some.injEq] at h
        exact Or.inr (Or.inr (Or.inr (Or.inl ⟨w, fileData, result, rfl, hpc, ht, h.symm⟩)))
    | addTokens count =>
      rw [hpc] at h
      simp only [Option.some.injEq] at h
      exact Or.inr (Or.inr (Or.inr (Or.inr ⟨w, count, rfl, hpc, h.symm⟩)))

theorem inflightBytes_of_set {s s' : Phase2} {i : Nat} {w w' : Worker}
    (hw : s.workers[i]? = some w) (hs : s'.workers = s.workers.set i w') :
    inflightBytes s' + pendingBytes w.pc = inflightBytes s + pendingBytes w'.pc := by
  unfold inflightBytes
  rw [hs]
  exact sum_map_set (fun w => pendingBytes w.pc) s.workers i w w' hw

theorem inflightTokens_of_set (charDict : CharDict) {s s' : Phase2} {i : Nat} {w w' : Worker}
    (hw : s.workers[i]? = some w) (hs : s'.workers = s.workers.set i w') :
    inflightTokens charDict s' + pendingTokens charDict w.pc =
      inflightTokens charDict s + pendingTokens charDict w'.pc := by
  unfold inflightTokens
  rw [hs]
  exact sum_map_set (fun w => pendingTokens charDict w.pc) s.workers i w w' hw

theorem queuedBytes_of_pop {queues : List (List FileData)} {k : Nat} {fileData : FileData}
    {rest : List FileData} (hq : queues[k]? = some (fileData :: rest)) :
    queuedBytes (queues.set k rest) + fileData.size = queuedBytes queues := by
  have h := sum_map_set (fun queue : List FileData => (queue.map fun fd => fd.size).sum)
    queues k (fileData :: rest) rest hq
  simp only [List.map_cons, List.sum_cons] at h
  unfold queuedBytes
  omega

theorem queuedTokens_of_pop (charDict : CharDict) {queues : List (List FileData)} {k : Nat}
    {fileData : FileData} {rest : List FileData} (hq : queues[k]? = some (fileData :: rest)) :
    queuedTokens charDict (queues.set k rest) + tokenCount charDict fileData =
      queuedTokens charDict queues := by
  have h := sum_map_set (fun queue : List FileData => (queue.map (tokenCount charDict)).sum)
    queues k (fileData :: rest) rest hq
  simp only [List.map_cons, List.sum_cons] at h
  unfold queuedTokens
  omega

theorem poolInvariant_step {charDict : CharDict} {bytes tokens : Nat} {s s' : Phase2}
    {i : Nat} (inv : PoolInvariant charDict bytes tokens s)
    (h : processFileStep charDict s i = some s') : PoolInvariant charDict bytes tokens s' := by
  obtain ⟨hbp, htb, htok, hltB, hltT, hlen, hexit⟩ := inv
  rcases processFileStep_cases charDict s s' i h with
    ⟨rfl, -⟩ | ⟨w, hw, hpc, hq, hs'⟩ | ⟨w, fileData, rest, hw, hpc, hq, hs'⟩ |
      ⟨w, fileData, result, hw, hpc, ht, hs'⟩ | ⟨w, count, hw, hpc, hs'⟩
  · exact ⟨hbp, htb, htok, hltB, hltT, hlen, hexit⟩
  · -- exit on an empty queue
    have eW : s'.workers = s.workers.set i { w with pc := WorkerPc.exited } := by rw [hs']
    have eQ : s'.fileBuffersPerNode = s.fileBuffersPerNode := by rw [hs']
    have eP : s'.bytesProcessed = s.bytesProcessed := by rw [hs']
    have eB : s'.totalBytes = s.totalBytes := by rw [hs']
    have eT : s'.totalTokens = s.totalTokens := by rw [hs']
    have hB := inflightBytes_of_set hw eW
    have hT := inflightTokens_of_set charDict hw eW
    rw [hpc] at hB hT
    simp only [pendingBytes, pendingTokens] at hB hT
    refine ⟨?_, ?_, ?_, ?_, ?_, ?_, ?_⟩
    · rw [eP, eQ]; unfold uintmaxModulus at hbp ⊢; omega
    · rw [eB, eQ]; unfold uintmaxModulus at htb ⊢; omega
    · rw [eT, eQ]; unfold uintmaxModulus at htok ⊢; omega
    · rw [eB]; unfold uintmaxModulus at hltB ⊢; omega
    · rw [eT]; unfold uintmaxModulus at hltT ⊢; omega
    · rw [eP, eW, List.length_set]; exact hlen
    · intro w' hw' hpc'
      rw [eW] at hw'
      rw [eQ]
      rcases List.mem_or_eq_of_mem_set hw' with hmem | rfl
      · exact hexit w' hmem hpc'
      · exact hq
  · -- pop
    have eW : s'.workers = s.workers.set i { w with pc := WorkerPc.addBytes fileData } := by
      rw [hs']
    have eQ : s'.fileBuffersPerNode = s.fileBuffersPerNode.set w.node rest := by rw [hs']
    have eP : s'.bytesProcessed = s.bytesProcessed := by rw [hs']
    have eB : s'.totalBytes = s.totalBytes := by rw [hs']
    have eT : s'.totalTokens = s.totalTokens := by rw [hs']
    have hB := inflightBytes_of_set hw eW
    have hT := inflightTokens_of_set charDict hw eW
    have hQB := queuedBytes_of_pop hq
    have hQT := queuedTokens_of_pop charDict hq
    rw [hpc] at hB hT
    simp only [pendingBytes, pendingTokens] at hB hT
    refine ⟨?_, ?_, ?_, ?_, ?_, ?_, ?_⟩
    · rw [eP, eQ]; unfold uintmaxModulus at hbp ⊢; omega
    · rw [eB, eQ]; unfold uintmaxModulus at htb ⊢; omega
    · rw [eT, eQ]; unfold uintmaxModulus at htok ⊢; omega
    · rw [eB]; unfold uintmaxModulus at hltB ⊢; omega
    · rw [eT]; unfold uintmaxModulus at hltT ⊢; omega
    · rw [eP, eW, List.length_set]; exact hlen
    · intro w' hw' hpc'
      rw [eW] at hw'
      rw [eQ]
      rcases List.mem_or_eq_of_mem_set hw' with hmem | rfl
      · have hold := hexit w' hmem hpc'
        rw [List.getElem?_set]
        by_cases hn : w.node = w'.node
        · rw [hn] at hq
          rw [hq] at hold
          cases hold
        · rw [if_neg hn]
          exact hold
      · cases hpc'
  · -- count the bytes, tokenize
    have eW : s'.workers =
        s.workers.set i { w with pc := WorkerPc.addTokens result.1.length } := by rw [hs']
    have eQ : s'.fileBuffersPerNode = s.fileBuffersPerNode := by rw [hs']
    have eP : s'.bytesProcessed =
        s.bytesProcessed.modify (fun b => (b + fileData.size) % uintmaxModulus) i := by
      rw [hs']
    have eB : s'.totalBytes = (s.totalBytes + fileData.size) % uintmaxModulus := by rw [hs']
    have eT : s'.totalTokens = s.totalTokens := by rw [hs']
    have hB := inflightBytes_of_set hw eW
    have hT := inflightTokens_of_set charDict hw eW
    have hcount : tokenCount charDict fileData = result.1.length := by
      simp only [tokenCount, ht]
    rw [hpc] at hB hT
    simp only [pendingBytes, pendingTokens, hcount] at hB hT
    have hi : i < s.bytesProcessed.length := by
      rw [hlen]
      by_contra hge
      rw [List.getElem?_eq_none (by omega)] at hw
      cases hw
    have hM := sum_modify (fun b => (b + fileData.size) % uintmaxModulus) s.bytesProcessed i
      _ (List.getElem?_eq_getElem hi)
    simp only at hM
    refine ⟨?_, ?_, ?_, ?_, ?_, ?_, ?_⟩
    · rw [eP, eQ]; unfold uintmaxModulus at hbp hM ⊢; omega
    · rw [eB, eQ]; unfold uintmaxModulus at htb ⊢; omega
    · rw [eT, eQ]; unfold uintmaxModulus at htok ⊢; omega
    · rw [eB]; unfold uintmaxModulus at hltB ⊢; omega
    · rw [eT]; unfold uintmaxModulus at hltT ⊢; omega
    · rw [eP, eW, List.length_set, List.length_modify]; exact hlen
    · intro w' hw' hpc'
      rw [eW] at hw'
      rw [eQ]
      rcases List.mem_or_eq_of_mem_set hw' with hmem | rfl
      · exact hexit w' hmem hpc'
      · cases hpc'
  · -- count the tokens
    have eW : s'.workers = s.workers.set i { w with pc := WorkerPc.atPop } := by rw [hs']
    have eQ : s'.fileBuffersPerNode = s.fileBuffersPerNode := by rw [hs']
    have eP : s'.bytesProcessed = s.bytesProcessed := by rw [hs']
    have eB : s'.totalBytes = s.totalBytes := by rw [hs']
    have eT : s'.totalTokens = (s.totalTokens + count) % uintmaxModulus := by rw [hs']
    have hB := inflightBytes_of_set hw eW
    have hT := inflightTokens_of_set charDict hw eW
    rw [hpc] at hB hT
    simp only [pendingBytes, pendingTokens] at hB hT
    refine ⟨?_, ?_, ?_, ?_, ?_, ?_, ?_⟩
    · rw [eP, eQ]; unfold uintmaxModulus at hbp ⊢; omega
    · rw [eB, eQ]; unfold uintmaxModulus at htb ⊢; omega
    · rw [eT, eQ]; unfold uintmaxModulus at htok ⊢; omega
    · rw [eB]; unfold uintmaxModulus at hltB ⊢; omega
    · rw [eT]; unfold uintmaxModulus at hltT ⊢; omega
    · rw [eP, eW, List.length_set]; exact hlen
    · intro w' hw' hpc'
      rw [eW] at hw'
      rw [eQ]
      rcases List.mem_or_eq_of_mem_set hw' with hmem | rfl
      · exact hexit w' hmem hpc'
      · cases hpc'

theorem poolInvariant_run {charDict : CharDict} {bytes tokens : Nat} (schedule : List Nat)
    {s s' : Phase2} (inv : PoolInvariant charDict bytes tokens s)
    (h : runWorkers charDict s schedule = some s') : PoolInvariant charDict bytes tokens s' := by
  induction schedule generalizing s with
  | nil =>
    simp only [runWorkers, List.foldlM_nil, Option.pure_def, Option.some.injEq] at h
    exact h ▸ inv
  | cons i rest ih =>
    simp only [runWorkers, List.foldlM_cons, Option.bind_eq_bind] at h
    cases hstep : processFileStep charDict s i with
    | none => rw [hstep] at h; cases h
    | some s1 =>
      rw [hstep, Option.some_bind] at h
      exact ih (poolInvariant_step inv hstep) h


/-! ## Which queues have a worker -/

theorem map_set_same {α β : Type} (f : α → β) (l : List α) (i : Nat) (a b : α)
    (h : l[i]? = some a) (hf : f b = f a) : (l.set i b).map f = l.map f := by
  induction l generalizing i with
  | nil => rfl
  | cons x xs ih =>
    cases i with
    | zero =>
      simp only [List.getElem?_cons_zero, Option.some.injEq] at h
      subst h
      simp only [List.set_cons_zero, List.map_cons, hf]
    | succ i =>
      simp only [List.getElem?_cons_succ] at h
      simp only [List.set_cons_succ, List.map_cons, ih i h]

/-- A step changes neither the node of any worker nor the number of queues. -/
theorem processFileStep_nodes {charDict : CharDict} {s s' : Phase2} {i : Nat}
    (h : processFileStep charDict s i = some s') :
    s'.workers.map (fun w => w.node) = s.workers.map (fun w => w.node) ∧
      s'.fileBuffersPerNode.length = s.fileBuffersPerNode.length := by
  rcases processFileStep_cases charDict s s' i h with
    ⟨rfl, -⟩ | ⟨w, hw, hpc, hq, hs'⟩ | ⟨w, fileData, rest, hw, hpc, hq, hs'⟩ |
      ⟨w, fileData, result, hw, hpc, ht, hs'⟩ | ⟨w, count, hw, hpc, hs'⟩
  · exact ⟨rfl, rfl⟩
  · rw [hs']
    exact ⟨map_set_same _ _ _ _ _ hw rfl, rfl⟩
  · rw [hs']
    exact ⟨map_set_same _ _ _ _ _ hw rfl, List.length_set _ _ _⟩
  · rw [hs']
    exact ⟨map_set_same _ _ _ _ _ hw rfl, rfl⟩
  · rw [hs']
    exact ⟨map_set_same _ _ _ _ _ hw rfl, rfl⟩

theorem runWorkers_nodes {charDict : CharDict} (schedule : List Nat) {s s' : Phase2}
    (h : runWorkers charDict s schedule = some s') :
    s'.workers.map (fun w => w.node) = s.workers.map (fun w => w.node) ∧
      s'.fileBuffersPerNode.length = s.fileBuffersPerNode.length := by
  induction schedule generalizing s with
  | nil =>
    simp only [runWorkers, List.foldlM_nil, Option.pure_def, Option.some.injEq] at h
    subst h
    exact ⟨rfl, rfl⟩
  | cons i rest ih =>
    simp only [runWorkers, List.foldlM_cons, Option.bind_eq_bind] at h
    cases hstep : processFileStep charDict s i with
    | none => rw [hstep] at h; cases h
    | some s1 =>
      rw [hstep, Option.some_bind] at h
      obtain ⟨h1, h2⟩ := ih h
      obtain ⟨h3, h4⟩ := processFileStep_nodes hstep
      exact ⟨h1.trans h3, h2.trans h4⟩

/-- Once every worker has exited, nothing is pending; if every queue has a worker, every
queue is empty, and the counters hold the totals modulo `2 ^ 64`. -/
theorem poolInvariant_final {charDict : CharDict} {bytes tokens : Nat} {s : Phase2}
    (inv : PoolInvariant charDict bytes tokens s) (hdone : allExited s = true)
    (hcover : ∀ k, k < s.fileBuffersPerNode.length → k ∈ s.workers.map (fun w => w.node)) :
    (∀ queue ∈ s.fileBuffersPerNode, queue = []) ∧
    s.bytesProcessed.sum % uintmaxModulus = bytes % uintmaxModulus ∧
    s.totalBytes = bytes % uintmaxModulus ∧
    s.totalTokens = tokens % uintmaxModulus := by
  have hex : ∀ w ∈ s.workers, w.pc = WorkerPc.exited := by
    intro w hw
    have := List.all_eq_true.1 hdone w hw
    simpa using this
  have hempty : ∀ queue ∈ s.fileBuffersPerNode, queue = [] := by
    intro queue hqueue
    obtain ⟨k, hk, rfl⟩ := List.getElem_of_mem hqueue
    obtain ⟨w, hw, hnode⟩ := List.mem_map.1 (hcover k hk)
    have := inv.exited_empty w hw (hex w hw)
    rw [hnode, List.getElem?_eq_getElem hk] at this
    exact Option.some.inj this
  have hB : inflightBytes s = 0 := by
    unfold inflightBytes
    apply List.sum_eq_zero
    intro x hx
    obtain ⟨w, hw, rfl⟩ := List.mem_map.1 hx
    rw [hex w hw]
    rfl
  have hT : inflightTokens charDict s = 0 := by
    unfold inflightTokens
    apply List.sum_eq_zero
    intro x hx
    obtain ⟨w, hw, rfl⟩ := List.mem_map.1 hx
    rw [hex w hw]
    rfl
  have hQB : queuedBytes s.fileBuffersPerNode = 0 := by
    unfold queuedBytes
    apply List.sum_eq_zero
    intro x hx
    obtain ⟨queue, hqueue, rfl⟩ := List.mem_map.1 hx
    rw [hempty queue hqueue]
    rfl
  have hQT : queuedTokens charDict s.fileBuffersPerNode = 0 := by
    unfold queuedTokens
    apply List.sum_eq_zero
    intro x hx
    obtain ⟨queue, hqueue, rfl⟩ := List.mem_map.1 hx
    rw [hempty queue hqueue]
    rfl
  obtain ⟨hbp, htb, htok, hltB, hltT, -, -⟩ := inv
  rw [hB, hQB] at hbp htb
  rw [hT, hQT] at htok
  refine ⟨hempty, ?_, ?_, ?_⟩
  · unfold uintmaxModulus at hbp ⊢; omega
  · unfold uintmaxModulus at htb hltB ⊢; omega
  · unfold uintmaxModulus at htok hltT ⊢; omega

/-! ## Every run can be completed -/

theorem poolSafe_step {charDict : CharDict} {s s' : Phase2} {i : Nat} (safe : PoolSafe s)
    (h : processFileStep charDict s i = some s') : PoolSafe s' := by
  obtain ⟨hnode, hqueued, hpopped⟩ := safe
  rcases processFileStep_cases charDict s s' i h with
    ⟨rfl, -⟩ | ⟨w, hw, hpc, hq, hs'⟩ | ⟨w, fileData, rest, hw, hpc, hq, hs'⟩ |
      ⟨w, fileData, result, hw, hpc, ht, hs'⟩ | ⟨w, count, hw, hpc, hs'⟩
  · exact ⟨hnode, hqueued, hpopped⟩
  · subst hs'
    refine ⟨?_, hqueued, ?_⟩
    · intro w' hw'
      rcases List.mem_or_eq_of_mem_set hw' with hmem | rfl
      · exact hnode w' hmem
      · exact hnode w (List.getElem?_mem hw)
    · intro w' hw' fd hfd
      rcases List.mem_or_eq_of_mem_set hw' with hmem | rfl
      · exact hpopped w' hmem fd hfd
      · cases hfd
  · subst hs'
    have hin : (fileData :: rest) ∈ s.fileBuffersPerNode := List.getElem?_mem hq
    refine ⟨?_, ?_, ?_⟩
    · intro w' hw'
      show w'.node < (s.fileBuffersPerNode.set w.node rest).length
      rw [List.length_set]
      rcases List.mem_or_eq_of_mem_set hw' with hmem | rfl
      · exact hnode w' hmem
      · exact hnode w (List.getElem?_mem hw)
    · intro queue hqueue fd hfd
      rcases List.mem_or_eq_of_mem_set hqueue with hmem | rfl
      · exact hqueued queue hmem fd hfd
      · exact hqueued _ hin fd (List.mem_cons_of_mem _ hfd)
    · intro w' hw' fd hfd
      rcases List.mem_or_eq_of_mem_set hw' with hmem | rfl
      · exact hpopped w' hmem fd hfd
      · cases hfd
        exact hqueued _ hin _ (List.mem_cons_self _ _)
  · subst hs'
    refine ⟨?_, hqueued, ?_⟩
    · intro w' hw'
      rcases List.mem_or_eq_of_mem_set hw' with hmem | rfl
      · exact hnode w' hmem
      · exact hnode w (List.getElem?_mem hw)
    · intro w' hw' fd hfd
      rcases List.mem_or_eq_of_mem_set hw' with hmem | rfl
      · exact hpopped w' hmem fd hfd
      · cases hfd
  · subst hs'
    refine ⟨?_, hqueued, ?_⟩
    · intro w' hw'
      rcases List.mem_or_eq_of_mem_set hw' with hmem | rfl
      · exact hnode w' hmem
      · exact hnode w (List.getElem?_mem hw)
    · intro w' hw' fd hfd
      rcases List.mem_or_eq_of_mem_set hw' with hmem | rfl
      · exact hpopped w' hmem fd hfd
      · cases hfd

/-- In a safe state no step runs into undefined behaviour. -/
theorem poolSafe_step_defined (charDict : CharDict) {s : Phase2} (safe : PoolSafe s) (i : Nat) :
    ∃ s', processFileStep charDict s i = some s' := by
  unfold processFileStep
  cases hw : s.workers[i]? with
  | none => exact ⟨s, rfl⟩
  | some w =>
    simp only
    cases hpc : w.pc with
    | exited => exact ⟨s, rfl⟩
    | atPop =>
      simp only
      have hlt := safe.node_lt w (List.getElem?_mem hw)
      rw [List.getElem?_eq_getElem hlt]
      cases s.fileBuffersPerNode[w.node] with
      | nil => exact ⟨_, rfl⟩
      | cons fileData rest => exact ⟨_, rfl⟩
    | addBytes fileData =>
      simp only
      have hcov := safe.popped_covers w (List.getElem?_mem hw) fileData hpc
      rw [tokenize_eq charDict _ _ hcov]
      exact ⟨_, rfl⟩
    | addTokens count => exact ⟨_, rfl⟩

theorem weight_sum_set (workers : List Worker) (i : Nat) (w w' : Worker)
    (hw : workers[i]? = some w) :
    ((workers.set i w').map fun w => pcWeight w.pc).sum + pcWeight w.pc =
      (workers.map fun w => pcWeight w.pc).sum + pcWeight w'.pc :=
  sum_map_set (fun w => pcWeight w.pc) workers i w w' hw

theorem queue_length_sum_pop (queues : List (List FileData)) (k : Nat) (fileData : FileData)
    (rest : List FileData) (hq : queues[k]? = some (fileData :: rest)) :
    ((queues.set k rest).map fun queue => 3 * queue.length).sum + 3 =
      (queues.map fun queue => 3 * queue.length).sum := by
  have h := sum_map_set (fun queue : List FileData => 3 * queue.length) queues k
    (fileData :: rest) rest hq
  simp only [List.length_cons] at h
  omega

/-- A step of a worker that has not exited uses up one of the steps left. -/
theorem stepsLeft_decreases {charDict : CharDict} {s s' : Phase2} {i : Nat} {w : Worker}
    (h : processFileStep charDict s i = some s') (hw : s.workers[i]? = some w)
    (hlive : w.pc ≠ WorkerPc.exited) : stepsLeft s' < stepsLeft s := by
  rcases processFileStep_cases charDict s s' i h with
    ⟨-, hex⟩ | ⟨w1, hw1, hpc, hq, hs'⟩ | ⟨w1, fileData, rest, hw1, hpc, hq, hs'⟩ |
      ⟨w1, fileData, result, hw1, hpc, ht, hs'⟩ | ⟨w1, count, hw1, hpc, hs'⟩
  · exact absurd (hex w hw) hlive
  · subst hs'
    have hW := weight_sum_set s.workers i w1 { w1 with pc := WorkerPc.exited } hw1
    rw [hpc] at hW
    change _ + 1 = _ + 0 at hW
    unfold stepsLeft
    simp only
    omega
  · subst hs'
    have hW := weight_sum_set s.workers i w1 { w1 with pc := WorkerPc.addBytes fileData } hw1
    have hQ := queue_length_sum_pop s.fileBuffersPerNode w1.node fileData rest hq
    rw [hpc] at hW
    change _ + 1 = _ + 3 at hW
    unfold stepsLeft
    simp only
    omega
  · subst hs'
    have hW := weight_sum_set s.workers i w1
      { w1 with pc := WorkerPc.addTokens result.1.length } hw1
    rw [hpc] at hW
    change _ + 3 = _ + 2 at hW
    unfold stepsLeft
    simp only
    omega
  · subst hs'
    have hW := weight_sum_set s.workers i w1 { w1 with pc := WorkerPc.atPop } hw1
    rw [hpc] at hW
    change _ + 2 = _ + 1 at hW
    unfold stepsLeft
    simp only
    omega

theorem exists_live_of_not_allExited {s : Phase2} (h : allExited s ≠ true) :
    ∃ (i : Nat) (w : Worker), s.workers[i]? = some w ∧ w.pc ≠ WorkerPc.exited := by
  by_contra hno
  apply h
  unfold allExited
  rw [List.all_eq_true]
  intro w hw
  obtain ⟨i, hi, rfl⟩ := List.getElem_of_mem hw
  by_contra hpc
  exact hno ⟨i, _, List.getElem?_eq_getElem hi, by simpa using hpc⟩

/-- From a safe state some schedule lets every worker exit. -/
theorem exists_complete_run (charDict : CharDict) (n : Nat) (s : Phase2)
    (hn : stepsLeft s ≤ n) (safe : PoolSafe s) :
    ∃ schedule s', runWorkers charDict s schedule = some s' ∧ allExited s' = true := by
  induction n generalizing s with
  | zero =>
    by_cases hdone : allExited s = true
    · exact ⟨[], s, rfl, hdone⟩
    · obtain ⟨i, w, hw, hlive⟩ := exists_live_of_not_allExited hdone
      obtain ⟨s1, hstep⟩ := poolSafe_step_defined charDict safe i
      have := stepsLeft_decreases hstep hw hlive
      omega
  | succ n ih =>
    by_cases hdone : allExited s = true
    · exact ⟨[], s, rfl, hdone⟩
    · obtain ⟨i, w, hw, hlive⟩ := exists_live_of_not_allExited hdone
      obtain ⟨s1, hstep⟩ := poolSafe_step_defined charDict safe i
      have hlt := stepsLeft_decreases hstep hw hlive
      obtain ⟨schedule, s', hrun, hex⟩ := ih s1 (by omega) (poolSafe_step safe hstep)
      refine ⟨i :: schedule, s', ?_, hex⟩
      simp only [runWorkers, List.foldlM_cons, Option.bind_eq_bind, hstep, Option.some_bind]
      exact hrun

/-! ## What the loaders queue -/

theorem loadFile_eq (fs : FileSystem) (thread_id : Int) (st : List FileData × List LogLine)
    (entry : FileInfo) :
    (loadFile fs thread_id st entry).1 = st.1 ++ (loadResult fs entry).toList := by
  unfold loadFile loadResult
  simp only
  split
  · simp
  · split
    · simp
    · split
      · simp
      · simp

/-- The queue after the loop of `loadFilesOnNode`: the entries that load, appended in the
order of the assigned list. -/
theorem foldl_loadFile_eq (fs : FileSystem) (thread_id : Int) (files : List FileInfo)
    (st : List FileData × List LogLine) :
    (files.foldl (loadFile fs thread_id) st).1 = st.1 ++ files.filterMap (loadResult fs) := by
  induction files generalizing st with
  | nil => simp
  | cons entry rest ih =>
    rw [List.foldl_cons, ih, loadFile_eq, List.filterMap_cons]
    cases loadResult fs entry <;> simp

theorem loadFilesOnNode_queue (topo : Topology) (fs : FileSystem) (thread_id node_id : Int)
    (files : List FileInfo) (fileBuffer : List FileData) :
    (loadFilesOnNode topo fs thread_id node_id files fileBuffer).1 =
      if topo.nodeToCpus node_id ≠ 0 then fileBuffer
      else fileBuffer ++ files.filterMap (loadResult fs) := by
  unfold loadFilesOnNode
  split
  · rfl
  · simp only
    rw [foldl_loadFile_eq]

theorem loadedBuffer_length (data : List Byte) (fileSize : Nat) :
    (loadedBuffer data fileSize).length = fileSize + 1 := by
  unfold loadedBuffer
  simp only [List.length_append, List.length_take, List.length_replicate, List.length_singleton]
  omega

theorem loadResult_covers (fs : FileSystem) (entry : FileInfo) (fileData : FileData)
    (h : loadResult fs entry = some fileData) :
    fileData.content.length = fileData.size + 1 := by
  unfold loadResult at h
  split at h
  · cases h
  · split at h
    · cases h
    · split at h
      · simp only [Option.some.injEq] at h
        subst h
        exact loadedBuffer_length _ _
      · cases h

theorem loadAllNodes_length (topo : Topology) (fs : FileSystem)
    (filesPerNode : List (List FileInfo)) :
    (loadAllNodes topo fs filesPerNode).length = filesPerNode.length := by
  unfold loadAllNodes
  simp

/-- Every buffer a loader queued has one byte more than its size. -/
theorem loadAllNodes_covers (topo : Topology) (fs : FileSystem)
    (filesPerNode : List (List FileInfo)) :
    ∀ queue ∈ loadAllNodes topo fs filesPerNode, ∀ fileData ∈ queue,
      fileData.content.length = fileData.size + 1 := by
  intro queue hqueue fileData hfd
  unfold loadAllNodes at hqueue
  obtain ⟨entry, -, rfl⟩ := List.mem_map.1 hqueue
  rw [loadFilesOnNode_queue] at hfd
  split at hfd
  · cases hfd
  · rw [List.nil_append, List.mem_filterMap] at hfd
    obtain ⟨e, -, he⟩ := hfd
    exact loadResult_covers fs e fileData he

/-- When every `numa_node_to_cpus` call succeeds each loader queues the entries of its
partition that load. -/
theorem loadAllNodes_eq_map (topo : Topology) (fs : FileSystem)
    (hcpus : ∀ node, topo.nodeToCpus node = 0) (filesPerNode : List (List FileInfo)) :
    loadAllNodes topo fs filesPerNode =
      filesPerNode.map fun files => files.filterMap (loadResult fs) := by
  unfold loadAllNodes
  apply List.ext_getElem?
  intro k
  simp only [List.getElem?_map, List.getElem?_enum]
  cases filesPerNode[k]? with
  | none => rfl
  | some files =>
    simp only [Option.map_some', loadFilesOnNode_queue, hcpus, ne_eq, not_true_eq_false,
      if_false, List.nil_append]

/-! ## The state in which phase 2 starts -/

theorem mapM_eq_some_map {α β : Type} (f : α → Option β) (g : α → β) (l : List α)
    (h : ∀ x, f x = some (g x)) : l.mapM f = some (l.map g) := by
  induction l with
  | nil => rfl
  | cons x xs ih =>
    rw [List.mapM_cons, h, ih]
    rfl

theorem processFileStart_eq (numaMaxNode : Int) (hm : 0 ≤ numaMaxNode) (i : Nat) :
    processFileStart numaMaxNode i =
      some { node := i % (numaMaxNode + 1).toNat, pc := WorkerPc.atPop } := by
  obtain ⟨N, hN⟩ : ∃ N : Nat, numaMaxNode + 1 = (N : Int) :=
    ⟨(numaMaxNode + 1).toNat, (Int.toNat_of_nonneg (by omega)).symm⟩
  have hNpos : 0 < N := by omega
  unfold processFileStart processFileNode
  simp only
  rw [if_neg (by omega), hN, show ((i : Int) + 1 - 1) = (i : Int) by omega]
  have htmod : Int.tmod (i : Int) (N : Int) = ((i % N : Nat) : Int) := rfl
  simp only [htmod]
  rw [if_neg (by omega), Int.toNat_ofNat, Int.toNat_ofNat]

theorem startWorkers_eq (numaMaxNode : Int) (hm : 0 ≤ numaMaxNode) (numThreads : Nat)
    (queues : List (List FileData)) :
    startWorkers numaMaxNode numThreads queues =
      some { fileBuffersPerNode := queues, totalBytes := 0, totalTokens := 0,
             bytesProcessed := List.replicate numThreads 0,
             workers := (List.range numThreads).map fun i =>
               { node := i % (numaMaxNode + 1).toNat, pc := WorkerPc.atPop } } := by
  unfold startWorkers
  rw [mapM_eq_some_map _ _ _ (processFileStart_eq numaMaxNode hm)]
  rfl

theorem loadedQueues_length (topo : Topology) (fs : FileSystem) (crawled : List FileInfo)
    (hm : 0 ≤ topo.numaMaxNode) :
    (loadedQueues topo fs crawled).length = (topo.numaMaxNode + 1).toNat := by
  unfold loadedQueues
  rw [loadAllNodes_length, splitRoundRobin_length]
  unfold indexFilesTotalNodes
  simp only
  rw [if_neg (by omega)]

/-- The start state satisfies the invariant for the totals of what is queued. -/
theorem startState_invariant (charDict : CharDict) (queues : List (List FileData))
    (numThreads N : Nat) :
    PoolInvariant charDict (queuedBytes queues) (queuedTokens charDict queues)
      { fileBuffersPerNode := queues, totalBytes := 0, totalTokens := 0,
        bytesProcessed := List.replicate numThreads 0,
        workers := (List.range numThreads).map fun i =>
          { node := i % N, pc := WorkerPc.atPop } } := by
  have hB : inflightBytes
      { fileBuffersPerNode := queues, totalBytes := 0, totalTokens := 0,
        bytesProcessed := List.replicate numThreads 0,
        workers := (List.range numThreads).map fun i =>
          { node := i % N, pc := WorkerPc.atPop } } = 0 := by
    unfold inflightBytes
    apply List.sum_eq_zero
    intro x hx
    obtain ⟨w, hw, rfl⟩ := List.mem_map.1 hx
    obtain ⟨i, -, rfl⟩ := List.mem_map.1 hw
    rfl
  have hT : inflightTokens charDict
      { fileBuffersPerNode := queues, totalBytes := 0, totalTokens := 0,
        bytesProcessed := List.replicate numThreads 0,
        workers := (List.range numThreads).map fun i =>
          { node := i % N, pc := WorkerPc.atPop } } = 0 := by
    unfold inflightTokens
    apply List.sum_eq_zero
    intro x hx
    obtain ⟨w, hw, rfl⟩ := List.mem_map.1 hx
    obtain ⟨i, -, rfl⟩ := List.mem_map.1 hw
    rfl
  refine ⟨?_, ?_, ?_, (by decide : (0 : Nat) < uintmaxModulus),
    (by decide : (0 : Nat) < uintmaxModulus), ?_, ?_⟩
  · rw [hB]
    simp
  · rw [hB]
    simp
  · rw [hT]
    simp
  · simp
  · intro w hw hpc
    obtain ⟨i, -, rfl⟩ := List.mem_map.1 hw
    cases hpc

/-- The start state after the loaders is safe when there is at least one queue. -/
theorem startState_safe (topo : Topology) (fs : FileSystem) (crawled : List FileInfo)
    (hm : 0 ≤ topo.numaMaxNode) (numThreads : Nat) :
    PoolSafe
      { fileBuffersPerNode := loadedQueues topo fs crawled, totalBytes := 0, totalTokens := 0,
        bytesProcessed := List.replicate numThreads 0,
        workers := (List.range numThreads).map fun i =>
          { node := i % (topo.numaMaxNode + 1).toNat, pc := WorkerPc.atPop } } := by
  refine ⟨?_, ?_, ?_⟩
  · intro w hw
    obtain ⟨i, -, rfl⟩ := List.mem_map.1 hw
    show i % (topo.numaMaxNode + 1).toNat < (loadedQueues topo fs crawled).length
    rw [loadedQueues_length topo fs crawled hm]
    exact Nat.mod_lt _ (by omega)
  · intro queue hqueue fileData hfd
    have := loadAllNodes_covers topo fs _ queue hqueue fileData hfd
    unfold bufferCovers
    omega
  · intro w hw fileData hpc
    obtain ⟨i, -, rfl⟩ := List.mem_map.1 hw
    cases hpc

/-- With at least as many threads as nodes every queue has a worker. -/
theorem startState_cover (numThreads N : Nat) (hN : N ≤ numThreads) (k : Nat) (hk : k < N) :
    k ∈ ((List.range numThreads).map fun i =>
      ({ node := i % N, pc := WorkerPc.atPop } : Worker)).map fun w => w.node := by
  rw [List.mem_map]
  refine ⟨{ node := k % N, pc := WorkerPc.atPop }, ?_, Nat.mod_eq_of_lt hk⟩
  rw [List.mem_map]
  exact ⟨k, List.mem_range.2 (by omega), rfl⟩

/-- What a completed run of `indexFiles` leaves, when `numa_max_node()` is not negative
and there are at least as many threads as nodes; and some run completes. -/
theorem indexFiles_final (topo : Topology) (fs : FileSystem) (numThreads : Nat)
    (crawled : List FileInfo) (hm : 0 ≤ topo.numaMaxNode)
    (hthreads : topo.numaMaxNode + 1 ≤ (numThreads : Int)) :
    (∃ schedule final, indexFiles topo fs numThreads crawled schedule = some final ∧
      allExited final = true) ∧
    ∀ schedule final, indexFiles topo fs numThreads crawled schedule = some final →
      allExited final = true →
      (∀ queue ∈ final.fileBuffersPerNode, queue = []) ∧
      totalProcessedBytes final =
        queuedBytes (loadedQueues topo fs crawled) % uintmaxModulus ∧
      final.totalBytes = queuedBytes (loadedQueues topo fs crawled) % uintmaxModulus ∧
      final.totalTokens =
        queuedTokens defaultCharDict (loadedQueues topo fs crawled) % uintmaxModulus := by
  have hstart := startWorkers_eq topo.numaMaxNode hm numThreads (loadedQueues topo fs crawled)
  constructor
  · obtain ⟨schedule, final, hrun, hdone⟩ :=
      exists_complete_run defaultCharDict _ _ (Nat.le_refl _)
        (startState_safe topo fs crawled hm numThreads)
    refine ⟨schedule, final, ?_, hdone⟩
    unfold indexFiles
    rw [hstart]
    exact hrun
  · intro schedule final hrun hdone
    unfold indexFiles at hrun
    rw [hstart] at hrun
    simp only at hrun
    have inv := poolInvariant_run schedule (startState_invariant defaultCharDict
      (loadedQueues topo fs crawled) numThreads (topo.numaMaxNode + 1).toNat) hrun
    obtain ⟨hnodes, hlen⟩ := runWorkers_nodes schedule hrun
    have hcover : ∀ k, k < final.fileBuffersPerNode.length →
        k ∈ final.workers.map (fun w => w.node) := by
      intro k hk
      rw [hnodes]
      rw [hlen] at hk
      simp only at hk
      rw [loadedQueues_length topo fs crawled hm] at hk
      exact startState_cover numThreads _ (by omega) k hk
    obtain ⟨h1, h2, h3, h4⟩ := poolInvariant_final inv hdone hcover
    exact ⟨h1, by rw [totalProcessedBytes_eq]; exact h2, h3, h4⟩

/-! ## Totals of a completed run -/

theorem queuedTokens_eq_flatten (charDict : CharDict) (queues : List (List FileData)) :
    queuedTokens charDict queues = (queues.flatten.map (tokenCount charDict)).sum := by
  unfold queuedTokens
  induction queues with
  | nil => rfl
  | cons queue rest ih =>
    simp only [List.map_cons, List.sum_cons, List.flatten_cons, List.map_append,
      List.sum_append, ih]

/-- When the CPU query succeeds on every node in use, the loaded queues hold, up to
order, what loading the crawled list entry by entry gives, whatever the node count. -/
theorem loadedQueues_flatten_perm (topo : Topology) (fs : FileSystem)
    (crawled : List FileInfo) (hcpus : ∀ node, topo.nodeToCpus node = 0) :
    (loadedQueues topo fs crawled).flatten.Perm (crawled.filterMap (loadResult fs)) := by
  unfold loadedQueues
  rw [loadAllNodes_eq_map topo fs hcpus, ← List.filterMap_flatten]
  apply List.Perm.filterMap
  have hN : 1 ≤ (indexFilesTotalNodes topo.numaMaxNode).toNat := by
    unfold indexFilesTotalNodes
    simp only
    split <;> omega
  exact (splitRoundRobin_flatten_perm _ _ hN).trans (List.perm_insertionSort _ _)

/-- C4 as stated fails: with two nodes and one worker thread, the files "a" (5 bytes) and
"b" (3 bytes) are both loaded, `indexFiles` finishes, and the workers have processed 5
bytes, not 8: the buffer on node 1 is never popped. -/
theorem one_thread_two_nodes_leaves_bytes :
    indexFiles (uniformTopology 1 0 0) twoFiles 1 [("a", 5), ("b", 3), ("c", 3)] [0, 0, 0, 0] =
      some { fileBuffersPerNode := [[], [{ path := "b", content := [97, 32, 98, 0], size := 3 }]],
             totalBytes := 5, totalTokens := 2, bytesProcessed := [5],
             workers := [{ node := 0, pc := WorkerPc.exited }] } ∧
    allExited { fileBuffersPerNode := [[], [{ path := "b", content := [97, 32, 98, 0], size := 3 }]],
                totalBytes := 5, totalTokens := 2, bytesProcessed := [5],
                workers := [{ node := 0, pc := WorkerPc.exited }] } = true ∧
    totalProcessedBytes
        { fileBuffersPerNode := [[], [{ path := "b", content := [97, 32, 98, 0], size := 3 }]],
          totalBytes := 5, totalTokens := 2, bytesProcessed := [5],
          workers := [{ node := 0, pc := WorkerPc.exited }] } = 5 ∧
    queuedBytes (loadedQueues (uniformTopology 1 0 0) twoFiles [("a", 5), ("b", 3), ("c", 3)]) =
      8 := by
  decide!

/-- C4 amended: when `numa_max_node()` is not negative (`nodeCount = numa_max_node() + 1`),
`numThreads >= nodeCount`, and the sizes of the loaded buffers sum to less than `2 ^ 64`,
some order of the workers' steps lets `indexFiles` finish, and whenever it finishes the
sum of `bytesProcessed` over the workers equals the sum of the sizes of the buffers the
loaders pushed onto the queues. -/
theorem indexFiles_processes_loaded_bytes (topo : Topology) (fs : FileSystem)
    (numThreads : Nat) (crawled : List FileInfo) (hnodes : 0 ≤ topo.numaMaxNode)
    (hthreads : topo.numaMaxNode + 1 ≤ (numThreads : Int))
    (hfit : queuedBytes (loadedQueues topo fs crawled) < uintmaxModulus) :
    (∃ schedule final, indexFiles topo fs numThreads crawled schedule = some final ∧
      allExited final = true) ∧
    ∀ schedule final, indexFiles topo fs numThreads crawled schedule = some final →
      allExited final = true →
      totalProcessedBytes final = queuedBytes (loadedQueues topo fs crawled) := by
  obtain ⟨hex, hall⟩ := indexFiles_final topo fs numThreads crawled hnodes hthreads
  refine ⟨hex, ?_⟩
  intro schedule final hrun hdone
  rw [(hall schedule final hrun hdone).2.1, Nat.mod_eq_of_lt hfit]

/-- C4 amended, on the spec's scenario: files of 100, 50 and 10 bytes on one node give 160
processed bytes with 1, 2 and 4 worker threads. -/
theorem indexFiles_processes_loaded_bytes_witness :
    (∃ schedule final,
      indexFiles (uniformTopology 0 0 0) threeFiles 1 [("f10", 10), ("f100", 100), ("f50", 50)]
        schedule = some final ∧ allExited final = true ∧ totalProcessedBytes final = 160) ∧
    (∃ schedule final,
      indexFiles (uniformTopology 0 0 0) threeFiles 2 [("f10", 10), ("f100", 100), ("f50", 50)]
        schedule = some final ∧ allExited final = true ∧ totalProcessedBytes final = 160) ∧
    (∃ schedule final,
      indexFiles (uniformTopology 0 0 0) threeFiles 4 [("f10", 10), ("f100", 100), ("f50", 50)]
        schedule = some final ∧ allExited final = true ∧ totalProcessedBytes final = 160) :=
  have hsum : queuedBytes (loadedQueues (uniformTopology 0 0 0) threeFiles
      [("f10", 10), ("f100", 100), ("f50", 50)]) = 160 := by decide!
  have h1 := indexFiles_processes_loaded_bytes (uniformTopology 0 0 0) threeFiles 1
    [("f10", 10), ("f100", 100), ("f50", 50)] (by decide) (by decide) (by rw [hsum]; decide)
  have h2 := indexFiles_processes_loaded_bytes (uniformTopology 0 0 0) threeFiles 2
    [("f10", 10), ("f100", 100), ("f50", 50)] (by decide) (by decide) (by rw [hsum]; decide)
  have h4 := indexFiles_processes_loaded_bytes (uniformTopology 0 0 0) threeFiles 4
    [("f10", 10), ("f100", 100), ("f50", 50)] (by decide) (by decide) (by rw [hsum]; decide)
  ⟨h1.1.elim fun schedule h => h.elim fun final hf =>
      ⟨schedule, final, hf.1, hf.2, (h1.2 schedule final hf.1 hf.2).trans hsum⟩,
   h2.1.elim fun schedule h => h.elim fun final hf =>
      ⟨schedule, final, hf.1, hf.2, (h2.2 schedule final hf.1 hf.2).trans hsum⟩,
   h4.1.elim fun schedule h => h.elim fun final hf =>
      ⟨schedule, final, hf.1, hf.2, (h4.2 schedule final hf.1 hf.2).trans hsum⟩⟩

/-- C5 as stated fails: on two nodes, the files "a" ("ab cd") and "b" ("a b") give
`totalTokens = 2` with one worker thread and `totalTokens = 4` with two, both runs
finishing. -/
theorem thread_count_changes_totalTokens :
    indexFiles (uniformTopology 1 0 0) twoFiles 1 [("a", 5), ("b", 3), ("c", 3)] [0, 0, 0, 0] =
      some { fileBuffersPerNode := [[], [{ path := "b", content := [97, 32, 98, 0], size := 3 }]],
             totalBytes := 5, totalTokens := 2, bytesProcessed := [5],
             workers := [{ node := 0, pc := WorkerPc.exited }] } ∧
    indexFiles (uniformTopology 1 0 0) twoFiles 2 [("a", 5), ("b", 3), ("c", 3)]
        [0, 1, 0, 1, 0, 1, 0, 1] =
      some { fileBuffersPerNode := [[], []], totalBytes := 8, totalTokens := 4,
             bytesProcessed := [5, 3],
             workers := [{ node := 0, pc := WorkerPc.exited },
               { node := 1, pc := WorkerPc.exited }] } := by
  decide!

/-- C5 amended: for a fixed file system and crawled list, take two configurations in each
of which `numa_max_node()` is not negative, `numThreads >= nodeCount` and every
`numa_node_to_cpus` call succeeds.  Each has an order of the workers' steps that lets
`indexFiles` finish, and any two finished runs, whatever the orders, report the same
`totalTokens`. -/
theorem totalTokens_same_across_configurations (fs : FileSystem) (crawled : List FileInfo)
    (topo1 topo2 : Topology) (numThreads1 numThreads2 : Nat)
    (hnodes1 : 0 ≤ topo1.numaMaxNode) (hnodes2 : 0 ≤ topo2.numaMaxNode)
    (hthreads1 : topo1.numaMaxNode + 1 ≤ (numThreads1 : Int))
    (hthreads2 : topo2.numaMaxNode + 1 ≤ (numThreads2 : Int))
    (hcpus1 : ∀ node, topo1.nodeToCpus node = 0) (hcpus2 : ∀ node, topo2.nodeToCpus node = 0) :
    (∃ schedule final, indexFiles topo1 fs numThreads1 crawled schedule = some final ∧
      allExited final = true) ∧
    (∃ schedule final, indexFiles topo2 fs numThreads2 crawled schedule = some final ∧
      allExited final = true) ∧
    ∀ schedule1 schedule2 final1 final2,
      indexFiles topo1 fs numThreads1 crawled schedule1 = some final1 →
      allExited final1 = true →
      indexFiles topo2 fs numThreads2 crawled schedule2 = some final2 →
      allExited final2 = true →
      final1.totalTokens = final2.totalTokens := by
  obtain ⟨hex1, hall1⟩ := indexFiles_final topo1 fs numThreads1 crawled hnodes1 hthreads1
  obtain ⟨hex2, hall2⟩ := indexFiles_final topo2 fs numThreads2 crawled hnodes2 hthreads2
  refine ⟨hex1, hex2, ?_⟩
  intro schedule1 schedule2 final1 final2 hrun1 hdone1 hrun2 hdone2
  rw [(hall1 schedule1 final1 hrun1 hdone1).2.2.2, (hall2 schedule2 final2 hrun2 hdone2).2.2.2,
    queuedTokens_eq_flatten, queuedTokens_eq_flatten]
  congr 1
  apply List.Perm.sum_eq
  apply List.Perm.map
  exact (loadedQueues_flatten_perm topo1 fs crawled hcpus1).trans
    (loadedQueues_flatten_perm topo2 fs crawled hcpus2).symm

/-- C5 amended, on "a" ("ab cd") and "b" ("a b"): one thread on one node and two threads
on two nodes both end with `totalTokens = 4`. -/
theorem totalTokens_same_across_configurations_witness :
    indexFiles (uniformTopology 0 0 0) twoFiles 1 [("a", 5), ("b", 3), ("c", 3)]
        [0, 0, 0, 0, 0, 0, 0] = some (finishedOnOneNode 8 4 [8]) ∧
    indexFiles (uniformTopology 1 0 0) twoFiles 2 [("a", 5), ("b", 3), ("c", 3)]
        [0, 1, 0, 1, 0, 1, 0, 1] =
      some { fileBuffersPerNode := [[], []], totalBytes := 8, totalTokens := 4,
             bytesProcessed := [5, 3],
             workers := [{ node := 0, pc := WorkerPc.exited },
               { node := 1, pc := WorkerPc.exited }] } ∧
    (finishedOnOneNode 8 4 [8]).totalTokens = 4 :=
  have hrun1 : indexFiles (uniformTopology 0 0 0) twoFiles 1 [("a", 5), ("b", 3), ("c", 3)]
      [0, 0, 0, 0, 0, 0, 0] = some (finishedOnOneNode 8 4 [8]) := by decide!
  have hrun2 : indexFiles (uniformTopology 1 0 0) twoFiles 2 [("a", 5), ("b", 3), ("c", 3)]
      [0, 1, 0, 1, 0, 1, 0, 1] =
    some { fileBuffersPerNode := [[], []], totalBytes := 8, totalTokens := 4,
           bytesProcessed := [5, 3],
           workers := [{ node := 0, pc := WorkerPc.exited },
             { node := 1, pc := WorkerPc.exited }] } := by decide!
  ⟨hrun1, hrun2,
   (totalTokens_same_across_configurations twoFiles [("a", 5), ("b", 3), ("c", 3)]
      (uniformTopology 0 0 0) (uniformTopology 1 0 0) 1 2 (by decide) (by decide) (by decide)
      (by decide) (fun _ => rfl) (fun _ => rfl)).2.2
      [0, 0, 0, 0, 0, 0, 0] [0, 1, 0, 1, 0, 1, 0, 1] _ _ hrun1 (by decide) hrun2 (by decide)⟩

/-! ## The queue and the log a loader leaves -/

theorem loadFile_log (fs : FileSystem) (thread_id : Int) (st : List FileData × List LogLine)
    (entry : FileInfo) :
    (loadFile fs thread_id st entry).2 = st.2 ++ (loadLogLine fs thread_id entry).toList := by
  unfold loadFile loadLogLine
  simp only
  split
  · simp
  · split
    · simp
    · split
      · simp
      · simp

theorem foldl_loadFile_log (fs : FileSystem) (thread_id : Int) (files : List FileInfo)
    (st : List FileData × List LogLine) :
    (files.foldl (loadFile fs thread_id) st).2 =
      st.2 ++ files.filterMap (loadLogLine fs thread_id) := by
  induction files generalizing st with
  | nil => simp
  | cons entry rest ih =>
    rw [List.foldl_cons, ih, loadFile_log, List.filterMap_cons]
    cases loadLogLine fs thread_id entry <;> simp

theorem loadResult_eq_ite (fs : FileSystem) (entry : FileInfo) :
    loadResult fs entry =
      if loads fs entry then
        some { path := entry.1, content := loadedBuffer (fs entry.1).data entry.2,
               size := entry.2 }
      else none := by
  unfold loadResult loads
  generalize entry.1.isEmpty = a
  generalize containsSlashDot entry.1.toList = b
  generalize (fs entry.1).openOk = c
  by_cases h3 : (fs entry.1).bytesRead = (entry.2 : Int) <;>
    cases a <;> cases b <;> cases c <;> simp [h3]

theorem filterMap_loadResult_map (fs : FileSystem) (files : List FileInfo) :
    ((files.filterMap (loadResult fs)).map fun fileData => (fileData.path, fileData.size)) =
      files.filter (loads fs) := by
  induction files with
  | nil => rfl
  | cons entry rest ih =>
    rw [List.filterMap_cons, List.filter_cons, loadResult_eq_ite]
    by_cases h : loads fs entry = true
    · simp only [h, if_true, List.map_cons, ih]
    · simp only [h, if_false]
      exact ih


theorem loadFilesOnNode_log (topo : Topology) (fs : FileSystem) (thread_id node_id : Int)
    (files : List FileInfo) (fileBuffer : List FileData)
    (hcpus : topo.nodeToCpus node_id = 0) (hpin : topo.setAffinity node_id = 0) :
    (loadFilesOnNode topo fs thread_id node_id files fileBuffer).2 =
      [LogLine.affinitySet thread_id node_id, LogLine.runningOn thread_id] ++
        files.filterMap (loadLogLine fs thread_id) ++ [LogLine.completed thread_id node_id] := by
  unfold loadFilesOnNode
  rw [if_neg (by simp [hcpus])]
  simp only
  rw [foldl_loadFile_log, if_neg (by simp [hpin])]

theorem totalFilesLoaded_eq (queues : List (List FileData)) :
    totalFilesLoaded queues = (queues.map List.length).sum := by
  unfold totalFilesLoaded
  have h : ∀ (acc : Nat), queues.foldl (fun acc queue => acc + queue.length) acc =
      acc + (queues.map List.length).sum := by
    induction queues with
    | nil => intro acc; simp
    | cons queue rest ih =>
      intro acc
      rw [List.foldl_cons, ih, List.map_cons, List.sum_cons]
      omega
  rw [h 0, Nat.zero_add]

/-- C11: when the CPU query and the pinning succeed, `loadFilesOnNode` run on an empty
queue leaves, in the order of the assigned list, exactly the entries with a non-empty
path without "/." whose `open` succeeded and whose `read` returned the reported size,
each with its reported size, its path and the bytes read followed by the terminator; the
log holds the two start lines, one line per entry whose `open` or `read` failed, in list
order, and the completion line.  For an entry that fails to open: no buffer on the queue
has a path that fails to open, the queue is the one the list without that entry gives (the
files after it load all the same), the queue counts in `totalFilesLoaded` only the entries
that load, and the log has exactly one line for the entry, between the lines of the
entries before and after it. -/
theorem loadFilesOnNode_loads_readable_entries (topo : Topology) (fs : FileSystem)
    (thread_id node_id : Int) (files : List FileInfo)
    (hcpus : topo.nodeToCpus node_id = 0) (hpin : topo.setAffinity node_id = 0) :
    ((loadFilesOnNode topo fs thread_id node_id files []).1.map fun fileData =>
        (fileData.path, fileData.size)) =
      files.filter (fun entry =>
        !entry.1.isEmpty && !containsSlashDot entry.1.toList && (fs entry.1).openOk &&
          decide ((fs entry.1).bytesRead = (entry.2 : Int))) ∧
    (∀ fileData ∈ (loadFilesOnNode topo fs thread_id node_id files []).1,
      fileData.content = loadedBuffer (fs fileData.path).data fileData.size ∧
        (fs fileData.path).openOk = true) ∧
    totalFilesLoaded [(loadFilesOnNode topo fs thread_id node_id files []).1] =
      (files.filter (loads fs)).length ∧
    (loadFilesOnNode topo fs thread_id node_id files []).2 =
      [LogLine.affinitySet thread_id node_id, LogLine.runningOn thread_id] ++
        files.filterMap (loadLogLine fs thread_id) ++ [LogLine.completed thread_id node_id] ∧
    ∀ (before after : List FileInfo) (path : String) (size : Nat),
      files = before ++ (path, size) :: after → path.isEmpty = false →
      containsSlashDot path.toList = false → (fs path).openOk = false →
        (loadFilesOnNode topo fs thread_id node_id files []).1 =
          (loadFilesOnNode topo fs thread_id node_id (before ++ after) []).1 ∧
        (loadFilesOnNode topo fs thread_id node_id files []).2 =
          [LogLine.affinitySet thread_id node_id, LogLine.runningOn thread_id] ++
            (before.filterMap (loadLogLine fs thread_id) ++
              LogLine.openError thread_id path ::
                after.filterMap (loadLogLine fs thread_id)) ++
            [LogLine.completed thread_id node_id] := by
  have hqueue : ∀ l : List FileInfo, (loadFilesOnNode topo fs thread_id node_id l []).1 =
      l.filterMap (loadResult fs) := by
    intro l
    rw [loadFilesOnNode_queue, if_neg (by simp [hcpus]), List.nil_append]
  refine ⟨?_, ?_, ?_, loadFilesOnNode_log topo fs thread_id node_id files [] hcpus hpin, ?_⟩
  · rw [hqueue]
    exact filterMap_loadResult_map fs files
  · intro fileData hfd
    rw [hqueue, List.mem_filterMap] at hfd
    obtain ⟨entry, -, hentry⟩ := hfd
    rw [loadResult_eq_ite] at hentry
    by_cases hl : loads fs entry = true
    · rw [if_pos hl] at hentry
      cases hentry
      refine ⟨rfl, ?_⟩
      unfold loads at hl
      simp only [Bool.and_eq_true] at hl
      exact hl.1.2
    · rw [if_neg hl] at hentry
      cases hentry
  · rw [totalFilesLoaded_eq, hqueue, ← filterMap_loadResult_map]
    simp
  · intro before after path size hfiles hne hhid hopen
    have hres : loadResult fs (path, size) = none := by
      rw [loadResult_eq_ite]
      unfold loads
      simp [hopen]
    have hline : loadLogLine fs thread_id (path, size) =
        some (LogLine.openError thread_id path) := by
      unfold loadLogLine
      simp only [hne, hhid, hopen, Bool.or_self, Bool.false_eq_true, if_false, Bool.not_false,
        if_true]
    constructor
    · rw [hqueue, hqueue, hfiles, List.filterMap_append, List.filterMap_append,
        List.filterMap_cons, hres]
    · rw [loadFilesOnNode_log topo fs thread_id node_id files [] hcpus hpin, hfiles,
        List.filterMap_append, List.filterMap_cons, hline]

/-- C11 on six entries: only "ok.txt" and "late.txt" reach the queue; "denied.txt" (which
does not open) leaves one line, the short read of "short.txt" another, and the empty and
the hidden path none. -/
theorem loadFilesOnNode_loads_readable_entries_witness :
    loadFilesOnNode (uniformTopology 0 0 0) mixedFiles 1 0
        [("ok.txt", 3), ("denied.txt", 4), ("", 1), ("d/.h", 2), ("short.txt", 5),
          ("late.txt", 2)] [] =
      ([{ path := "ok.txt", content := [97, 98, 99, 0], size := 3 },
        { path := "late.txt", content := [120, 121, 0], size := 2 }],
       [LogLine.affinitySet 1 0, LogLine.runningOn 1, LogLine.openError 1 "denied.txt",
        LogLine.readError 1 "short.txt", LogLine.completed 1 0]) ∧
    ((loadFilesOnNode (uniformTopology 0 0 0) mixedFiles 1 0
        [("ok.txt", 3), ("denied.txt", 4), ("", 1), ("d/.h", 2), ("short.txt", 5),
          ("late.txt", 2)] []).1.map fun fileData => (fileData.path, fileData.size)) =
      [("ok.txt", 3), ("late.txt", 2)] :=
  ⟨by decide,
   (loadFilesOnNode_loads_readable_entries (uniformTopology 0 0 0) mixedFiles 1 0
      [("ok.txt", 3), ("denied.txt", 4), ("", 1), ("d/.h", 2), ("short.txt", 5),
        ("late.txt", 2)] rfl rfl).1.trans (by decide)⟩

/-! ## Counters stay in range -/

theorem mem_modify {α : Type} (g : α → α) (l : List α) (i : Nat) (b : α)
    (h : b ∈ l.modify g i) : b ∈ l ∨ ∃ a ∈ l, b = g a := by
  induction l generalizing i with
  | nil => cases i <;> simp [List.modify] at h
  | cons x xs ih =>
    cases i with
    | zero =>
      have h0 : (x :: xs).modify g 0 = g x :: xs := rfl
      rw [h0] at h
      rcases List.mem_cons.1 h with rfl | hmem
      · exact Or.inr ⟨x, List.mem_cons_self _ _, rfl⟩
      · exact Or.inl (List.mem_cons_of_mem _ hmem)
    | succ i =>
      rw [List.modify_succ_cons] at h
      rcases List.mem_cons.1 h with rfl | hmem
      · exact Or.inl (List.mem_cons_self _ _)
      · rcases ih i hmem with h1 | ⟨a, ha, rfl⟩
        · exact Or.inl (List.mem_cons_of_mem _ h1)
        · exact Or.inr ⟨a, List.mem_cons_of_mem _ ha, rfl⟩

theorem modify_eq_self {α : Type} (g : α → α) (l : List α) (i : Nat)
    (h : ∀ a ∈ l, g a = a) : l.modify g i = l := by
  induction l generalizing i with
  | nil => cases i <;> rfl
  | cons x xs ih =>
    cases i with
    | zero =>
      have h0 : (x :: xs).modify g 0 = g x :: xs := rfl
      rw [h0, h x (List.mem_cons_self _ _)]
    | succ i =>
      rw [List.modify_succ_cons, ih i (fun a ha => h a (List.mem_cons_of_mem _ ha))]

theorem countersInRange_step {charDict : CharDict} {s s' : Phase2} {i : Nat}
    (hr : countersInRange s) (h : processFileStep charDict s i = some s') :
    countersInRange s' := by
  obtain ⟨hB, hT, hP⟩ := hr
  rcases processFileStep_cases charDict s s' i h with
    ⟨rfl, -⟩ | ⟨w, hw, hpc, hq, rfl⟩ | ⟨w, fileData, rest, hw, hpc, hq, rfl⟩ |
      ⟨w, fileData, result, hw, hpc, ht, rfl⟩ | ⟨w, count, hw, hpc, rfl⟩
  · exact ⟨hB, hT, hP⟩
  · exact ⟨hB, hT, hP⟩
  · exact ⟨hB, hT, hP⟩
  · refine ⟨Nat.mod_lt _ (by decide), hT, ?_⟩
    intro b hb
    rcases mem_modify _ _ _ _ hb with hmem | ⟨a, -, rfl⟩
    · exact hP b hmem
    · exact Nat.mod_lt _ (by decide)
  · exact ⟨hB, Nat.mod_lt _ (by decide), hP⟩

theorem countersInRange_run {charDict : CharDict} (schedule : List Nat) {s s' : Phase2}
    (hr : countersInRange s) (h : runWorkers charDict s schedule = some s') :
    countersInRange s' := by
  induction schedule generalizing s with
  | nil =>
    simp only [runWorkers, List.foldlM_nil, Option.pure_def, Option.some.injEq] at h
    exact h ▸ hr
  | cons i rest ih =>
    simp only [runWorkers, List.foldlM_cons, Option.bind_eq_bind] at h
    cases hstep : processFileStep charDict s i with
    | none => rw [hstep] at h; cases h
    | some s1 =>
      rw [hstep, Option.some_bind] at h
      exact ih (countersInRange_step hr hstep) h

theorem countersInRange_start {numaMaxNode : Int} {numThreads : Nat}
    {queues : List (List FileData)} {s0 : Phase2}
    (h : startWorkers numaMaxNode numThreads queues = some s0) : countersInRange s0 := by
  unfold startWorkers at h
  obtain ⟨workers, -, rfl⟩ := Option.map_eq_some'.1 h
  refine ⟨(by decide : (0 : Nat) < uintmaxModulus), (by decide : (0 : Nat) < uintmaxModulus), ?_⟩
  intro b hb
  rw [List.eq_of_mem_replicate hb]
  decide

/-- The counters of every state a run of `indexFiles` reaches are in range. -/
theorem countersInRange_indexFiles {topo : Topology} {fs : FileSystem} {numThreads : Nat}
    {crawled : List FileInfo} {schedule : List Nat} {s : Phase2}
    (h : indexFiles topo fs numThreads crawled schedule = some s) : countersInRange s := by
  unfold indexFiles at h
  cases hstart : startWorkers topo.numaMaxNode numThreads (loadedQueues topo fs crawled) with
  | none => rw [hstart] at h; cases h
  | some s0 =>
    rw [hstart] at h
    exact countersInRange_run schedule (countersInRange_start hstart) h

/-! ## An empty file -/

theorem tokenize_terminator_only :
    tokenize [0] 0 defaultCharDict = some ([], [0]) := by
  decide!

/-- C12: take a path that is not empty and has no "/." in it, whose `open` succeeds and
whose `read` returns 0 bytes, reported with size 0.  The loop body of the loader pushes
it, with the 1-byte buffer holding the terminator; when every CPU query succeeds it is on
the queues `indexFiles` builds and is one of the entries `totalFilesLoaded` counts.
`tokenize` on its buffer with size 0 returns no token.  In every state a run of
`indexFiles` reaches, the step of a worker holding that file leaves `totalBytes`, the
`bytesProcessed` vector and `totalTokens` as they are and keeps a token count of 0, and
the step of a worker holding a token count of 0 leaves `totalTokens`, `totalBytes` and
`bytesProcessed` as they are. -/
theorem empty_file_is_loaded_and_adds_nothing (fs : FileSystem) (path : String)
    (hpath : path.isEmpty = false) (hvisible : containsSlashDot path.toList = false)
    (hopen : (fs path).openOk = true) (hread : (fs path).bytesRead = 0) :
    (∀ (thread_id : Int) (st : List FileData × List LogLine),
      loadFile fs thread_id st (path, 0) =
        (st.1 ++ [{ path := path, content := [0], size := 0 }], st.2)) ∧
    (∀ (topo : Topology) (crawled : List FileInfo), (∀ node, topo.nodeToCpus node = 0) →
      (path, 0) ∈ crawled →
        { path := path, content := [0], size := 0 } ∈ (loadedQueues topo fs crawled).flatten ∧
        loads fs (path, 0) = true ∧
        totalFilesLoaded (loadedQueues topo fs crawled) = (crawled.filter (loads fs)).length) ∧
    tokenize [0] 0 defaultCharDict = some ([], [0]) ∧
    (∀ (topo : Topology) (numThreads : Nat) (crawled : List FileInfo) (schedule : List Nat)
        (s : Phase2) (i : Nat) (w : Worker),
      indexFiles topo fs numThreads crawled schedule = some s → s.workers[i]? = some w →
      w.pc = WorkerPc.addBytes { path := path, content := [0], size := 0 } →
        ∃ s', processFileStep defaultCharDict s i = some s' ∧
          s'.totalBytes = s.totalBytes ∧ s'.bytesProcessed = s.bytesProcessed ∧
          s'.totalTokens = s.totalTokens ∧
          s'.workers[i]? = some { node := w.node, pc := WorkerPc.addTokens 0 }) ∧
    (∀ (topo : Topology) (numThreads : Nat) (crawled : List FileInfo) (schedule : List Nat)
        (s : Phase2) (i : Nat) (w : Worker),
      indexFiles topo fs numThreads crawled schedule = some s → s.workers[i]? = some w →
      w.pc = WorkerPc.addTokens 0 →
        ∃ s', processFileStep defaultCharDict s i = some s' ∧
          s'.totalTokens = s.totalTokens ∧ s'.totalBytes = s.totalBytes ∧
          s'.bytesProcessed = s.bytesProcessed ∧
          s'.workers[i]? = some { node := w.node, pc := WorkerPc.atPop }) := by
  have hbuf : ∀ data : List Byte, loadedBuffer data 0 = [0] := by
    intro data
    simp [loadedBuffer]
  have hloads : loads fs (path, 0) = true := by
    show (!path.isEmpty && !containsSlashDot path.toList && (fs path).openOk &&
      decide ((fs path).bytesRead = ((0 : Nat) : Int))) = true
    rw [hpath, hvisible, hopen, hread]
    rfl
  have hres : loadResult fs (path, 0) = some { path := path, content := [0], size := 0 } := by
    rw [loadResult_eq_ite, if_pos hloads]
    simp only [hbuf]
  refine ⟨?_, ?_, tokenize_terminator_only, ?_, ?_⟩
  · intro thread_id st
    apply Prod.ext
    · rw [loadFile_eq, hres]
      rfl
    · have hline : loadLogLine fs thread_id (path, 0) = none := by
        show (if (path.isEmpty || containsSlashDot path.toList) = true then none
          else if (!(fs path).openOk) = true then some (LogLine.openError thread_id path)
          else if (fs path).bytesRead = ((0 : Nat) : Int) then none
          else some (LogLine.readError thread_id path)) = none
        rw [hpath, hvisible, hopen, hread]
        rfl
      rw [loadFile_log, hline]
      simp
  · intro topo crawled hcpus hmem
    have hperm := loadedQueues_flatten_perm topo fs crawled hcpus
    refine ⟨?_, hloads, ?_⟩
    · rw [hperm.mem_iff, List.mem_filterMap]
      exact ⟨(path, 0), hmem, hres⟩
    · rw [totalFilesLoaded_eq, ← List.length_flatten, hperm.length_eq,
        ← filterMap_loadResult_map, List.length_map]
  · intro topo numThreads crawled schedule s i w hrun hw hpc
    obtain ⟨hB, -, hP⟩ := countersInRange_indexFiles hrun
    have hlt : i < s.workers.length := by
      by_contra hge
      rw [List.getElem?_eq_none (by omega)] at hw
      cases hw
    refine ⟨{ s with
        totalBytes := (s.totalBytes + 0) % uintmaxModulus,
        bytesProcessed := s.bytesProcessed.modify (fun b => (b + 0) % uintmaxModulus) i,
        workers := s.workers.set i { w with pc := WorkerPc.addTokens 0 } }, ?_, ?_, ?_, rfl, ?_⟩
    · unfold processFileStep
      simp only [hw, hpc, tokenize_terminator_only]
      rfl
    · exact Nat.mod_eq_of_lt hB
    · exact modify_eq_self _ _ _ (fun a ha => Nat.mod_eq_of_lt (hP a ha))
    · simp [List.getElem?_set, hlt]
  · intro topo numThreads crawled schedule s i w hrun hw hpc
    obtain ⟨-, hT, -⟩ := countersInRange_indexFiles hrun
    have hlt : i < s.workers.length := by
      by_contra hge
      rw [List.getElem?_eq_none (by omega)] at hw
      cases hw
    refine ⟨{ s with
        totalTokens := (s.totalTokens + 0) % uintmaxModulus,
        workers := s.workers.set i { w with pc := WorkerPc.atPop } }, ?_, ?_, rfl, rfl, ?_⟩
    · unfold processFileStep
      simp only [hw, hpc]
    · exact Nat.mod_eq_of_lt hT
    · simp [List.getElem?_set, hlt]

/-- C12 on the empty file "empty.txt" as the only crawled entry, one node, one worker: it
is the one loaded file, and the run ends with all counters at 0. -/
theorem empty_file_is_loaded_and_adds_nothing_witness :
    loadedQueues (uniformTopology 0 0 0) mixedFiles [("empty.txt", 0)] =
      [[{ path := "empty.txt", content := [0], size := 0 }]] ∧
    totalFilesLoaded (loadedQueues (uniformTopology 0 0 0) mixedFiles [("empty.txt", 0)]) = 1 ∧
    indexFiles (uniformTopology 0 0 0) mixedFiles 1 [("empty.txt", 0)] [0, 0, 0, 0] =
      some (finishedOnOneNode 0 0 [0]) ∧
    ({ path := "empty.txt", content := [0], size := 0 } ∈
        (loadedQueues (uniformTopology 0 0 0) mixedFiles [("empty.txt", 0)]).flatten ∧
      loads mixedFiles ("empty.txt", 0) = true ∧
      totalFilesLoaded (loadedQueues (uniformTopology 0 0 0) mixedFiles [("empty.txt", 0)]) =
        ([("empty.txt", 0)].filter (loads mixedFiles)).length) :=
  ⟨by decide!, by decide!, by decide!,
   (empty_file_is_loaded_and_adds_nothing mixedFiles "empty.txt" (by decide) (by decide)
      (by decide) (by decide)).2.1 (uniformTopology 0 0 0) [("empty.txt", 0)] (fun _ => rfl)
      (by decide)⟩

/-! ## Recovering the token text -/

/-- Under the default table masking keeps a word byte, which is not zero, and clears any
other byte. -/
theorem mask_default (c : Byte) :
    (isWordByte c = true ∧ c &&& defaultCharDict c = c ∧ c ≠ 0) ∨
      (isWordByte c = false ∧ c &&& defaultCharDict c = 0) := by
  unfold isWordByte
  rcases defaultCharDict_cases c with ⟨-, hal, hm⟩ | ⟨-, hal, hm⟩
  · refine Or.inl ⟨hal, hm, ?_⟩
    intro h0
    rw [h0] at hal
    exact absurd hal (by decide)
  · exact Or.inr ⟨hal, hm⟩

/-- Reading the masked bytes up to the first zero gives the leading word bytes. -/
theorem takeWhile_masked (l : List Byte) :
    ((l.map fun c => c &&& defaultCharDict c) ++ [0]).takeWhile (fun c => decide (c ≠ 0)) =
      l.takeWhile isWordByte := by
  induction l with
  | nil => simp
  | cons c rest ih =>
    rw [List.map_cons, List.cons_append, List.takeWhile_cons, List.takeWhile_cons]
    rcases mask_default c with ⟨hal, hm, hne⟩ | ⟨hal, hm⟩
    · rw [hm, if_pos (by simpa using hne), if_pos hal, ih]
    · rw [hm, if_neg (by simp), if_neg (by simp [hal])]

theorem maskPrefix_terminated (content : List Byte) :
    maskPrefix defaultCharDict (content ++ [0]) content.length =
      (content.map fun c => c &&& defaultCharDict c) ++ [0] := by
  unfold maskPrefix
  rw [List.take_left, List.drop_left]

/-- The scan from the offset at which a suffix of the content starts. -/
theorem scanToZero_masked (before l : List Byte) :
    scanToZero (((before ++ l).map fun c => c &&& defaultCharDict c) ++ [0]) before.length =
      l.takeWhile isWordByte := by
  unfold scanToZero
  rw [List.map_append, List.append_assoc, List.drop_left' (List.length_map _ _),
    takeWhile_masked]

theorem endsInRun_concat (before : List Byte) (c : Byte) :
    endsInRun (before ++ [c]) = isWordByte c := by
  unfold endsInRun
  rw [List.getLast?_append]
  rfl

/-- Whether the loop pushes a token at the offset where a suffix `c :: rest` starts. -/
theorem isTokenStart_at_suffix (before rest : List Byte) (c : Byte) :
    isTokenStart defaultCharDict (before ++ c :: rest) before.length =
      (isWordByte c && !endsInRun before) := by
  have hc : (before ++ c :: rest)[before.length]? = some c := by
    rw [List.getElem?_append_right (Nat.le_refl _), Nat.sub_self, List.getElem?_cons_zero]
  have hword : decide (charToInt (defaultCharDict c) = allOnes) = isWordByte c := by
    unfold isWordByte
    rcases defaultCharDict_cases c with ⟨h, hal, -⟩ | ⟨h, hal, -⟩ <;> rw [h, hal] <;> decide
  unfold isTokenStart
  rw [hc]
  simp only
  rw [hword]
  rcases List.eq_nil_or_concat before with rfl | ⟨before', p, hbefore⟩
  · simp [endsInRun]
  · rw [List.concat_eq_append] at hbefore
    subst hbefore
    have hp : (before' ++ [p] ++ c :: rest)[(before' ++ [p]).length - 1]? = some p := by
      rw [List.length_append, List.length_singleton, Nat.add_sub_cancel, List.append_assoc,
        List.getElem?_append_right (Nat.le_refl _), Nat.sub_self, List.singleton_append,
        List.getElem?_cons_zero]
    have hdelim : decide (charToInt (defaultCharDict p) = 0) = !isWordByte p := by
      unfold isWordByte
      rcases defaultCharDict_cases p with ⟨h, hal, -⟩ | ⟨h, hal, -⟩ <;> rw [h, hal] <;> decide
    rw [hp]
    simp only
    rw [hdelim, endsInRun_concat]
    have hne : decide ((before' ++ [p]).length = 0) = false := by simp
    rw [hne, Bool.false_or]

/-- The scans from the token starts inside a suffix are the runs that start inside it. -/
theorem scans_of_suffix (l before : List Byte) :
    (((List.range' before.length l.length).filter
        (isTokenStart defaultCharDict (before ++ l ++ [0]))).map
        (scanToZero (((before ++ l).map fun c => c &&& defaultCharDict c) ++ [0]))) =
      runsFrom (endsInRun before) l := by
  induction l generalizing before with
  | nil => rfl
  | cons c rest ih =>
    have hih := ih (before ++ [c])
    rw [List.length_append, List.length_singleton, endsInRun_concat,
      show before ++ [c] ++ rest = before ++ c :: rest by simp] at hih
    rw [List.length_cons, List.range'_succ, List.filter_cons,
      show before ++ c :: rest ++ [0] = before ++ c :: (rest ++ [0]) by simp,
      isTokenStart_at_suffix]
    rw [show before ++ c :: (rest ++ [0]) = before ++ c :: rest ++ [0] by simp]
    unfold runsFrom
    by_cases hc : isWordByte c = true
    · by_cases hrun : endsInRun before = true
      · rw [hc] at hih
        simp only [hc, hrun, Bool.not_true, Bool.and_false, Bool.false_eq_true, if_false,
          if_true]
        exact hih
      · rw [hc] at hih
        simp only [Bool.not_eq_true] at hrun
        simp only [hc, hrun, Bool.not_false, Bool.and_true, if_true, Bool.false_eq_true,
          if_false, List.map_cons, hih, scanToZero_masked, List.takeWhile_cons]
    · simp only [Bool.not_eq_true] at hc
      rw [hc] at hih
      simp only [hc, Bool.false_and, Bool.false_eq_true, if_false]
      exact hih

/-- The pieces of the split after the first one, or all of them when no run is open. -/
theorem runsFrom_eq_split (l : List Byte) :
    runsFrom false l = alnumRuns l ∧
      runsFrom true l =
        ((l.splitOnP fun c => !isWordByte c).tail.filter fun piece => !piece.isEmpty) ∧
      (l.splitOnP fun c => !isWordByte c).head? = some (l.takeWhile isWordByte) := by
  induction l with
  | nil => simp [runsFrom, alnumRuns]
  | cons c rest ih =>
    obtain ⟨ih1, ih2, ih3⟩ := ih
    unfold alnumRuns at ih1 ⊢
    rw [List.splitOnP_cons]
    cases hsplit : (rest.splitOnP fun c => !isWordByte c) with
    | nil => exact absurd hsplit (List.splitOnP_ne_nil _ _)
    | cons piece pieces =>
      rw [hsplit] at ih1 ih2 ih3
      simp only [List.head?_cons, Option.some.injEq] at ih3
      simp only [List.tail_cons] at ih2
      unfold runsFrom
      by_cases hc : isWordByte c = true
      · simp only [hc, Bool.not_true, Bool.false_eq_true, if_false, if_true, List.modifyHead,
          List.tail_cons, List.head?_cons, List.takeWhile_cons, ih2, ih3]
        simp
      · simp only [Bool.not_eq_true] at hc
        simp only [hc, Bool.not_false, if_true, Bool.false_eq_true, if_false, List.tail_cons,
          List.head?_cons, List.takeWhile_cons, ih1]
        simp

/-- C13: for content of `n >= 1` bytes followed by the loader's zero terminator, and the
default table, `tokenize` returns, and reading the buffer it leaves from each returned
start up to the next zero byte gives, start by start, the run of alphanumeric bytes of the
original content that begins at that start; these are, in order, the maximal runs of
alphanumeric bytes of the content, that is the content split on its non-alphanumeric
bytes with the empty pieces dropped. -/
theorem token_text_recovered_by_scanning (content : List Byte) (hn : 1 ≤ content.length) :
    ∃ tokens buffer',
      tokenize (content ++ [0]) content.length defaultCharDict = some (tokens, buffer') ∧
      tokens.map (scanToZero buffer') =
        tokens.map (fun start => (content.drop start).takeWhile isWordByte) ∧
      tokens.map (scanToZero buffer') = runsFrom false content ∧
      tokens.map (scanToZero buffer') = alnumRuns content := by
  have htok := tokenize_default_eq (content ++ [0]) content.length hn (by simp)
  rw [maskPrefix_terminated] at htok
  have hscans := scans_of_suffix content []
  simp only [List.nil_append, List.length_nil] at hscans
  rw [← List.range_eq_range'] at hscans
  have hfalse : endsInRun [] = false := rfl
  rw [hfalse] at hscans
  refine ⟨_, _, htok, ?_, hscans, hscans.trans (runsFrom_eq_split content).1⟩
  apply List.map_congr_left
  intro start hstart
  have hlt : start < content.length := List.mem_range.1 (List.mem_filter.1 hstart).1
  have h := scanToZero_masked (content.take start) (content.drop start)
  rw [List.take_append_drop, List.length_take, Nat.min_eq_left (by omega)] at h
  exact h

/-- C13 on "ab cd": the starts 0 and 3 read back as "ab" and "cd". -/
theorem token_text_recovered_by_scanning_witness :
    tokenize [97, 98, 32, 99, 100, 0] 5 defaultCharDict =
      some ([0, 3], [97, 98, 0, 99, 100, 0]) ∧
    [0, 3].map (scanToZero [97, 98, 0, 99, 100, 0]) = [[97, 98], [99, 100]] ∧
    alnumRuns [97, 98, 32, 99, 100] = [[97, 98], [99, 100]] ∧
    ∃ tokens buffer',
      tokenize ([97, 98, 32, 99, 100] ++ [0]) [(97 : Byte), 98, 32, 99, 100].length
        defaultCharDict = some (tokens, buffer') ∧
      tokens.map (scanToZero buffer') =
        tokens.map (fun start =>
          ([(97 : Byte), 98, 32, 99, 100].drop start).takeWhile isWordByte) ∧
      tokens.map (scanToZero buffer') = runsFrom false [97, 98, 32, 99, 100] ∧
      tokens.map (scanToZero buffer') = alnumRuns [97, 98, 32, 99, 100] :=
  ⟨by decide!, by decide!, by decide!,
   token_text_recovered_by_scanning [97, 98, 32, 99, 100] (by decide)⟩

/-! ## The slowest thread -/

/-- The scan from index `k` either keeps its state, when no entry exceeds the time it
holds, or ends on the first entry that is maximal. -/
theorem foldl_slowestThreadStep (l : List ℚ) (k : Nat) (acc : Int × ℚ) :
    ((l.enumFrom k).foldl slowestThreadStep acc = acc ∧ ∀ t ∈ l, t ≤ acc.2) ∨
      ∃ j t, l[j]? = some t ∧
        (l.enumFrom k).foldl slowestThreadStep acc = (((k + j : Nat) : Int) + 1, t) ∧
        acc.2 < t ∧ (∀ u ∈ l, u ≤ t) ∧ ∀ i u, i < j → l[i]? = some u → u < t := by
  induction l generalizing k acc with
  | nil => exact Or.inl ⟨rfl, by simp⟩
  | cons t rest ih =>
    rw [List.enumFrom_cons, List.foldl_cons]
    by_cases ht : t > acc.2
    · have hstep : slowestThreadStep acc (k, t) = ((k : Int) + 1, t) := by
        unfold slowestThreadStep
        rw [if_pos ht]
      rw [hstep]
      right
      rcases ih (k + 1) ((k : Int) + 1, t) with ⟨heq, hle⟩ | ⟨j, u, hj, heq, hlt, hle, hfirst⟩
      · refine ⟨0, t, List.getElem?_cons_zero, ?_, ht, ?_, ?_⟩
        · rw [heq]
          simp
        · intro u hu
          rcases List.mem_cons.1 hu with rfl | hu
          · exact le_refl _
          · exact hle u hu
        · intro i u hi
          omega
      · refine ⟨j + 1, u, by simpa using hj, ?_, lt_trans ht hlt, ?_, ?_⟩
        · rw [heq]
          congr 1
          push_cast
          ring
        · intro v hv
          rcases List.mem_cons.1 hv with rfl | hv
          · exact le_of_lt hlt
          · exact hle v hv
        · intro i v hi hv
          cases i with
          | zero =>
            simp only [List.getElem?_cons_zero, Option.some.injEq] at hv
            rw [← hv]
            exact hlt
          | succ i =>
            rw [List.getElem?_cons_succ] at hv
            exact hfirst i v (by omega) hv
    · have hstep : slowestThreadStep acc (k, t) = acc := by
        unfold slowestThreadStep
        rw [if_neg ht]
      rw [hstep]
      have htle : t ≤ acc.2 := not_lt.1 ht
      rcases ih (k + 1) acc with ⟨heq, hle⟩ | ⟨j, u, hj, heq, hlt, hle, hfirst⟩
      · left
        refine ⟨heq, ?_⟩
        intro u hu
        rcases List.mem_cons.1 hu with rfl | hu
        · exact htle
        · exact hle u hu
      · right
        refine ⟨j + 1, u, by simpa using hj, ?_, hlt, ?_, ?_⟩
        · rw [heq]
          congr 1
          push_cast
          ring
        · intro v hv
          rcases List.mem_cons.1 hv with rfl | hv
          · exact le_of_lt (lt_of_le_of_lt htle hlt)
          · exact hle v hv
        · intro i v hi hv
          cases i with
          | zero =>
            simp only [List.getElem?_cons_zero, Option.some.injEq] at hv
            rw [← hv]
            exact lt_of_le_of_lt htle hlt
          | succ i =>
            rw [List.getElem?_cons_succ] at hv
            exact hfirst i v (by omega) hv

/-- C14: the scan starts from thread id 0 and time 0.0 and replaces them only on a time
strictly above the one it holds.  For one worker whose time is 0.0, and for the vector as
`indexFiles` creates it for any number of workers (what it still is when no worker had a
file to tokenize), it reports thread id 0, which is no worker.  For non-negative times the
reported time is an upper bound of all times, and when some time is positive the reported
id is in `1..numThreads`, it is the first worker whose time is the maximum, and the
reported time is that maximum; when no time is positive the report is id 0, time 0. -/
theorem slowestThread_reports_zero_when_idle :
    slowestThread [0] = (0, 0) ∧
    (∀ numThreads : Nat, slowestThread (initialTokenizationTimes numThreads) = (0, 0)) ∧
    slowestThread [1 / 2, 3, 3, 2] = (2, 3) ∧
    ∀ tokenizationTimes : List ℚ, (∀ t ∈ tokenizationTimes, 0 ≤ t) →
      (∀ t ∈ tokenizationTimes, t ≤ (slowestThread tokenizationTimes).2) ∧
      ((∃ t ∈ tokenizationTimes, 0 < t) →
        1 ≤ (slowestThread tokenizationTimes).1 ∧
        (slowestThread tokenizationTimes).1 ≤ tokenizationTimes.length ∧
        tokenizationTimes[((slowestThread tokenizationTimes).1 - 1).toNat]? =
          some (slowestThread tokenizationTimes).2 ∧
        ∀ (i : Nat) (u : ℚ), (i : Int) + 1 < (slowestThread tokenizationTimes).1 →
          tokenizationTimes[i]? = some u → u < (slowestThread tokenizationTimes).2) ∧
      ((∀ t ∈ tokenizationTimes, t = 0) → slowestThread tokenizationTimes = (0, 0)) := by
  have hgen : ∀ tokenizationTimes : List ℚ,
      (slowestThread tokenizationTimes = (0, 0) ∧ ∀ t ∈ tokenizationTimes, t ≤ 0) ∨
      ∃ j t, tokenizationTimes[j]? = some t ∧
        slowestThread tokenizationTimes = (((j : Nat) : Int) + 1, t) ∧
        0 < t ∧ (∀ u ∈ tokenizationTimes, u ≤ t) ∧
        ∀ i u, i < j → tokenizationTimes[i]? = some u → u < t := by
    intro tokenizationTimes
    have h := foldl_slowestThreadStep tokenizationTimes 0 (0, 0)
    simp only [Nat.zero_add] at h
    exact h
  have hidle : ∀ tokenizationTimes : List ℚ, (∀ t ∈ tokenizationTimes, t ≤ 0) →
      slowestThread tokenizationTimes = (0, 0) := by
    intro tokenizationTimes hle
    rcases hgen tokenizationTimes with ⟨heq, -⟩ | ⟨j, t, hj, -, hpos, -, -⟩
    · exact heq
    · exact absurd (hle t (List.getElem?_mem hj)) (not_le.2 hpos)
  refine ⟨hidle _ (by simp), ?_, ?_, ?_⟩
  · intro numThreads
    apply hidle
    intro t ht
    rw [initialTokenizationTimes, List.mem_replicate] at ht
    exact le_of_eq ht.2
  · simp [slowestThread, List.enum, List.enumFrom, slowestThreadStep]
    norm_num
  · intro tokenizationTimes hnonneg
    rcases hgen tokenizationTimes with ⟨heq, hle⟩ | ⟨j, t, hj, heq, hpos, hle, hfirst⟩
    · refine ⟨?_, ?_, fun _ => heq⟩
      · rw [heq]
        exact hle
      · rintro ⟨t, ht, hpos⟩
        exact absurd (hle t ht) (not_le.2 hpos)
    · have hjlt : j < tokenizationTimes.length := by
        by_contra hge
        rw [List.getElem?_eq_none (by omega)] at hj
        cases hj
      refine ⟨?_, ?_, ?_⟩
      · rw [heq]
        exact hle
      · intro _
        rw [heq]
        refine ⟨by simp only; omega, by simp only; omega, ?_, ?_⟩
        · simp only [Int.add_sub_cancel, Int.toNat_ofNat]
          exact hj
        · intro i u hi hu
          exact hfirst i u (by simp only at hi; omega) hu
      · intro hzero
        exact absurd (hzero t (List.getElem?_mem hj)) (ne_of_gt hpos)

/-! ## Each buffer is popped once and tokenized once -/

theorem flatten_pop (queues : List (List FileData)) (k : Nat) (fileData : FileData)
    (rest : List FileData) (hq : queues[k]? = some (fileData :: rest)) :
    (fileData :: (queues.set k rest).flatten).Perm queues.flatten := by
  induction queues generalizing k with
  | nil => simp at hq
  | cons queue queues ih =>
    cases k with
    | zero =>
      simp only [List.getElem?_cons_zero, Option.some.injEq] at hq
      subst hq
      simp only [List.set_cons_zero, List.flatten_cons, List.cons_append]
      exact List.Perm.refl _
    | succ k =>
      simp only [List.getElem?_cons_succ] at hq
      simp only [List.set_cons_succ, List.flatten_cons]
      exact List.perm_middle.symm.trans (List.Perm.append_left queue (ih k hq))

theorem held_enumFrom_set (workers : List Worker) (k i : Nat) (w w' : Worker)
    (hw : workers[i]? = some w) :
    (heldBy (k + i) w ++
        (((workers.set i w').enumFrom k).map fun entry => heldBy entry.1 entry.2).flatten).Perm
      (heldBy (k + i) w' ++
        ((workers.enumFrom k).map fun entry => heldBy entry.1 entry.2).flatten) := by
  induction workers generalizing k i with
  | nil => simp at hw
  | cons x xs ih =>
    cases i with
    | zero =>
      simp only [List.getElem?_cons_zero, Option.some.injEq] at hw
      subst hw
      simp only [List.set_cons_zero, List.enumFrom_cons, List.map_cons, List.flatten_cons,
        Nat.add_zero]
      exact List.perm_append_comm_assoc _ _ _
    | succ i =>
      simp only [List.getElem?_cons_succ] at hw
      simp only [List.set_cons_succ, List.enumFrom_cons, List.map_cons, List.flatten_cons]
      have h := ih (k + 1) i hw
      rw [show k + 1 + i = k + (i + 1) by omega] at h
      exact (List.perm_append_comm_assoc _ _ _).trans
        ((List.Perm.append_left _ h).trans (List.perm_append_comm_assoc _ _ _))

theorem heldBuffers_of_set (s s' : Phase2) (i : Nat) (w w' : Worker)
    (hw : s.workers[i]? = some w) (hs : s'.workers = s.workers.set i w') :
    (heldBy i w ++ heldBuffers s').Perm (heldBy i w' ++ heldBuffers s) := by
  unfold heldBuffers
  rw [hs]
  have h := held_enumFrom_set s.workers 0 i w w' hw
  simp only [Nat.zero_add] at h
  exact h

/-- What one step does to the buffers in the queues and in the hands of the workers. -/
theorem processFileStep_events {charDict : CharDict} {s s' : Phase2} {i : Nat}
    (h : processFileStep charDict s i = some s') :
    (((popEvent s i).map Prod.snd) ++ s'.fileBuffersPerNode.flatten).Perm
        s.fileBuffersPerNode.flatten ∧
      (tokenizeEvent s i ++ heldBuffers s').Perm (heldBuffers s ++ popEvent s i) := by
  rcases processFileStep_cases charDict s s' i h with
    ⟨hs', hex⟩ | ⟨w, hw, hpc, hq, hs'⟩ | ⟨w, fileData, rest, hw, hpc, hq, hs'⟩ |
      ⟨w, fileData, result, hw, hpc, ht, hs'⟩ | ⟨w, count, hw, hpc, hs'⟩
  · have hpop : popEvent s i = [] := by
      unfold popEvent
      cases hw : s.workers[i]? with
      | none => rfl
      | some w => simp only [hex w hw]
    have htok : tokenizeEvent s i = [] := by
      unfold tokenizeEvent
      cases hw : s.workers[i]? with
      | none => rfl
      | some w => simp only [hex w hw]
    rw [hpop, htok, hs']
    simp
  · have hpop : popEvent s i = [] := by
      unfold popEvent
      simp only [hw, hpc, hq]
    have htok : tokenizeEvent s i = [] := by
      unfold tokenizeEvent
      simp only [hw, hpc]
    have hheld := heldBuffers_of_set s s' i w { w with pc := WorkerPc.exited } hw
      (by rw [hs'])
    have h1 : heldBy i w = [] := by
      unfold heldBy
      rw [hpc]
    have h2 : heldBy i { w with pc := WorkerPc.exited } = [] := rfl
    rw [h1, h2] at hheld
    rw [hpop, htok]
    refine ⟨?_, ?_⟩
    · rw [hs']
      simp
    · simpa using hheld
  · have hpop : popEvent s i = [(i + 1, fileData)] := by
      unfold popEvent
      simp only [hw, hpc, hq]
    have htok : tokenizeEvent s i = [] := by
      unfold tokenizeEvent
      simp only [hw, hpc]
    have hheld := heldBuffers_of_set s s' i w { w with pc := WorkerPc.addBytes fileData } hw
      (by rw [hs'])
    have h1 : heldBy i w = [] := by
      unfold heldBy
      rw [hpc]
    have h2 : heldBy i { w with pc := WorkerPc.addBytes fileData } = [(i + 1, fileData)] := rfl
    rw [h1, h2] at hheld
    rw [hpop, htok]
    refine ⟨?_, ?_⟩
    · rw [hs']
      exact flatten_pop _ _ _ _ hq
    · simp only [List.nil_append, List.singleton_append] at hheld ⊢
      exact hheld.trans (List.perm_append_singleton _ _).symm
  · have hpop : popEvent s i = [] := by
      unfold popEvent
      simp only [hw, hpc]
    have htok : tokenizeEvent s i = [(i + 1, fileData)] := by
      unfold tokenizeEvent
      simp only [hw, hpc]
    have hheld := heldBuffers_of_set s s' i w
      { w with pc := WorkerPc.addTokens result.1.length } hw (by rw [hs'])
    have h1 : heldBy i w = [(i + 1, fileData)] := by
      unfold heldBy
      rw [hpc]
    have h2 : heldBy i { w with pc := WorkerPc.addTokens result.1.length } = [] := rfl
    rw [h1, h2] at hheld
    rw [hpop, htok]
    refine ⟨?_, ?_⟩
    · rw [hs']
      simp
    · simpa using hheld
  · have hpop : popEvent s i = [] := by
      unfold popEvent
      simp only [hw, hpc]
    have htok : tokenizeEvent s i = [] := by
      unfold tokenizeEvent
      simp only [hw, hpc]
    have hheld := heldBuffers_of_set s s' i w { w with pc := WorkerPc.atPop } hw
      (by rw [hs'])
    have h1 : heldBy i w = [] := by
      unfold heldBy
      rw [hpc]
    have h2 : heldBy i { w with pc := WorkerPc.atPop } = [] := rfl
    rw [h1, h2] at hheld
    rw [hpop, htok]
    refine ⟨?_, ?_⟩
    · rw [hs']
      simp
    · simpa using hheld

/-- Along a run, the popped buffers and the queued ones are the buffers queued at the
start; the tokenized buffers and the held ones are the ones held at the start and the
popped ones. -/
theorem runWorkers_events {charDict : CharDict} (schedule : List Nat) {s s' : Phase2}
    (h : runWorkers charDict s schedule = some s') :
    (((eventTrace charDict popEvent s schedule).map Prod.snd) ++
        s'.fileBuffersPerNode.flatten).Perm s.fileBuffersPerNode.flatten ∧
      (eventTrace charDict tokenizeEvent s schedule ++ heldBuffers s').Perm
        (heldBuffers s ++ eventTrace charDict popEvent s schedule) := by
  induction schedule generalizing s with
  | nil =>
    simp only [runWorkers, List.foldlM_nil, Option.pure_def, Option.some.injEq] at h
    subst h
    simp [eventTrace]
  | cons i rest ih =>
    simp only [runWorkers, List.foldlM_cons, Option.bind_eq_bind] at h
    cases hstep : processFileStep charDict s i with
    | none => rw [hstep] at h; cases h
    | some s1 =>
      rw [hstep, Option.some_bind] at h
      obtain ⟨ihA, ihB⟩ := ih h
      obtain ⟨hA, hB⟩ := processFileStep_events hstep
      simp only [eventTrace, hstep, List.map_append, List.append_assoc]
      refine ⟨(List.Perm.append_left _ ihA).trans hA, ?_⟩
      refine (List.Perm.append_left _ ihB).trans ?_
      rw [← List.append_assoc, ← List.append_assoc]
      exact List.Perm.append_right _ hB

/-- Every event of a run carries the thread id of a worker. -/
theorem eventTrace_ids (charDict : CharDict) (schedule : List Nat) (s : Phase2) :
    (∀ e ∈ eventTrace charDict popEvent s schedule, 1 ≤ e.1 ∧ e.1 ≤ s.workers.length) ∧
      ∀ e ∈ eventTrace charDict tokenizeEvent s schedule, 1 ≤ e.1 ∧ e.1 ≤ s.workers.length := by
  induction schedule generalizing s with
  | nil => simp [eventTrace]
  | cons i rest ih =>
    cases hstep : processFileStep charDict s i with
    | none => simp [eventTrace, hstep]
    | some s1 =>
      have hlen : s1.workers.length = s.workers.length := by
        have := congrArg List.length (processFileStep_nodes hstep).1
        simpa using this
      obtain ⟨ih1, ih2⟩ := ih s1
      rw [hlen] at ih1 ih2
      have hpop : ∀ e ∈ popEvent s i, 1 ≤ e.1 ∧ e.1 ≤ s.workers.length := by
        intro e he
        unfold popEvent at he
        cases hw : s.workers[i]? with
        | none => rw [hw] at he; simp at he
        | some w =>
          have hlt : i < s.workers.length := by
            by_contra hge
            rw [List.getElem?_eq_none (by omega)] at hw
            cases hw
          rw [hw] at he
          simp only at he
          split at he
          · split at he
            · simp only [List.mem_singleton] at he
              subst he
              exact ⟨by simp, by simp only; omega⟩
            · simp at he
          · simp at he
      have htok : ∀ e ∈ tokenizeEvent s i, 1 ≤ e.1 ∧ e.1 ≤ s.workers.length := by
        intro e he
        unfold tokenizeEvent at he
        cases hw : s.workers[i]? with
        | none => rw [hw] at he; simp at he
        | some w =>
          have hlt : i < s.workers.length := by
            by_contra hge
            rw [List.getElem?_eq_none (by omega)] at hw
            cases hw
          rw [hw] at he
          simp only at he
          split at he
          · simp only [List.mem_singleton] at he
            subst he
            exact ⟨by simp, by simp only; omega⟩
          · simp at he
      simp only [eventTrace, hstep, List.mem_append]
      refine ⟨?_, ?_⟩
      · rintro e (he | he)
        · exact hpop e he
        · exact ih1 e he
      · rintro e (he | he)
        · exact htok e he
        · exact ih2 e he

theorem poolSafe_run (charDict : CharDict) (schedule : List Nat) {s : Phase2}
    (safe : PoolSafe s) :
    ∃ s', runWorkers charDict s schedule = some s' ∧ PoolSafe s' := by
  induction schedule generalizing s with
  | nil => exact ⟨s, rfl, safe⟩
  | cons i rest ih =>
    obtain ⟨s1, hstep⟩ := poolSafe_step_defined charDict safe i
    obtain ⟨s', hrun, hsafe⟩ := ih (poolSafe_step safe hstep)
    refine ⟨s', ?_, hsafe⟩
    simp only [runWorkers, List.foldlM_cons, Option.bind_eq_bind, hstep, Option.some_bind]
    exact hrun

theorem runWorkers_append (charDict : CharDict) (s : Phase2) (schedule more : List Nat) :
    runWorkers charDict s (schedule ++ more) =
      (runWorkers charDict s schedule).bind fun s1 => runWorkers charDict s1 more := by
  unfold runWorkers
  rw [List.foldlM_append]
  rfl

theorem heldBuffers_of_no_addBytes (s : Phase2)
    (h : ∀ w ∈ s.workers, ∀ fileData, w.pc ≠ WorkerPc.addBytes fileData) :
    heldBuffers s = [] := by
  unfold heldBuffers
  rw [List.flatten_eq_nil_iff]
  intro l hl
  obtain ⟨entry, hentry, rfl⟩ := List.mem_map.1 hl
  have hmem : entry.2 ∈ s.workers := by
    obtain ⟨i, w⟩ := entry
    obtain ⟨hi, hw⟩ := List.mem_enum hentry
    simp only at hw ⊢
    rw [hw]
    exact List.getElem_mem hi
  unfold heldBy
  split
  · next fileData hpc => exact absurd hpc (h _ hmem fileData)
  · rfl

theorem queuedBytes_eq_flatten (queues : List (List FileData)) :
    queuedBytes queues = (queues.flatten.map fun fileData => fileData.size).sum := by
  unfold queuedBytes
  induction queues with
  | nil => rfl
  | cons queue rest ih =>
    simp only [List.map_cons, List.sum_cons, List.flatten_cons, List.map_append,
      List.sum_append, ih]

/-- C15: let `numa_max_node()` be not negative, so that the node count is
`numa_max_node() + 1 >= 1`, and let `numThreads` be at least the node count.  Whatever the
loaders queued, every order of worker steps is defined; in the state it reaches, any step
of a worker still in its loop is defined and lowers the bound `stepsLeft`, and the order
can be continued until all workers have left their loops.  Once all have, every queue is
empty; the buffers popped are, up to order, exactly the loaded buffers; the pairs of thread
id and buffer passed to `tokenize` are, up to order, the pairs of the pops, each with a
thread id in `1..numThreads` and a `tokenize` call that returns; `totalBytes` equals the
sum of `bytesProcessed` as `indexFiles` computes it and the sum of the loaded sizes modulo
`2 ^ 64`, the sum itself when it is below `2 ^ 64`; `totalTokens` equals the sum of the
token counts of the loaded buffers, which is the sum over the `tokenize` calls made,
modulo `2 ^ 64`, the sum itself when it is below `2 ^ 64`. -/
theorem phase2_takes_each_buffer_once (topo : Topology) (fs : FileSystem)
    (numThreads : Nat) (crawled : List FileInfo) (hnodes : 0 ≤ topo.numaMaxNode)
    (hthreads : topo.numaMaxNode + 1 ≤ (numThreads : Int)) :
    (∀ schedule, ∃ s, indexFiles topo fs numThreads crawled schedule = some s ∧
      (∀ i w, s.workers[i]? = some w → w.pc ≠ WorkerPc.exited →
        ∃ s', processFileStep defaultCharDict s i = some s' ∧ stepsLeft s' < stepsLeft s) ∧
      ∃ more final, indexFiles topo fs numThreads crawled (schedule ++ more) = some final ∧
        allExited final = true) ∧
    ∀ schedule final, indexFiles topo fs numThreads crawled schedule = some final →
      allExited final = true →
      (∀ queue ∈ final.fileBuffersPerNode, queue = []) ∧
      ((poppedBuffers topo fs numThreads crawled schedule).map Prod.snd).Perm
        (loadedQueues topo fs crawled).flatten ∧
      (tokenizedBuffers topo fs numThreads crawled schedule).Perm
        (poppedBuffers topo fs numThreads crawled schedule) ∧
      (∀ e ∈ tokenizedBuffers topo fs numThreads crawled schedule,
        1 ≤ e.1 ∧ e.1 ≤ numThreads ∧
          ∃ result, tokenize e.2.content e.2.size defaultCharDict = some result) ∧
      final.totalBytes = totalProcessedBytes final ∧
      final.totalBytes = queuedBytes (loadedQueues topo fs crawled) % uintmaxModulus ∧
      queuedBytes (loadedQueues topo fs crawled) =
        ((tokenizedBuffers topo fs numThreads crawled schedule).map fun e => e.2.size).sum ∧
      final.totalTokens =
        queuedTokens defaultCharDict (loadedQueues topo fs crawled) % uintmaxModulus ∧
      queuedTokens defaultCharDict (loadedQueues topo fs crawled) =
        ((tokenizedBuffers topo fs numThreads crawled schedule).map fun e =>
          tokenCount defaultCharDict e.2).sum ∧
      (queuedBytes (loadedQueues topo fs crawled) < uintmaxModulus →
        final.totalBytes = queuedBytes (loadedQueues topo fs crawled) ∧
        totalProcessedBytes final = queuedBytes (loadedQueues topo fs crawled)) ∧
      (queuedTokens defaultCharDict (loadedQueues topo fs crawled) < uintmaxModulus →
        final.totalTokens = queuedTokens defaultCharDict (loadedQueues topo fs crawled)) := by
  have hstart := startWorkers_eq topo.numaMaxNode hnodes numThreads (loadedQueues topo fs crawled)
  have hsafe := startState_safe topo fs crawled hnodes numThreads
  have hstartH : heldBuffers
      { fileBuffersPerNode := loadedQueues topo fs crawled, totalBytes := 0, totalTokens := 0,
        bytesProcessed := List.replicate numThreads 0,
        workers := (List.range numThreads).map fun i =>
          { node := i % (topo.numaMaxNode + 1).toNat, pc := WorkerPc.atPop } } = [] := by
    apply heldBuffers_of_no_addBytes
    intro w hw fileData hpc
    obtain ⟨i, -, rfl⟩ := List.mem_map.1 hw
    cases hpc
  cases hst : startWorkers topo.numaMaxNode numThreads (loadedQueues topo fs crawled) with
  | none => rw [hstart] at hst; cases hst
  | some s0 =>
  have hs0 := Option.some.inj (hst.symm.trans hstart)
  rw [← hs0] at hsafe hstartH
  have hstartQ : s0.fileBuffersPerNode = loadedQueues topo fs crawled := by rw [hs0]
  have hstartW : s0.workers.length = numThreads := by
    rw [hs0]
    simp
  clear hs0 hstart
  have hidx : ∀ sched, indexFiles topo fs numThreads crawled sched =
      runWorkers defaultCharDict s0 sched := by
    intro sched
    unfold indexFiles
    rw [hst]
  have hpopped : ∀ sched, poppedBuffers topo fs numThreads crawled sched =
      eventTrace defaultCharDict popEvent s0 sched := by
    intro sched
    unfold poppedBuffers
    rw [hst]
  have htokenized : ∀ sched, tokenizedBuffers topo fs numThreads crawled sched =
      eventTrace defaultCharDict tokenizeEvent s0 sched := by
    intro sched
    unfold tokenizedBuffers
    rw [hst]
  constructor
  · intro schedule
    obtain ⟨s, hrun, safe⟩ := poolSafe_run defaultCharDict schedule hsafe
    refine ⟨s, (hidx schedule).trans hrun, ?_, ?_⟩
    · intro i w hw hlive
      obtain ⟨s', hstep⟩ := poolSafe_step_defined defaultCharDict safe i
      exact ⟨s', hstep, stepsLeft_decreases hstep hw hlive⟩
    · obtain ⟨more, final, hmore, hdone⟩ :=
        exists_complete_run defaultCharDict _ s (Nat.le_refl _) safe
      refine ⟨more, final, ?_, hdone⟩
      rw [hidx, runWorkers_append, hrun]
      exact hmore
  · intro schedule final hrun hdone
    obtain ⟨-, hall⟩ := indexFiles_final topo fs numThreads crawled hnodes hthreads
    obtain ⟨hempty, hproc, hbytes, htokens⟩ := hall schedule final hrun hdone
    rw [hidx] at hrun
    obtain ⟨hA, hB⟩ := runWorkers_events schedule hrun
    have hfinalQ : final.fileBuffersPerNode.flatten = [] := by
      rw [List.flatten_eq_nil_iff]
      exact hempty
    have hfinalH : heldBuffers final = [] := by
      apply heldBuffers_of_no_addBytes
      intro w hw fileData hpc
      have := List.all_eq_true.1 hdone w hw
      rw [hpc] at this
      simp at this
    rw [hfinalQ, List.append_nil, ← hpopped, hstartQ] at hA
    rw [hfinalH, hstartH, List.append_nil, List.nil_append, ← hpopped, ← htokenized] at hB
    have hC : ((tokenizedBuffers topo fs numThreads crawled schedule).map Prod.snd).Perm
        (loadedQueues topo fs crawled).flatten := (hB.map Prod.snd).trans hA
    have hids := (eventTrace_ids defaultCharDict schedule s0).2
    rw [← htokenized, hstartW] at hids
    refine ⟨hempty, hA, hB, ?_, ?_, hbytes, ?_, htokens, ?_, ?_, ?_⟩
    · intro e he
      refine ⟨(hids e he).1, (hids e he).2, ?_⟩
      have hmem : e.2 ∈ (loadedQueues topo fs crawled).flatten :=
        hC.mem_iff.1 (List.mem_map.2 ⟨e, he, rfl⟩)
      obtain ⟨queue, hqueue, hfd⟩ := List.mem_flatten.1 hmem
      have hcov := loadAllNodes_covers topo fs _ queue hqueue e.2 hfd
      exact ⟨_, tokenize_eq defaultCharDict _ _ (by omega)⟩
    · rw [hbytes, hproc]
    · rw [queuedBytes_eq_flatten, ← (hC.map fun fileData => fileData.size).sum_eq,
        List.map_map]
      rfl
    · rw [queuedTokens_eq_flatten, ← (hC.map (tokenCount defaultCharDict)).sum_eq,
        List.map_map]
      rfl
    · intro hfit
      rw [hbytes, hproc, Nat.mod_eq_of_lt hfit]
      exact ⟨rfl, rfl⟩
    · intro hfit
      rw [htokens, Nat.mod_eq_of_lt hfit]

/-- C15 on the files "a" ("ab cd") and "b" ("a b") loaded on two nodes with two workers
stepping in turn: thread 1 pops and tokenizes "a", thread 2 pops and tokenizes "b", and
the run ends with 8 bytes and 4 tokens counted. -/
theorem phase2_takes_each_buffer_once_witness :
    indexFiles (uniformTopology 1 0 0) twoFiles 2 [("a", 5), ("b", 3), ("c", 3)]
      [0, 1, 0, 1, 0, 1, 0, 1] = some twoFilesFinished ∧
    tokenizedBuffers (uniformTopology 1 0 0) twoFiles 2 [("a", 5), ("b", 3), ("c", 3)]
      [0, 1, 0, 1, 0, 1, 0, 1] =
        [(1, { path := "a", content := [97, 98, 32, 99, 100, 0], size := 5 }),
         (2, { path := "b", content := [97, 32, 98, 0], size := 3 })] ∧
    queuedBytes (loadedQueues (uniformTopology 1 0 0) twoFiles
      [("a", 5), ("b", 3), ("c", 3)]) = 8 ∧
    queuedTokens defaultCharDict (loadedQueues (uniformTopology 1 0 0) twoFiles
      [("a", 5), ("b", 3), ("c", 3)]) = 4 ∧
    ((poppedBuffers (uniformTopology 1 0 0) twoFiles 2 [("a", 5), ("b", 3), ("c", 3)]
        [0, 1, 0, 1, 0, 1, 0, 1]).map Prod.snd).Perm
      (loadedQueues (uniformTopology 1 0 0) twoFiles [("a", 5), ("b", 3), ("c", 3)]).flatten ∧
    (tokenizedBuffers (uniformTopology 1 0 0) twoFiles 2 [("a", 5), ("b", 3), ("c", 3)]
        [0, 1, 0, 1, 0, 1, 0, 1]).Perm
      (poppedBuffers (uniformTopology 1 0 0) twoFiles 2 [("a", 5), ("b", 3), ("c", 3)]
        [0, 1, 0, 1, 0, 1, 0, 1]) :=
  have hrun : indexFiles (uniformTopology 1 0 0) twoFiles 2 [("a", 5), ("b", 3), ("c", 3)]
      [0, 1, 0, 1, 0, 1, 0, 1] = some twoFilesFinished := by decide!
  have h := (phase2_takes_each_buffer_once (uniformTopology 1 0 0) twoFiles 2
    [("a", 5), ("b", 3), ("c", 3)] (by decide) (by decide)).2 [0, 1, 0, 1, 0, 1, 0, 1]
    twoFilesFinished hrun (by decide)
  ⟨hrun, by decide!, by decide!, by decide!, h.2.1, h.2.2.1⟩

/-! ## tokenize and the size it is given -/

/-- For `fileSize >= 1` inside the allocation, and any table: `tokenize` returns, every
start is below `fileSize`, the bytes from `fileSize` on are unchanged, and the starts and
the first `fileSize` bytes left depend only on the first `fileSize` bytes given. -/
theorem tokenize_within_size (charDict : CharDict) (buffer : List Byte) (n : Nat)
    (h1 : 1 ≤ n) (hn : n ≤ buffer.length) :
    ∃ tokens buffer', tokenize buffer n charDict = some (tokens, buffer') ∧
      (∀ t ∈ tokens, t < n) ∧
      (∀ i, n ≤ i → buffer'[i]? = buffer[i]?) ∧
      ∀ other : List Byte, other.take n = buffer.take n → n ≤ other.length →
        ∃ other', tokenize other n charDict = some (tokens, other') ∧
          other'.take n = buffer'.take n := by
  have hcov : n - 1 + 1 = n := by omega
  have heq := tokenize_eq charDict buffer n (by omega)
  rw [hcov] at heq
  refine ⟨_, _, heq, ?_, ?_, ?_⟩
  · intro t ht
    exact List.mem_range.1 (List.mem_filter.1 ht).1
  · intro i hi
    rw [maskPrefix_getElem?, if_neg (by omega)]
  · intro other htake hlen
    have heq2 := tokenize_eq charDict other n (by omega)
    rw [hcov] at heq2
    refine ⟨maskPrefix charDict other n, ?_, ?_⟩
    · rw [heq2]
      congr 2
      apply List.filter_congr
      intro i hi
      exact isTokenStart_congr_take charDict buffer other n i htake (List.mem_range.1 hi)
    · rw [maskPrefix_take _ _ _ hlen, maskPrefix_take _ _ _ hn, htake]

/-- With `fileSize = 0` the code before the loop still runs and the loop does not, which
is what happens with `fileSize = 1`. -/
theorem tokenize_zero_eq_one (charDict : CharDict) (buffer : List Byte) :
    tokenize buffer 0 charDict = tokenize buffer 1 charDict := by
  by_cases hlen : 1 ≤ buffer.length
  · rw [tokenize_eq charDict buffer 0 (by omega), tokenize_eq charDict buffer 1 (by omega)]
  · rw [tokenize_eq_none charDict buffer 0 (by omega),
      tokenize_eq_none charDict buffer 1 (by omega)]

/-- On a buffer that starts with the zero byte, with the default table and size 0. -/
theorem tokenize_zero_at_terminator (rest : List Byte) :
    tokenize (0 :: rest) 0 defaultCharDict = some ([], 0 :: rest) := by
  rw [tokenize_eq defaultCharDict (0 :: rest) 0 (by simp)]
  have hclass : defaultCharDict 0 = 0 := by decide!
  have hstart : isTokenStart defaultCharDict (0 :: rest) 0 = false := by
    unfold isTokenStart
    rw [List.getElem?_cons_zero]
    simp only [hclass]
    decide
  have hmask : maskPrefix defaultCharDict (0 :: rest) 1 = 0 :: rest := by
    have hand : (0 : Byte) &&& 0 = 0 := by decide
    unfold maskPrefix
    simp [hclass, hand]
  show some ((List.range 1).filter (isTokenStart defaultCharDict (0 :: rest)),
    maskPrefix defaultCharDict (0 :: rest) 1) = some ([], 0 :: rest)
  rw [hmask]
  simp [List.range_succ, hstart]

theorem loadedBuffer_terminator (data : List Byte) (fileSize : Nat) :
    (loadedBuffer data fileSize)[fileSize]? = some 0 := by
  unfold loadedBuffer
  have hlen : ((data ++ List.replicate fileSize 0).take fileSize).length = fileSize := by
    simp only [List.length_take, List.length_append, List.length_replicate]
    omega
  rw [List.getElem?_append_right (by omega), hlen, Nat.sub_self, List.getElem?_cons_zero]

/-- C7 as stated fails at `sizeBytes = 0`, where `tokenize` still classifies and masks
byte 0 and may push it: on the 2-byte allocation "a\0" it returns the start 0, which is
not below 0; on " \0" it overwrites the byte at index 0 with 0, and the two results differ
although the first 0 bytes agree; on an empty allocation the access is undefined.  So not
every run of `tokenize` has all its starts below the size and leaves the bytes from the
size on unchanged. -/
theorem tokenize_size_zero_touches_byte_zero :
    tokenize [97, 0] 0 defaultCharDict = some ([0], [97, 0]) ∧
    tokenize [32, 0] 0 defaultCharDict = some ([], [0, 0]) ∧
    tokenize [] 0 defaultCharDict = none ∧
    ¬ (∀ (buffer : List Byte) (n : Nat) (tokens : List Nat) (buffer' : List Byte),
        tokenize buffer n defaultCharDict = some (tokens, buffer') →
          (∀ t ∈ tokens, t < n) ∧ ∀ i, n ≤ i → buffer'[i]? = buffer[i]?) := by
  have ha : tokenize [97, 0] 0 defaultCharDict = some ([0], [97, 0]) := by decide!
  refine ⟨ha, by decide!, by decide!, ?_⟩
  intro hall
  have h := (hall [97, 0] 0 [0] [97, 0] ha).1 0 (List.mem_singleton.2 rfl)
  omega

/-- C7 amended.  For every table, buffer and `sizeBytes >= 1` inside the allocation,
`tokenize` returns, every start is below `sizeBytes`, every byte at an index from
`sizeBytes` on is unchanged, and the starts and the first `sizeBytes` bytes left depend
only on the first `sizeBytes` bytes given.  With `sizeBytes = 0` it does what it does with
`sizeBytes = 1`: it touches the byte at index 0.  When the byte at index `sizeBytes` is
the zero terminator, the same three properties hold with the default table for every
`sizeBytes`, 0 included, among the buffers so terminated.  Every buffer the loader makes
is so terminated: for a file of size 0 it is the one terminator byte, on which `tokenize`
returns no start and which it leaves as it is. -/
theorem tokenize_stays_below_size_or_terminator :
    (∀ (charDict : CharDict) (buffer : List Byte) (n : Nat), 1 ≤ n → n ≤ buffer.length →
      ∃ tokens buffer', tokenize buffer n charDict = some (tokens, buffer') ∧
        (∀ t ∈ tokens, t < n) ∧
        (∀ i, n ≤ i → buffer'[i]? = buffer[i]?) ∧
        ∀ other : List Byte, other.take n = buffer.take n → n ≤ other.length →
          ∃ other', tokenize other n charDict = some (tokens, other') ∧
            other'.take n = buffer'.take n) ∧
    (∀ (charDict : CharDict) (buffer : List Byte),
      tokenize buffer 0 charDict = tokenize buffer 1 charDict) ∧
    (∀ (buffer : List Byte) (n : Nat), buffer[n]? = some 0 →
      ∃ tokens buffer', tokenize buffer n defaultCharDict = some (tokens, buffer') ∧
        (∀ t ∈ tokens, t < n) ∧
        (∀ i, n ≤ i → buffer'[i]? = buffer[i]?) ∧
        ∀ other : List Byte, other.take n = buffer.take n → other[n]? = some 0 →
          ∃ other', tokenize other n defaultCharDict = some (tokens, other') ∧
            other'.take n = buffer'.take n) ∧
    (∀ (fs : FileSystem) (entry : FileInfo) (fileData : FileData),
      loadResult fs entry = some fileData →
        fileData.content[fileData.size]? = some 0 ∧
        (fileData.size = 0 →
          fileData.content = [0] ∧
          tokenize fileData.content fileData.size defaultCharDict =
            some ([], fileData.content))) := by
  have hlt : ∀ (l : List Byte) (n : Nat), l[n]? = some 0 → n < l.length := by
    intro l n h
    by_contra hge
    rw [List.getElem?_eq_none (by omega)] at h
    cases h
  have hcons : ∀ l : List Byte, l[0]? = some 0 → ∃ rest, l = 0 :: rest := by
    intro l h
    cases l with
    | nil => cases h
    | cons c rest =>
      rw [List.getElem?_cons_zero] at h
      exact ⟨rest, by rw [Option.some.inj h]⟩
  refine ⟨tokenize_within_size, tokenize_zero_eq_one, ?_, ?_⟩
  · intro buffer n hterm
    have hn := hlt buffer n hterm
    cases n with
    | zero =>
      obtain ⟨rest, rfl⟩ := hcons buffer hterm
      refine ⟨[], 0 :: rest, tokenize_zero_at_terminator rest, ?_, fun _ _ => rfl, ?_⟩
      · intro t ht
        cases ht
      · intro other _ hother
        obtain ⟨rest', rfl⟩ := hcons other hother
        exact ⟨0 :: rest', tokenize_zero_at_terminator rest', rfl⟩
    | succ n =>
      obtain ⟨tokens, buffer', h1, h2, h3, h4⟩ :=
        tokenize_within_size defaultCharDict buffer (n + 1) (by omega) (by omega)
      refine ⟨tokens, buffer', h1, h2, h3, ?_⟩
      intro other htake hother
      exact h4 other htake (by have := hlt other (n + 1) hother; omega)
  · intro fs entry fileData hload
    have hcontent : fileData.content = loadedBuffer (fs entry.1).data fileData.size := by
      unfold loadResult at hload
      split at hload
      · cases hload
      · split at hload
        · cases hload
        · split at hload
          · cases hload
            rfl
          · cases hload
    refine ⟨?_, ?_⟩
    · rw [hcontent]
      exact loadedBuffer_terminator _ _
    · intro hsize
      have hbuf : fileData.content = [0] := by
        rw [hcontent, hsize]
        simp [loadedBuffer]
      rw [hbuf, hsize]
      exact ⟨rfl, tokenize_zero_at_terminator []⟩

/-- C7 amended, on "ab cd" with its terminator and size 5, and on the terminator alone
with size 0, which is the buffer of an empty file. -/
theorem tokenize_stays_below_size_or_terminator_witness :
    tokenize [97, 98, 32, 99, 100, 0] 5 defaultCharDict =
      some ([0, 3], [97, 98, 0, 99, 100, 0]) ∧
    tokenize [0] 0 defaultCharDict = some ([], [0]) ∧
    (∃ tokens buffer', tokenize [97, 98, 32, 99, 100, 0] 5 defaultCharDict =
        some (tokens, buffer') ∧
      (∀ t ∈ tokens, t < 5) ∧
      ∀ i, 5 ≤ i → buffer'[i]? = [(97 : Byte), 98, 32, 99, 100, 0][i]?) ∧
    (∃ tokens buffer', tokenize [0] 0 defaultCharDict = some (tokens, buffer') ∧
      (∀ t ∈ tokens, t < 0) ∧ ∀ i, 0 ≤ i → buffer'[i]? = [(0 : Byte)][i]?) :=
  ⟨by decide!, by decide!,
   (tokenize_stays_below_size_or_terminator.1 defaultCharDict [97, 98, 32, 99, 100, 0] 5
      (by decide) (by decide)).elim fun tokens h => h.elim fun buffer' hb =>
        ⟨tokens, buffer', hb.1, hb.2.1, hb.2.2.1⟩,
   (tokenize_stays_below_size_or_terminator.2.2.1 [0] 0 rfl).elim fun tokens h =>
      h.elim fun buffer' hb => ⟨tokens, buffer', hb.1, hb.2.1, hb.2.2.1⟩⟩

end BranchlessTest
